import Mathlib

/-! MultiFileReader: a shallow embedding of `mfr.go`.

The Go type `MultiFileReader` presents an ordered list of files of an `fs.FS`
as one seekable byte stream.  This file embeds its state and its methods
(`New`, `Read`, `Seek`, `Close`, `openCurrentFile`) as Lean functions with
explicit state passing, together with a model of the collaborators the code
talks to (the file store and the `*os.File` handles it hands out), and proves
properties of the stream.

Conventions.
* `int64` values are `Int`; every `int64` addition or subtraction of the source
  goes through `wrap64`, the two's-complement wrap-around.
* A buffer `p []byte` is represented by its length; `Read` returns the bytes it
  placed in `p[0:n]`, so that the returned count `n` is the length of that list.
* A Go run-time panic (nil dereference, index out of range) and an exhausted
  iteration budget are both `none`.
-/

namespace Mfr

/-! ## Machine integers -/

/-- Two's-complement wrap-around of an integer to the `int64` range. -/
def wrap64 (x : Int) : Int :=
  (x + 9223372036854775808) % 18446744073709551616 - 9223372036854775808

/-- Membership in the `int64` range. -/
def inInt64 (x : Int) : Prop :=
  -9223372036854775808 ≤ x ∧ x < 9223372036854775808

instance (x : Int) : Decidable (inInt64 x) := by
  unfold inInt64; infer_instance

/-! ## Errors -/

/-- The error values that occur: `io.EOF`, the values built by `errors.New`,
and the errors of the file store and of its handles. -/
inductive Error where
  /-- The sentinel `io.EOF`. -/
  | EOF
  /-- An error made by `errors.New msg`. -/
  | errorString (msg : String)
  /-- The sentinel `fs.ErrNotExist`. -/
  | ErrNotExist
  /-- The sentinel `os.ErrClosed`: use of a handle after `Close`. -/
  | ErrClosed
  /-- The errno `EINVAL`: reposition of a handle to a negative offset. -/
  | EINVAL
  deriving DecidableEq, Repr

/-- The method `Error()` of an error value: its message. -/
def Error.message : Error → String
  | .EOF => "EOF"
  | .errorString msg => msg
  | .ErrNotExist => "file does not exist"
  | .ErrClosed => "file already closed"
  | .EINVAL => "invalid argument"

/-! ## The file store and its handles -/

/-- An open file as `dir.Open` returns it (an `*os.File`): the bytes of the
file, the position of the next read, and whether `Close` was called. -/
structure File where
  /-- The bytes of the file. -/
  data : List UInt8
  /-- The offset of the next read. -/
  pos : Nat
  /-- Whether the handle was closed. -/
  closed : Bool
  deriving DecidableEq, Repr

/-- The method `(*os.File).Read` on a buffer of length `k`: an error on a closed
handle, `(0, nil)` for an empty buffer, `(0, io.EOF)` at the end of the file,
and otherwise the next `min k remaining` bytes. -/
def File.Read (f : File) (k : Nat) : (List UInt8 × Option Error) × File :=
  if f.closed then (([], some Error.ErrClosed), f)
  else if k = 0 then (([], none), f)
  else
    let chunk := (f.data.drop f.pos).take k
    if chunk.length = 0 then (([], some Error.EOF), f)
    else ((chunk, none), { f with pos := f.pos + chunk.length })

/-- The method `(*os.File).Seek offset io.SeekStart`: an error on a closed
handle or for a negative offset, and otherwise the position becomes `offset`
(also beyond the end of the file), which is returned. -/
def File.Seek (f : File) (offset : Int) : (Int × Option Error) × File :=
  if f.closed then ((0, some Error.ErrClosed), f)
  else if offset < 0 then ((0, some Error.EINVAL), f)
  else ((offset, none), { f with pos := offset.toNat })

/-- The method `(*os.File).Close`: an error when the handle is closed already. -/
def File.Close (f : File) : Option Error × File :=
  if f.closed then (some Error.ErrClosed, f)
  else (none, { f with closed := true })

/-- The file store `fs.FS` as far as the reader uses it: `fs.Stat` gives the
size of a path and `Open` gives its bytes, each of them or an error. -/
structure FS where
  /-- The size `fs.Stat` reports for a path. -/
  stat : String → Except Error Int
  /-- The bytes of the file `Open` returns for a path. -/
  openFile : String → Except Error (List UInt8)

/-- The method `dir.Open name`: a fresh handle at position 0. -/
def FS.Open (dir : FS) (name : String) : Except Error File :=
  match dir.openFile name with
  | .ok d => .ok { data := d, pos := 0, closed := false }
  | .error e => .error e

/-! ## The reader -/

/-- The struct `MultiFileReader`.  `openHandles` is not a field of the Go
struct: it is the store's record of how many handles obtained from `dir.Open`
have not been closed yet. -/
structure MultiFileReader where
  /-- The entries, in concatenation order. -/
  filepaths : List String
  /-- The file store. -/
  dir : FS
  /-- The index of the current file. -/
  entriesOffset : Nat
  /-- The open handle, `none` for `nil`. -/
  currentReader : Option File
  /-- The virtual offset in the concatenation. -/
  totalOffset : Int
  /-- The offset in the current file. -/
  fileOffset : Int
  /-- The size of all files combined. -/
  totalSize : Int
  /-- The size of each file. -/
  filesizes : List Int
  /-- Store-side count of handles that are open. -/
  openHandles : Nat

/-- The loop of `New` over the entries: `fs.Stat` each one, append its size
and add it to the total; a failing `fs.Stat` panics with its error. -/
def New.loop : List String → MultiFileReader → Except Error MultiFileReader
  | [], r => .ok r
  | entry :: rest, r =>
    match r.dir.stat entry with
    | .error e => .error e
    | .ok size =>
      New.loop rest
        { r with filesizes := r.filesizes ++ [size],
                 totalSize := wrap64 (r.totalSize + size) }

/-- The constructor `New dir files`; `.error` is the panic of a failing stat. -/
def New (dir : FS) (files : List String) : Except Error MultiFileReader :=
  New.loop files
    { filepaths := files, dir := dir, entriesOffset := 0, currentReader := none,
      totalOffset := 0, fileOffset := 0, totalSize := 0, filesizes := [],
      openHandles := 0 }

/-- The statement `mfr.currentReader.Close()` on a handle `f`, its error
dropped: the handle after the call and the store's count. -/
def closeHandle (f : File) (openHandles : Nat) : File × Nat :=
  match f.Close with
  | (none, f1) => (f1, openHandles - 1)
  | (some _, f1) => (f1, openHandles)

/-- The method `openCurrentFile`: `io.EOF` past the last entry, the error of
`dir.Open` if it fails, and otherwise the new handle becomes the current one
after any previous one was closed. -/
def openCurrentFile (mfr : MultiFileReader) : Option Error × MultiFileReader :=
  if mfr.filepaths.length ≤ mfr.entriesOffset then (some Error.EOF, mfr)
  else
    match mfr.dir.Open (mfr.filepaths.getD mfr.entriesOffset "") with
    | .error e => (some e, mfr)
    | .ok f =>
      let n := match mfr.currentReader with
        | some old => (closeHandle old (mfr.openHandles + 1)).2
        | none => mfr.openHandles + 1
      (none, { mfr with currentReader := some f, openHandles := n })

/-- Lines 64-73 of `Read`: when `fileOffset > 0` the handle is repositioned to
it, and an error or a different resulting offset ends the call. -/
def Read.sync (fileOffset : Int) (f : File) : Option Error × File :=
  if 0 < fileOffset then
    match f.Seek fileOffset with
    | ((_, some e), f1) => (some e, f1)
    | ((n, none), f1) =>
      if n ≠ fileOffset then (some (Error.errorString "seek failed"), f1)
      else (none, f1)
  else (none, f)

/-- The `for` loop of `Read`, at most `fuel` iterations of it: `lenp` is
`len(p)` and `acc` is `p[0:read]`. -/
def Read.loop : Nat → MultiFileReader → Nat → List UInt8 →
    Option ((List UInt8 × Option Error) × MultiFileReader)
  | 0, _, _, _ => none
  | fuel + 1, mfr, lenp, acc =>
    let opened := match mfr.currentReader with
      | none => openCurrentFile mfr
      | some _ => (none, mfr)
    match opened with
    | (some e, m0) => some ((acc, some e), m0)
    | (none, m0) =>
      match m0.currentReader with
      | none => none
      | some f =>
        match Read.sync m0.fileOffset f with
        | (some e, f1) => some ((acc, some e), { m0 with currentReader := some f1 })
        | (none, f1) =>
          match f1.Read (lenp - acc.length) with
          | ((bs, err), f2) =>
            let read := acc ++ bs
            let m1 := { m0 with currentReader := some f2,
                                fileOffset := wrap64 (m0.fileOffset + bs.length),
                                totalOffset := wrap64 (m0.totalOffset + bs.length) }
            match err with
            | some Error.EOF =>
              if m1.filepaths.length ≤ m1.entriesOffset then
                some ((read, some Error.EOF), m1)
              else
                let c := closeHandle f2 m1.openHandles
                Read.loop fuel
                  { m1 with fileOffset := 0, currentReader := none,
                            entriesOffset := m1.entriesOffset + 1,
                            openHandles := c.2 }
                  lenp read
            | some e => some ((read, some e), m1)
            | none =>
              if read.length = lenp then some ((read, none), m1)
              else Read.loop fuel m1 lenp read

/-- The number of iterations after which the loop of `Read` has returned:
every iteration that does not return moves to the next entry or places at
least one more byte in the buffer. -/
def Read.fuel (mfr : MultiFileReader) (lenp : Nat) : Nat :=
  (mfr.filepaths.length - mfr.entriesOffset) + lenp + 1

/-- The method `Read p` for a buffer of length `lenp`: the bytes placed in the
buffer, the error, and the reader after the call. -/
def Read (mfr : MultiFileReader) (lenp : Nat) :
    Option ((List UInt8 × Option Error) × MultiFileReader) :=
  Read.loop (Read.fuel mfr lenp) mfr lenp []

/-- The scan of `Seek` (lines 137-144) with `remaining` entries still to look
at: `i` is `entriesOffset` and `start` is `fileStartOffset`.  An index outside
`filesizes` panics. -/
def Seek.scan (filesizes : List Int) (abs : Int) : Nat → Nat → Int → Option (Nat × Int)
  | 0, i, start => some (i, start)
  | remaining + 1, i, start =>
    match filesizes[i]? with
    | none => none
    | some fileSize =>
      if wrap64 (start + fileSize) > abs then some (i, start)
      else Seek.scan filesizes abs remaining (i + 1) (wrap64 (start + fileSize))

/-- The `switch whence` of `Seek`: the absolute offset as the code computes it
in `int64`, or `none` for an unsupported `whence`. -/
def Seek.abs (mfr : MultiFileReader) (offset : Int) (whence : Int) : Option Int :=
  if whence = 0 then some offset
  else if whence = 1 then some (wrap64 (mfr.totalOffset + offset))
  else if whence = 2 then some (wrap64 (mfr.totalSize + offset))
  else none

/-- Lines 120-123 of `Seek`: a current handle is closed and dropped. -/
def Seek.release (mfr : MultiFileReader) : MultiFileReader :=
  match mfr.currentReader with
  | some f =>
    { mfr with currentReader := none,
               openHandles := (closeHandle f mfr.openHandles).2 }
  | none => mfr

/-- The method `Seek offset whence`: the returned offset, the error, and the
reader after the call. -/
def Seek (mfr : MultiFileReader) (offset : Int) (whence : Int) :
    Option ((Int × Option Error) × MultiFileReader) :=
  match Seek.abs mfr offset whence with
  | none => some ((0, some (Error.errorString "invalid whence")), mfr)
  | some abs =>
    if abs < 0 then some ((0, some (Error.errorString "negative position")), mfr)
    else
      let m0 := Seek.release mfr
      if abs = m0.totalSize then
        some ((m0.totalSize, none), { m0 with totalOffset := m0.totalSize })
      else if abs > m0.totalSize then
        some ((0, some Error.EOF), { m0 with totalOffset := m0.totalSize })
      else
        match Seek.scan m0.filesizes abs m0.filepaths.length 0 0 with
        | none => none
        | some (i, fileStartOffset) =>
          some ((abs, none),
            { m0 with entriesOffset := i, totalOffset := abs,
                      fileOffset := wrap64 (abs - fileStartOffset) })

/-- The method `Close`: the error of closing the current handle, if there is
one; the field `currentReader` keeps the handle. -/
def Close (mfr : MultiFileReader) : Option Error × MultiFileReader :=
  match mfr.currentReader with
  | some f =>
    match f.Close with
    | (none, f1) =>
      (none, { mfr with currentReader := some f1, openHandles := mfr.openHandles - 1 })
    | (some e, f1) => (some e, { mfr with currentReader := some f1 })
  | none => (none, mfr)

/-! ## Reading a stream to its end -/

/-- A caller that reads with buffers of length `lenp` until `Read` reports
`io.EOF`, at most `calls` times, and collects the bytes; an error other than
`io.EOF` ends it with that error. -/
def readAll : Nat → MultiFileReader → Nat →
    Option (Except Error (List UInt8) × MultiFileReader)
  | 0, _, _ => none
  | calls + 1, mfr, lenp =>
    match Read mfr lenp with
    | none => none
    | some ((bs, some Error.EOF), m1) => some (.ok bs, m1)
    | some ((_, some e), m1) => some (.error e, m1)
    | some ((bs, none), m1) =>
      match readAll calls m1 lenp with
      | none => none
      | some (.ok rest, m2) => some (.ok (bs ++ rest), m2)
      | some (.error e, m2) => some (.error e, m2)

/-- The bytes of a string literal. -/
def bytes (s : String) : List UInt8 :=
  s.toList.map (fun c => UInt8.ofNat c.toNat)

/-- A store of regular files given as (name, content) pairs. -/
def storeOf (files : List (String × String)) : FS where
  stat name :=
    match files.lookup name with
    | some c => .ok ((bytes c).length : Int)
    | none => .error Error.ErrNotExist
  openFile name :=
    match files.lookup name with
    | some c => .ok (bytes c)
    | none => .error Error.ErrNotExist

/-- The directory of the tests: two files of 13 bytes each. -/
def testDir : FS :=
  storeOf [("file1.txt", "file1 content"), ("file2.txt", "file2 content")]


deriving instance DecidableEq for Except

/-! ## The bytes of the stream -/

/-- The bytes `dir.Open` gives for a path; empty when it fails. -/
def FS.content (dir : FS) (name : String) : List UInt8 :=
  match dir.openFile name with
  | .ok d => d
  | .error _ => []

/-- The concatenation of the files of the listed paths, in list order. -/
def contents (dir : FS) : List String → List UInt8
  | [] => []
  | name :: rest => dir.content name ++ contents dir rest

/-- The store serves each listed path as a regular file: it opens, and its
stat size is the length of its bytes, an `int64`. -/
def FS.Serves (dir : FS) (paths : List String) : Prop :=
  ∀ name ∈ paths,
    dir.openFile name = .ok (dir.content name) ∧
    dir.stat name = .ok ((dir.content name).length : Int) ∧
    ((dir.content name).length : Int) < 9223372036854775808

instance (dir : FS) (paths : List String) : Decidable (dir.Serves paths) := by
  unfold FS.Serves; infer_instance

/-- The bytes of the stream from the physical position of the reader (entry
`entriesOffset`, offset `fileOffset` in it) to the end. -/
def remaining (mfr : MultiFileReader) : List UInt8 :=
  (contents mfr.dir (mfr.filepaths.drop mfr.entriesOffset)).drop mfr.fileOffset.toNat

/-- The physical position of the reader is a position of the stream and its
handle, if one is open, is a handle of the current entry: the current index
is at most the number of entries, the offset lies in the current file (it is
0 past the last entry), and an open handle is an unclosed handle on the bytes
of the current entry, at position 0 when the offset is 0. -/
def Synced (mfr : MultiFileReader) : Prop :=
  mfr.entriesOffset ≤ mfr.filepaths.length ∧
  0 ≤ mfr.fileOffset ∧
  mfr.fileOffset ≤ (contents mfr.dir ((mfr.filepaths.drop mfr.entriesOffset).take 1)).length ∧
  match mfr.currentReader with
  | none => True
  | some f =>
    mfr.entriesOffset < mfr.filepaths.length ∧ f.closed = false ∧
    f.data = mfr.dir.content (mfr.filepaths.getD mfr.entriesOffset "") ∧
    (mfr.fileOffset = 0 → f.pos = 0)

instance (mfr : MultiFileReader) : Decidable (Synced mfr) := by
  unfold Synced
  cases mfr.currentReader <;> infer_instance

/-- The fields that no method changes after construction. -/
def SameStream (a b : MultiFileReader) : Prop :=
  b.filepaths = a.filepaths ∧ b.dir = a.dir ∧ b.filesizes = a.filesizes ∧
  b.totalSize = a.totalSize


/-- What construction establishes about the sizes: `filesizes` holds the
length of each entry, and `totalSize` is their sum, an `int64`. -/
def Sized (mfr : MultiFileReader) : Prop :=
  mfr.filesizes = mfr.filepaths.map (fun name => ((mfr.dir.content name).length : Int)) ∧
  mfr.totalSize = mfr.filesizes.sum ∧
  mfr.totalSize < 9223372036854775808

instance (mfr : MultiFileReader) : Decidable (Sized mfr) := by
  unfold Sized; infer_instance

/-- The physical position of the reader agrees with its cursor: the current
index and the offset in the current file are a position of the stream (the
index is at most the number of entries and the offset lies in the current
file), the cursor is the sum of the sizes before the current index plus the
offset in the file, and no handle is open or the open handle is a handle of
the current entry, at the position of the reader. -/
def Agrees (mfr : MultiFileReader) : Prop :=
  mfr.entriesOffset ≤ mfr.filepaths.length ∧
  0 ≤ mfr.fileOffset ∧
  mfr.fileOffset ≤ mfr.filesizes.getD mfr.entriesOffset 0 ∧
  mfr.totalOffset = (mfr.filesizes.take mfr.entriesOffset).sum + mfr.fileOffset ∧
  match mfr.currentReader with
  | none => True
  | some f =>
    mfr.entriesOffset < mfr.filepaths.length ∧ f.closed = false ∧
    f.data = mfr.dir.content (mfr.filepaths.getD mfr.entriesOffset "") ∧
    (mfr.fileOffset = 0 → f.pos = 0)

instance (mfr : MultiFileReader) : Decidable (Agrees mfr) := by
  unfold Agrees
  cases mfr.currentReader <;> infer_instance

/-- The reader of the boundary test after `Seek 11 io.SeekStart`. -/
def atBoundary : MultiFileReader :=
  { filepaths := ["file1.txt", "file2.txt"], dir := testDir, entriesOffset := 0,
    currentReader := none, totalOffset := 11, fileOffset := 11, totalSize := 26,
    filesizes := [13, 13], openHandles := 0 }


/-- The absolute target of a seek in exact integer arithmetic, as the
anchors define it: `offset` from the start, cursor plus `offset` from the
current position, total size plus `offset` from the end; `none` for any other
anchor.  `Seek.abs` is the same value as the code computes it in `int64`. -/
def Seek.target (mfr : MultiFileReader) (offset : Int) (whence : Int) : Option Int :=
  if whence = 0 then some offset
  else if whence = 1 then some (mfr.totalOffset + offset)
  else if whence = 2 then some (mfr.totalSize + offset)
  else none

/-- The directory of the first test: three files of 13 bytes each. -/
def testDir3 : FS :=
  storeOf [("file1.txt", "file1 content"), ("file2.txt", "file2 content"),
    ("file3.txt", "file3 content")]

/-- The reader of the tests right after `New`. -/
def fresh : MultiFileReader :=
  { filepaths := ["file1.txt", "file2.txt"], dir := testDir, entriesOffset := 0,
    currentReader := none, totalOffset := 0, fileOffset := 0, totalSize := 26,
    filesizes := [13, 13], openHandles := 0 }


/-- The one-file reader of the invalid-offset test right after `New`. -/
def oneFile : MultiFileReader :=
  { filepaths := ["file1.txt"], dir := testDir, entriesOffset := 0,
    currentReader := none, totalOffset := 0, fileOffset := 0, totalSize := 13,
    filesizes := [13], openHandles := 0 }

/-- What a `Read` that starts in `s` and asks for `k` more bytes leaves
behind in `s'`. -/
def ReadPost (s s' : MultiFileReader) (k : Nat) : Prop :=
  Synced s' ∧ remaining s' = (remaining s).drop k ∧ SameStream s s' ∧
  inInt64 s'.totalOffset ∧
  s'.totalOffset = wrap64 (s.totalOffset + (min k (remaining s).length : Nat)) ∧
  ((remaining s).length < k →
    s'.currentReader = none ∧ s'.entriesOffset = s'.filepaths.length ∧ s'.fileOffset = 0)


/-! ## The loop of `Read` over arbitrary handles -/

/-- The behaviour of a file store whose handles are values of `H`: the method
`dir.Open`, and the methods `Read`, `Seek` (from `io.SeekStart`) and `Close` of
the `io.ReadSeekCloser` it returns, each with the handle after the call.  The
methods may fail, return fewer bytes than asked for, bytes together with an
error, or an offset other than the one asked for. -/
structure Handles (H : Type) where
  /-- The method `dir.Open name`. -/
  openFile : String → Except Error H
  /-- The method `Read` on a buffer of the given length: the bytes placed in
  the buffer (their number is the returned count) and the error. -/
  read : H → Nat → (List UInt8 × Option Error) × H
  /-- The method `Seek offset io.SeekStart`: the returned offset and the error. -/
  seek : H → Int → (Int × Option Error) × H
  /-- The method `Close`. -/
  close : H → Option Error × H

/-- The fields of the struct `MultiFileReader` other than `dir`, with handles
of type `H` in `currentReader`. -/
structure Stream (H : Type) where
  /-- The entries, in concatenation order. -/
  filepaths : List String
  /-- The index of the current file. -/
  entriesOffset : Nat
  /-- The open handle, `none` for `nil`. -/
  currentReader : Option H
  /-- The virtual offset in the concatenation. -/
  totalOffset : Int
  /-- The offset in the current file. -/
  fileOffset : Int
  /-- The size of all files combined. -/
  totalSize : Int
  /-- The size of each file. -/
  filesizes : List Int
  /-- Store-side count of handles that are open. -/
  openHandles : Nat

/-- What one iteration of the loop of `Read` does: it returns, it goes on to
the next iteration, or the program panics. -/
inductive Step (H : Type) where
  /-- The call returns the bytes placed in the buffer and the error. -/
  | done (r : List UInt8 × Option Error) (s : Stream H)
  /-- The loop continues with `read` bytes placed in the buffer so far. -/
  | next (s : Stream H) (read : List UInt8)
  /-- A nil dereference or a slice bound out of range. -/
  | crash

/-- The statement `mfr.currentReader.Close()` over arbitrary handles. -/
def Stream.closeHandle {H : Type} (io : Handles H) (h : H) (openHandles : Nat) : H × Nat :=
  match io.close h with
  | (none, h1) => (h1, openHandles - 1)
  | (some _, h1) => (h1, openHandles)

/-- The method `openCurrentFile` over arbitrary handles. -/
def Stream.openCurrentFile {H : Type} (io : Handles H) (s : Stream H) :
    Option Error × Stream H :=
  if s.filepaths.length ≤ s.entriesOffset then (some Error.EOF, s)
  else
    match io.openFile (s.filepaths.getD s.entriesOffset "") with
    | .error e => (some e, s)
    | .ok h =>
      let n := match s.currentReader with
        | some old => (Stream.closeHandle io old (s.openHandles + 1)).2
        | none => s.openHandles + 1
      (none, { s with currentReader := some h, openHandles := n })

/-- Lines 64-73 of `Read` over arbitrary handles. -/
def Stream.sync {H : Type} (io : Handles H) (fileOffset : Int) (h : H) : Option Error × H :=
  if 0 < fileOffset then
    match io.seek h fileOffset with
    | ((_, some e), h1) => (some e, h1)
    | ((n, none), h1) =>
      if n ≠ fileOffset then (some (Error.errorString "seek failed"), h1)
      else (none, h1)
  else (none, h)

/-- One iteration of the `for` loop of `Read` (lines 57-99) over arbitrary
handles: `lenp` is `len(p)` and `acc` is `p[0:read]`. -/
def Stream.iter {H : Type} (io : Handles H) (s : Stream H) (lenp : Nat)
    (acc : List UInt8) : Step H :=
  let opened := match s.currentReader with
    | none => Stream.openCurrentFile io s
    | some _ => (none, s)
  match opened with
  | (some e, m0) => Step.done (acc, some e) m0
  | (none, m0) =>
    match m0.currentReader with
    | none => Step.crash
    | some h =>
      match Stream.sync io m0.fileOffset h with
      | (some e, h1) => Step.done (acc, some e) { m0 with currentReader := some h1 }
      | (none, h1) =>
        if lenp < acc.length then Step.crash
        else
          match io.read h1 (lenp - acc.length) with
          | ((bs, err), h2) =>
            let read := acc ++ bs
            let m1 := { m0 with currentReader := some h2,
                                fileOffset := wrap64 (m0.fileOffset + bs.length),
                                totalOffset := wrap64 (m0.totalOffset + bs.length) }
            match err with
            | some Error.EOF =>
              if m1.filepaths.length ≤ m1.entriesOffset then
                Step.done (read, some Error.EOF) m1
              else
                let c := Stream.closeHandle io h2 m1.openHandles
                Step.next
                  { m1 with fileOffset := 0, currentReader := none,
                            entriesOffset := m1.entriesOffset + 1,
                            openHandles := c.2 }
                  read
            | some e => Step.done (read, some e) m1
            | none =>
              if read.length = lenp then Step.done (read, none) m1
              else Step.next m1 read

/-- The `for` loop of `Read` over arbitrary handles, at most `fuel`
iterations of it. -/
def Stream.loop {H : Type} (io : Handles H) : Nat → Stream H → Nat → List UInt8 →
    Option ((List UInt8 × Option Error) × Stream H)
  | 0, _, _, _ => none
  | fuel + 1, s, lenp, acc =>
    match Stream.iter io s lenp acc with
    | Step.done r s1 => some (r, s1)
    | Step.next s1 read => Stream.loop io fuel s1 lenp read
    | Step.crash => none

/-- The handle at hand after lines 57-62 of an iteration, and the reader
then: the current handle, or the one `openCurrentFile` has just opened. -/
def Stream.atHand {H : Type} (io : Handles H) (s : Stream H) : Option (H × Stream H) :=
  match s.currentReader with
  | some h => some (h, s)
  | none =>
    match Stream.openCurrentFile io s with
    | (none, m0) =>
      match m0.currentReader with
      | some h => some (h, m0)
      | none => none
    | (some _, _) => none

/-- The handles of the store `dir` of the reader: the model of `*os.File`. -/
def fileHandles (dir : FS) : Handles File where
  openFile := dir.Open
  read := File.Read
  seek := File.Seek
  close := File.Close

/-- The reader without its store. -/
def toStream (mfr : MultiFileReader) : Stream File :=
  { filepaths := mfr.filepaths, entriesOffset := mfr.entriesOffset,
    currentReader := mfr.currentReader, totalOffset := mfr.totalOffset,
    fileOffset := mfr.fileOffset, totalSize := mfr.totalSize,
    filesizes := mfr.filesizes, openHandles := mfr.openHandles }

/-- The reader over the store `dir` with the fields of `s`. -/
def ofStream (dir : FS) (s : Stream File) : MultiFileReader :=
  { filepaths := s.filepaths, dir := dir, entriesOffset := s.entriesOffset,
    currentReader := s.currentReader, totalOffset := s.totalOffset,
    fileOffset := s.fileOffset, totalSize := s.totalSize,
    filesizes := s.filesizes, openHandles := s.openHandles }

/-- Lines 64-99 of an iteration of `Read` over arbitrary handles, with the
handle `h` at hand in the reader `m0`. -/
def Stream.body {H : Type} (io : Handles H) (m0 : Stream H) (h : H) (lenp : Nat)
    (acc : List UInt8) : Step H :=
  match Stream.sync io m0.fileOffset h with
  | (some e, h1) => Step.done (acc, some e) { m0 with currentReader := some h1 }
  | (none, h1) =>
    if lenp < acc.length then Step.crash
    else
      match io.read h1 (lenp - acc.length) with
      | ((bs, err), h2) =>
        let read := acc ++ bs
        let m1 := { m0 with currentReader := some h2,
                            fileOffset := wrap64 (m0.fileOffset + bs.length),
                            totalOffset := wrap64 (m0.totalOffset + bs.length) }
        match err with
        | some Error.EOF =>
          if m1.filepaths.length ≤ m1.entriesOffset then
            Step.done (read, some Error.EOF) m1
          else
            let c := Stream.closeHandle io h2 m1.openHandles
            Step.next
              { m1 with fileOffset := 0, currentReader := none,
                        entriesOffset := m1.entriesOffset + 1,
                        openHandles := c.2 }
              read
        | some e => Step.done (read, some e) m1
        | none =>
          if read.length = lenp then Step.done (read, none) m1
          else Step.next m1 read

/-- The reader after line 78 of `Read`: the handle `h2` as the read left it,
and the two offsets advanced by the number of bytes `bs` read. -/
def Stream.afterRead {H : Type} (m0 : Stream H) (h2 : H) (bs : List UInt8) : Stream H :=
  { m0 with currentReader := some h2,
            fileOffset := wrap64 (m0.fileOffset + bs.length),
            totalOffset := wrap64 (m0.totalOffset + bs.length) }

/-- The reader after lines 86-89 of `Read`: the handle closed and dropped, the
index moved to the next entry, the file offset 0. -/
def Stream.nextEntry {H : Type} (io : Handles H) (m0 : Stream H) (h2 : H)
    (bs : List UInt8) : Stream H :=
  { m0 with currentReader := none, fileOffset := 0,
            totalOffset := wrap64 (m0.totalOffset + bs.length),
            entriesOffset := m0.entriesOffset + 1,
            openHandles := (Stream.closeHandle io h2 m0.openHandles).2 }

/-- The fields of a reader over arbitrary handles that no iteration of `Read`
changes. -/
def Stream.Same {H : Type} (a b : Stream H) : Prop :=
  b.filepaths = a.filepaths ∧ b.filesizes = a.filesizes ∧ b.totalSize = a.totalSize

/-- The number of handles a reader holds open: 1 for an unclosed handle in
`currentReader`, and 0 otherwise. -/
def heldOpen (r : Option File) : Nat :=
  match r with
  | some f => if f.closed then 0 else 1
  | none => 0

/-- Handles of a store that misbehaves, for the examples: the state of a
handle is the number of `Read` calls made on it.  `Open` fails for the entry
`gone`; a reposition lands one byte short of the offset asked for; the first
`Read` on a handle returns the two bytes `ab`, and every later one returns
the byte `c` together with an i/o error. -/
def flakyHandles : Handles Nat where
  openFile name := if name = "gone" then .error Error.ErrNotExist else .ok 0
  read h _ :=
    if h = 0 then ((bytes "ab", none), 1)
    else ((bytes "c", some (Error.errorString "i/o error")), h + 1)
  seek h offset := ((offset - 1, none), h)
  close h := (none, h)

/-- A reader over the misbehaving store, right after construction. -/
def flakyStream (files : List String) : Stream Nat :=
  { filepaths := files, entriesOffset := 0, currentReader := none, totalOffset := 0,
    fileOffset := 0, totalSize := 4, filesizes := files.map (fun _ => 2),
    openHandles := 0 }

/-! ## Sequences of calls -/

/-- A call of a method of the reader by its user. -/
inductive Call where
  /-- A call `Read p` with a buffer of the given length. -/
  | read (lenp : Nat)
  /-- A call `Seek offset whence`. -/
  | seek (offset whence : Int)
  /-- A call `Close`. -/
  | close
  deriving DecidableEq, Repr

/-- The reader after a call, whatever the call returned; `none` when the call
panics. -/
def Call.run (c : Call) (mfr : MultiFileReader) : Option MultiFileReader :=
  match c with
  | Call.read lenp => (Read mfr lenp).map (fun r => r.2)
  | Call.seek offset whence => (Seek mfr offset whence).map (fun r => r.2)
  | Call.close => some (Close mfr).2

/-- The reader after a sequence of calls, the first call of the list first. -/
def runCalls : List Call → MultiFileReader → Option MultiFileReader
  | [], mfr => some mfr
  | c :: cs, mfr => (c.run mfr).bind (runCalls cs)

/-- The call is not a seek whose absolute offset, as `Seek` computes it, is
the total size or more: it is a `Read`, a `Close`, a seek that fails on its
arguments, or a seek into the stream. -/
def Call.inside (c : Call) (mfr : MultiFileReader) : Bool :=
  match c with
  | Call.seek offset whence =>
    match Seek.abs mfr offset whence with
    | some abs => decide (abs < mfr.totalSize)
    | none => true
  | _ => true

/-- The reader after a sequence of calls none of which is a seek to the end
of the stream or beyond; `none` when there is such a seek in the list. -/
def runInside : List Call → MultiFileReader → Option MultiFileReader
  | [], mfr => some mfr
  | c :: cs, mfr => if c.inside mfr then (c.run mfr).bind (runInside cs) else none

/-- The readers at the head of each iteration of the loop of `Read`, and the
reader the call returns with. -/
def Stream.heads {H : Type} (io : Handles H) : Nat → Stream H → Nat → List UInt8 →
    List (Stream H)
  | 0, s, _, _ => [s]
  | fuel + 1, s, lenp, acc =>
    s :: match Stream.iter io s lenp acc with
      | Step.done _ s1 => [s1]
      | Step.next s1 read => Stream.heads io fuel s1 lenp read
      | Step.crash => []

/-- The position of the reader agrees with its cursor when a handle that
`Close` has closed and left in `currentReader` is disregarded. -/
def AgreesModClose (mfr : MultiFileReader) : Prop :=
  Agrees mfr ∨
  ∃ f, mfr.currentReader = some f ∧ f.closed = true ∧
    Agrees { mfr with currentReader := none }

/-! ## Readers reached from `New` -/

/-- The reader is well placed: its sizes are those of the store, the store
serves its entries, its index and file offset are a position of the stream
with any open handle an unclosed handle of the current entry, and its cursor
is an `int64`. -/
def Placed (mfr : MultiFileReader) : Prop :=
  Sized mfr ∧ mfr.dir.Serves mfr.filepaths ∧ Synced mfr ∧ inInt64 mfr.totalOffset


/-! ## Arithmetic of `int64` -/

theorem wrap64_of_inInt64 {x : Int} (h : inInt64 x) : wrap64 x = x := by
  unfold inInt64 at h
  unfold wrap64
  omega

theorem wrap64_add_wrap64 (x y z : Int) :
    wrap64 (wrap64 (x + y) + z) = wrap64 (x + (y + z)) := by
  unfold wrap64
  omega

theorem inInt64_wrap64 (x : Int) : inInt64 (wrap64 x) := by
  unfold inInt64 wrap64
  omega

/-! ## Lists of entries -/

theorem drop_eq_cons {α : Type} {l : List α} {i : Nat} {a d : α} {t : List α}
    (h : l.drop i = a :: t) :
    i < l.length ∧ l.getD i d = a ∧ l.drop (i + 1) = t := by
  have hi : i < l.length := by
    by_contra hc
    rw [List.drop_eq_nil_of_le (by omega)] at h
    cases h
  rw [List.drop_eq_getElem_cons hi] at h
  injection h with h1 h2
  exact ⟨hi, by rw [List.getD_eq_getElem l d hi]; exact h1, h2⟩

/-! ## Handles -/

theorem Read.sync_open {f : File} {off : Int} (hc : f.closed = false) (h0 : 0 ≤ off)
    (hp : off = 0 → f.pos = 0) :
    Read.sync off f = (none, { f with pos := off.toNat }) := by
  unfold Read.sync
  by_cases hpos : 0 < off
  · simp [hpos, File.Seek, hc, Int.not_lt.mpr h0]
  · have hz : off = 0 := by omega
    have hfp := hp hz
    subst hz
    cases f
    simp_all

theorem File.Read_open {f : File} {k : Nat} (hc : f.closed = false) (hk : 0 < k) :
    f.Read k =
      if ((f.data.drop f.pos).take k).length = 0 then (([], some Error.EOF), f)
      else (((f.data.drop f.pos).take k, none),
        { f with pos := f.pos + ((f.data.drop f.pos).take k).length }) := by
  unfold File.Read
  simp [hc, Nat.ne_of_gt hk]


/-! ## One iteration of the loop of `Read` -/

theorem Read.loop_open {s : MultiFileReader} (fuel lenp : Nat) (acc : List UInt8)
    (hr : s.currentReader = none) (hi : s.entriesOffset < s.filepaths.length)
    (ho : s.dir.openFile (s.filepaths.getD s.entriesOffset "") =
      .ok (s.dir.content (s.filepaths.getD s.entriesOffset ""))) :
    Read.loop (fuel + 1) s lenp acc =
      Read.loop (fuel + 1)
        { s with currentReader := some
                   { data := s.dir.content (s.filepaths.getD s.entriesOffset ""),
                     pos := 0, closed := false },
                 openHandles := s.openHandles + 1 } lenp acc := by
  conv_lhs => unfold Read.loop
  conv_rhs => unfold Read.loop
  simp only [hr, openCurrentFile, Nat.not_le.mpr hi, if_false, FS.Open, ho]

theorem Read.loop_ready {s : MultiFileReader} {f : File} (fuel lenp : Nat)
    (acc : List UInt8) (hr : s.currentReader = some f) (hc : f.closed = false)
    (h0 : 0 ≤ s.fileOffset) (hp : s.fileOffset = 0 → f.pos = 0)
    (hk : acc.length < lenp) :
    Read.loop (fuel + 1) s lenp acc =
      if ((f.data.drop s.fileOffset.toNat).take (lenp - acc.length)).length = 0 then
        if s.filepaths.length ≤ s.entriesOffset then
          some ((acc, some Error.EOF),
            { s with currentReader := some { f with pos := s.fileOffset.toNat },
                     fileOffset := wrap64 s.fileOffset,
                     totalOffset := wrap64 s.totalOffset })
        else
          Read.loop fuel
            { s with fileOffset := 0, currentReader := none,
                     entriesOffset := s.entriesOffset + 1,
                     totalOffset := wrap64 s.totalOffset,
                     openHandles := s.openHandles - 1 } lenp acc
      else
        if acc.length +
            ((f.data.drop s.fileOffset.toNat).take (lenp - acc.length)).length = lenp then
          some ((acc ++ (f.data.drop s.fileOffset.toNat).take (lenp - acc.length), none),
            { s with
                currentReader := some
                  { f with pos := s.fileOffset.toNat +
                      ((f.data.drop s.fileOffset.toNat).take (lenp - acc.length)).length },
                fileOffset := wrap64 (s.fileOffset +
                  ((f.data.drop s.fileOffset.toNat).take (lenp - acc.length)).length),
                totalOffset := wrap64 (s.totalOffset +
                  ((f.data.drop s.fileOffset.toNat).take (lenp - acc.length)).length) })
        else
          Read.loop fuel
            { s with
                currentReader := some
                  { f with pos := s.fileOffset.toNat +
                      ((f.data.drop s.fileOffset.toNat).take (lenp - acc.length)).length },
                fileOffset := wrap64 (s.fileOffset +
                  ((f.data.drop s.fileOffset.toNat).take (lenp - acc.length)).length),
                totalOffset := wrap64 (s.totalOffset +
                  ((f.data.drop s.fileOffset.toNat).take (lenp - acc.length)).length) }
            lenp (acc ++ (f.data.drop s.fileOffset.toNat).take (lenp - acc.length)) := by
  have hk' : 0 < lenp - acc.length := by omega
  conv_lhs => unfold Read.loop
  simp only [hr, Read.sync_open hc h0 hp]
  have hread := File.Read_open (f := { f with pos := s.fileOffset.toNat }) hc hk'
  simp only [] at hread
  by_cases hz : ((f.data.drop s.fileOffset.toNat).take (lenp - acc.length)).length = 0
  · rw [if_pos hz] at hread
    rw [hread, if_pos hz]
    simp [closeHandle, File.Close, hc]
  · rw [if_neg hz] at hread
    rw [hread, if_neg hz]
    simp


/-! ## The loop of `Read` on a synced reader -/

theorem remaining_of_drop {s : MultiFileReader} {name : String} {t : List String}
    (hdrop : s.filepaths.drop s.entriesOffset = name :: t)
    (hle : s.fileOffset.toNat ≤ (s.dir.content name).length) :
    remaining s = (s.dir.content name).drop s.fileOffset.toNat ++ contents s.dir t := by
  unfold remaining
  rw [hdrop]
  simp only [contents]
  exact List.drop_append_of_le_length hle

theorem Read.loop_synced (fuel : Nat) :
    ∀ (s : MultiFileReader) (lenp : Nat) (acc : List UInt8),
      s.dir.Serves s.filepaths → Synced s → inInt64 s.totalOffset → acc.length < lenp →
      (s.filepaths.length - s.entriesOffset) + (lenp - acc.length) < fuel →
      ∃ s', Read.loop fuel s lenp acc =
          some ((acc ++ (remaining s).take (lenp - acc.length),
            if lenp - acc.length ≤ (remaining s).length then none else some Error.EOF), s') ∧
        ReadPost s s' (lenp - acc.length) := by
  induction fuel with
  | zero => intro s lenp acc _ _ _ _ hf; omega
  | succ fuel ih =>
    -- the iteration with a handle on the current entry at hand
    have ready : ∀ (s : MultiFileReader) (f : File) (lenp : Nat) (acc : List UInt8),
        s.currentReader = some f →
        s.dir.Serves s.filepaths → Synced s → inInt64 s.totalOffset → acc.length < lenp →
        (s.filepaths.length - s.entriesOffset) + (lenp - acc.length) < fuel + 1 →
        ∃ s', Read.loop (fuel + 1) s lenp acc =
            some ((acc ++ (remaining s).take (lenp - acc.length),
              if lenp - acc.length ≤ (remaining s).length then none else some Error.EOF), s') ∧
          ReadPost s s' (lenp - acc.length) := by
      intro s f lenp acc hr hserve hsync hrange hacc hfuel
      obtain ⟨hidx, hoff0, hoffle, hreader⟩ := hsync
      rw [hr] at hreader
      obtain ⟨hi, hclosed, hdata, hpos⟩ := hreader
      have hdrop := List.drop_eq_getElem_cons hi
      rw [← List.getD_eq_getElem s.filepaths "" hi] at hdrop
      have hdata0 := hdata
      generalize hname : s.filepaths.getD s.entriesOffset "" = name at hdrop hdata
      generalize htail : List.drop (s.entriesOffset + 1) s.filepaths = t at hdrop
      have hmem : name ∈ s.filepaths :=
        List.mem_of_mem_drop (by rw [hdrop]; exact List.mem_cons_self _ _)
      obtain ⟨_, _, hsize⟩ := hserve name hmem
      rw [hdrop] at hoffle
      simp only [List.take_succ_cons, List.take_zero, contents, List.append_nil] at hoffle
      have hn : (s.fileOffset.toNat : Int) = s.fileOffset := Int.toNat_of_nonneg hoff0
      have hnle : s.fileOffset.toNat ≤ (s.dir.content name).length := by omega
      have hrem := remaining_of_drop hdrop hnle
      rw [← hdata] at hsize hoffle hnle hrem
      rw [Read.loop_ready fuel lenp acc hr hclosed hoff0 hpos hacc]
      have hclen : ((List.drop s.fileOffset.toNat f.data).take
          (lenp - acc.length)).length =
          min (lenp - acc.length) (f.data.length - s.fileOffset.toNat) := by
        simp
      have hctake0 : (List.drop s.fileOffset.toNat f.data).take
          ((List.drop s.fileOffset.toNat f.data).take (lenp - acc.length)).length =
          (List.drop s.fileOffset.toNat f.data).take (lenp - acc.length) := by
        rw [List.length_take, List.take_eq_take]
        simp
      generalize hc : (List.drop s.fileOffset.toNat f.data).take
          (lenp - acc.length) = c at hclen hctake0
      have hdlen : (List.drop s.fileOffset.toNat f.data).length =
          f.data.length - s.fileOffset.toNat := by simp
      by_cases hz : c.length = 0
      · -- end of the current file: on to the next entry
        rw [if_pos hz, if_neg (Nat.not_le.mpr hi)]
        have hdnil : List.drop s.fileOffset.toNat f.data = [] := by
          apply List.eq_nil_of_length_eq_zero
          omega
        have hrem2 : remaining
            { s with fileOffset := 0, currentReader := none,
                     entriesOffset := s.entriesOffset + 1,
                     totalOffset := wrap64 s.totalOffset,
                     openHandles := s.openHandles - 1 } = remaining s := by
          rw [hrem, hdnil]
          simp [remaining, htail]
        obtain ⟨s', hrun, hsy, hre, hsame, hr', hto, hterm⟩ :=
          ih { s with fileOffset := 0, currentReader := none,
                      entriesOffset := s.entriesOffset + 1,
                      totalOffset := wrap64 s.totalOffset,
                      openHandles := s.openHandles - 1 } lenp acc hserve
            ⟨hi, le_refl _, by simp, trivial⟩ (inInt64_wrap64 _) hacc
            (by simp only []; omega)
        rw [hrem2] at hrun hre hto hterm
        refine ⟨s', hrun, hsy, hre, hsame, hr', ?_, hterm⟩
        rw [hto]
        simp only [wrap64_of_inInt64 hrange]
      · rw [if_neg hz]
        have hctake : (remaining s).take c.length = c := by
          rw [hrem, List.take_append_of_le_length (by omega)]
          exact hctake0
        have hremlen : (remaining s).length =
            (f.data.length - s.fileOffset.toNat) +
              (contents s.dir t).length := by
          rw [hrem, List.length_append, hdlen]
        have hrem1 : ∀ (h : File) (oh : Nat), remaining
            { s with currentReader := some h,
                     fileOffset := wrap64 (s.fileOffset + c.length),
                     totalOffset := wrap64 (s.totalOffset + c.length),
                     openHandles := oh } = (remaining s).drop c.length := by
          intro h oh
          have hw : wrap64 (s.fileOffset + c.length) = s.fileOffset + c.length := by
            apply wrap64_of_inInt64
            unfold inInt64
            omega
          unfold remaining
          simp only [hw]
          rw [show (s.fileOffset + (c.length : Int)).toNat = s.fileOffset.toNat + c.length by
            omega, ← List.drop_drop]
        have hsync1 : ∀ (oh : Nat), Synced
            { s with currentReader := some
                       { f with pos := s.fileOffset.toNat + c.length },
                     fileOffset := wrap64 (s.fileOffset + c.length),
                     totalOffset := wrap64 (s.totalOffset + c.length),
                     openHandles := oh } := by
          intro oh
          have hw : wrap64 (s.fileOffset + c.length) = s.fileOffset + c.length := by
            apply wrap64_of_inInt64
            unfold inInt64
            omega
          refine ⟨hidx, ?_, ?_, ?_⟩
          · simp only [hw]; omega
          · show wrap64 (s.fileOffset + c.length) ≤
              ((contents s.dir ((s.filepaths.drop s.entriesOffset).take 1)).length : Int)
            rw [hw, hdrop]
            simp only [List.take_succ_cons, List.take_zero, contents, List.append_nil]
            rw [← hdata]
            omega
          · simp only [hw]
            refine ⟨hi, hclosed, ?_, ?_⟩
            · exact hdata0
            · intro h0; omega
        by_cases hfull : acc.length + c.length = lenp
        · -- the buffer is full
          rw [if_pos hfull]
          have hk : lenp - acc.length = c.length := by omega
          refine ⟨{ s with currentReader := some
                              { f with pos := s.fileOffset.toNat + c.length },
                            fileOffset := wrap64 (s.fileOffset + c.length),
                            totalOffset := wrap64 (s.totalOffset + c.length) }, ?_,
            hsync1 _, ?_, ⟨rfl, rfl, rfl, rfl⟩, inInt64_wrap64 _, ?_, ?_⟩
          · rw [hk, hctake, if_pos (by omega)]
          · rw [hk]; exact hrem1 _ _
          · rw [hk]
            simp only []
            congr 2
            rw [Nat.min_eq_left (by omega)]
          · intro hlt; omega
        · -- a short read: the file is exhausted, the loop goes on
          rw [if_neg hfull]
          have hacc' : (acc ++ c).length < lenp := by
            rw [List.length_append]; omega
          obtain ⟨s', hrun, hsy, hre, hsame, hr', hto, hterm⟩ :=
            ih { s with currentReader := some
                          { f with pos := s.fileOffset.toNat + c.length },
                        fileOffset := wrap64 (s.fileOffset + c.length),
                        totalOffset := wrap64 (s.totalOffset + c.length) }
              lenp (acc ++ c) hserve (hsync1 _) (inInt64_wrap64 _) hacc'
              (by simp only [List.length_append]; omega)
          rw [hrem1] at hrun hre hto hterm
          have hk : lenp - (acc ++ c).length = (lenp - acc.length) - c.length := by
            rw [List.length_append]; omega
          rw [hk] at hrun hre hto hterm
          rw [List.length_drop] at hrun hto hterm
          have e1 : acc ++ c ++ List.take (lenp - acc.length - c.length)
              (List.drop c.length (remaining s)) =
              acc ++ List.take (lenp - acc.length) (remaining s) := by
            rw [List.append_assoc]
            congr 1
            conv_rhs => rw [← List.take_append_drop c.length (remaining s)]
            rw [List.take_append_eq_append_take, hctake]
            rw [List.take_of_length_le (l := c) (by omega)]
          have e2 : (if lenp - acc.length - c.length ≤ (remaining s).length - c.length
              then none else some Error.EOF) =
              (if lenp - acc.length ≤ (remaining s).length then none else some Error.EOF) := by
            by_cases hle : lenp - acc.length ≤ (remaining s).length
            · rw [if_pos hle, if_pos (by omega)]
            · rw [if_neg hle, if_neg (by omega)]
          refine ⟨s', ?_, hsy, ?_, hsame, hr', ?_, ?_⟩
          · rw [hrun, e1, e2]
          · rw [hre, List.drop_drop]
            congr 1
            omega
          · rw [hto, wrap64_add_wrap64]
            congr 2
            omega
          · intro hlt
            exact hterm (by omega)
    intro s lenp acc hserve hsync hrange hacc hfuel
    cases hr : s.currentReader with
    | some f => exact ready s f lenp acc hr hserve hsync hrange hacc hfuel
    | none =>
      obtain ⟨hidx, hoff0, hoffle, hreader⟩ := hsync
      by_cases hi : s.entriesOffset < s.filepaths.length
      · -- no handle yet: open the current entry
        have hmem : s.filepaths.getD s.entriesOffset "" ∈ s.filepaths := by
          rw [List.getD_eq_getElem s.filepaths "" hi]
          exact List.getElem_mem _
        rw [Read.loop_open fuel lenp acc hr hi (hserve _ hmem).1]
        exact ready _ _ lenp acc rfl hserve
          ⟨hidx, hoff0, hoffle, hi, rfl, rfl, fun _ => rfl⟩ hrange hacc hfuel
      · -- past the last entry: end of stream
        have hlen : s.filepaths.length ≤ s.entriesOffset := by omega
        have hdrop : s.filepaths.drop s.entriesOffset = [] := List.drop_eq_nil_of_le hlen
        have hoff : s.fileOffset = 0 := by
          rw [hdrop] at hoffle
          simp [contents] at hoffle
          omega
        have hrem : remaining s = [] := by simp [remaining, hdrop, contents]
        refine ⟨s, ?_, ?_⟩
        · unfold Read.loop
          simp [hr, openCurrentFile, hlen, hrem]
          omega
        · refine ⟨⟨hidx, hoff0, hoffle, by rw [hr]; trivial⟩, by simp [hrem],
            ⟨rfl, rfl, rfl, rfl⟩, hrange, ?_, ?_⟩
          · simp [hrem, wrap64_of_inInt64 hrange]
          · intro _
            exact ⟨hr, by omega, hoff⟩


/-! ## `Read` and `readAll` on a synced reader -/

theorem Read_synced (s : MultiFileReader) (lenp : Nat)
    (hserve : s.dir.Serves s.filepaths) (hsync : Synced s)
    (hrange : inInt64 s.totalOffset) (hlen : 0 < lenp) :
    ∃ s', Read s lenp =
        some (((remaining s).take lenp,
          if lenp ≤ (remaining s).length then none else some Error.EOF), s') ∧
      ReadPost s s' lenp := by
  have h := Read.loop_synced (Read.fuel s lenp) s lenp [] hserve hsync hrange hlen
    (by simp only [Read.fuel, List.length_nil]; omega)
  simpa [Read] using h

theorem readAll_synced (calls : Nat) :
    ∀ (s : MultiFileReader) (lenp : Nat),
      s.dir.Serves s.filepaths → Synced s → inInt64 s.totalOffset → 0 < lenp →
      (remaining s).length < calls →
      ∃ s', readAll calls s lenp = some (.ok (remaining s), s') ∧
        Synced s' ∧ SameStream s s' ∧ inInt64 s'.totalOffset ∧
        s'.totalOffset = wrap64 (s.totalOffset + (remaining s).length) ∧
        s'.currentReader = none ∧ s'.entriesOffset = s'.filepaths.length ∧
        s'.fileOffset = 0 := by
  induction calls with
  | zero => intro s lenp _ _ _ _ h; omega
  | succ calls ih =>
    intro s lenp hserve hsync hrange hlen hcalls
    obtain ⟨s1, hread, hsy1, hre1, hsame1, hr1, hto1, hterm1⟩ :=
      Read_synced s lenp hserve hsync hrange hlen
    obtain ⟨hp1, hd1, hf1, ht1⟩ := hsame1
    by_cases hle : lenp ≤ (remaining s).length
    · -- a full buffer: read on
      rw [if_pos hle] at hread
      have hserve1 : s1.dir.Serves s1.filepaths := by rw [hp1, hd1]; exact hserve
      obtain ⟨s2, hrun, hsy2, hsame2, hr2, hto2, hterm2⟩ :=
        ih s1 lenp hserve1 hsy1 hr1 hlen (by rw [hre1, List.length_drop]; omega)
      obtain ⟨hp2, hd2, hf2, ht2⟩ := hsame2
      refine ⟨s2, ?_, hsy2, ⟨by rw [hp2, hp1], by rw [hd2, hd1], by rw [hf2, hf1],
        by rw [ht2, ht1]⟩, hr2, ?_, hterm2⟩
      · simp only [readAll, hread, hrun, hre1, List.take_append_drop]
      · rw [hto2, hto1, wrap64_add_wrap64, hre1, List.length_drop]
        congr 1
        rw [Nat.min_eq_left hle]
        omega
    · -- the end of the stream
      rw [if_neg hle] at hread
      refine ⟨s1, ?_, hsy1, ⟨hp1, hd1, hf1, ht1⟩, hr1, ?_, hterm1 (by omega)⟩
      · simp only [readAll, hread]
        rw [List.take_of_length_le (by omega)]
      · rw [hto1, Nat.min_eq_right (by omega)]

/-! ## The constructor -/

theorem contents_length_nonneg (dir : FS) (paths : List String) :
    (0 : Int) ≤ ((contents dir paths).length : Int) := Int.ofNat_nonneg _

theorem New.loop_serves (paths : List String) :
    ∀ (r : MultiFileReader), r.dir.Serves paths → inInt64 r.totalSize →
      New.loop paths r = .ok
        { r with filesizes := r.filesizes ++
                   paths.map (fun name => ((r.dir.content name).length : Int)),
                 totalSize := wrap64 (r.totalSize + (contents r.dir paths).length) } := by
  induction paths with
  | nil =>
    intro r _ hr
    simp [New.loop, contents, wrap64_of_inInt64 hr]
  | cons name rest ih =>
    intro r hserve hr
    have h1 := (hserve name (List.mem_cons_self _ _)).2.1
    have hrest : r.dir.Serves rest := fun n hn => hserve n (List.mem_cons_of_mem _ hn)
    simp only [New.loop, h1]
    rw [ih { r with filesizes := r.filesizes ++ [((r.dir.content name).length : Int)],
                    totalSize := wrap64 (r.totalSize + (r.dir.content name).length) }
      hrest (inInt64_wrap64 _)]
    simp only [contents, List.map_cons, List.append_assoc, List.singleton_append,
      List.length_append, Nat.cast_add, wrap64_add_wrap64]

theorem New_serves (dir : FS) (files : List String) (hserve : dir.Serves files) :
    New dir files = .ok
      { filepaths := files, dir := dir, entriesOffset := 0, currentReader := none,
        totalOffset := 0, fileOffset := 0,
        totalSize := wrap64 ((contents dir files).length),
        filesizes := files.map (fun name => ((dir.content name).length : Int)),
        openHandles := 0 } := by
  unfold New
  rw [New.loop_serves files _ hserve (by unfold inInt64; simp)]
  simp


/-! ## Sizes and the cursor -/

theorem contents_append (dir : FS) (a b : List String) :
    contents dir (a ++ b) = contents dir a ++ contents dir b := by
  induction a with
  | nil => rfl
  | cons x xs ih => simp [contents, ih]

theorem sum_map_length (dir : FS) (paths : List String) :
    (paths.map (fun name => ((dir.content name).length : Int))).sum =
      ((contents dir paths).length : Int) := by
  induction paths with
  | nil => rfl
  | cons x xs ih => simp [contents, ih]

theorem getD_map_length (dir : FS) (paths : List String) :
    ∀ (i : Nat), (paths.map (fun name => ((dir.content name).length : Int))).getD i 0 =
      ((contents dir ((paths.drop i).take 1)).length : Int) := by
  induction paths with
  | nil => intro i; simp [contents]
  | cons x xs ih =>
    intro i
    cases i with
    | zero => simp [contents]
    | succ i => simpa using ih i

theorem contents_take_one_le (dir : FS) (l : List String) :
    (contents dir (l.take 1)).length ≤ (contents dir l).length := by
  cases l with
  | nil => simp
  | cons x xs => simp [contents]

theorem synced_of_agrees {s : MultiFileReader} (hsized : Sized s) (hagree : Agrees s) :
    Synced s ∧ inInt64 s.totalOffset ∧
    remaining s = (contents s.dir s.filepaths).drop s.totalOffset.toNat ∧
    ((remaining s).length : Int) = s.totalSize - s.totalOffset := by
  obtain ⟨hsizes, htotal, hlt⟩ := hsized
  obtain ⟨hidx, hoff0, hoffle, hcur, hreader⟩ := hagree
  rw [hsizes] at hoffle hcur htotal
  rw [getD_map_length] at hoffle
  rw [← List.map_take, sum_map_length] at hcur
  rw [sum_map_length] at htotal
  have hsplit : contents s.dir s.filepaths =
      contents s.dir (s.filepaths.take s.entriesOffset) ++
        contents s.dir (s.filepaths.drop s.entriesOffset) := by
    rw [← contents_append, List.take_append_drop]
  have hle1 := contents_take_one_le s.dir (s.filepaths.drop s.entriesOffset)
  have hlen : (contents s.dir s.filepaths).length =
      (contents s.dir (s.filepaths.take s.entriesOffset)).length +
        (contents s.dir (s.filepaths.drop s.entriesOffset)).length := by
    rw [hsplit, List.length_append]
  have hnat : s.totalOffset.toNat =
      (contents s.dir (s.filepaths.take s.entriesOffset)).length + s.fileOffset.toNat := by
    omega
  have hrem : remaining s = (contents s.dir s.filepaths).drop s.totalOffset.toNat := by
    unfold remaining
    rw [hnat]
    conv_rhs => rw [hsplit]
    rw [List.drop_append]
  refine ⟨⟨hidx, hoff0, hoffle, hreader⟩, ?_, hrem, ?_⟩
  · unfold inInt64; omega
  · rw [hrem, List.length_drop]
    omega


/-! ## `Seek` -/

theorem Seek.release_reader (s : MultiFileReader) : (Seek.release s).currentReader = none := by
  unfold Seek.release
  cases h : s.currentReader with
  | none => exact h
  | some f => rfl

theorem Seek.release_fields (s : MultiFileReader) :
    (Seek.release s).filepaths = s.filepaths ∧ (Seek.release s).dir = s.dir ∧
    (Seek.release s).filesizes = s.filesizes ∧ (Seek.release s).totalSize = s.totalSize ∧
    (Seek.release s).entriesOffset = s.entriesOffset ∧
    (Seek.release s).fileOffset = s.fileOffset ∧
    (Seek.release s).totalOffset = s.totalOffset ∧
    (Seek.release s).openHandles ≤ s.openHandles := by
  unfold Seek.release
  cases s.currentReader with
  | none => simp
  | some f =>
    simp only [closeHandle, File.Close, true_and]
    split <;> simp

theorem Seek.release_of_none {s : MultiFileReader} (h : s.currentReader = none) :
    Seek.release s = s := by
  unfold Seek.release
  rw [h]

theorem sum_take_le {l : List Int} (hnn : ∀ x ∈ l, 0 ≤ x) (i : Nat) :
    0 ≤ (l.take i).sum ∧ (l.take i).sum ≤ l.sum := by
  have h1 : 0 ≤ (l.take i).sum :=
    List.sum_nonneg (fun x hx => hnn x (List.mem_of_mem_take hx))
  have h2 : 0 ≤ (l.drop i).sum :=
    List.sum_nonneg (fun x hx => hnn x (List.mem_of_mem_drop hx))
  have h3 := List.sum_take_add_sum_drop l i
  omega

theorem sum_take_succ_getD (l : List Int) (i : Nat) :
    (l.take (i + 1)).sum = (l.take i).sum + l.getD i 0 := by
  induction l generalizing i with
  | nil => simp
  | cons x xs ih =>
    cases i with
    | zero => simp
    | succ i =>
      have := ih i
      simp only [List.take_succ_cons, List.sum_cons, List.getD_cons_succ] at this ⊢
      omega

theorem Seek.scan_spec (sizes : List Int) (abs : Int) (hnn : ∀ x ∈ sizes, 0 ≤ x)
    (hsum : sizes.sum < 9223372036854775808) (habs : abs < sizes.sum) (k : Nat) :
    ∀ (i : Nat), i + k = sizes.length → (sizes.take i).sum ≤ abs →
      ∃ j, Seek.scan sizes abs k i (sizes.take i).sum = some (j, (sizes.take j).sum) ∧
        j < sizes.length ∧ (sizes.take j).sum ≤ abs ∧
        abs < (sizes.take j).sum + sizes.getD j 0 := by
  induction k with
  | zero =>
    intro i hi hle
    have : sizes.take i = sizes := List.take_of_length_le (by omega)
    rw [this] at hle
    omega
  | succ k ih =>
    intro i hi hle
    have hlt : i < sizes.length := by omega
    have hget : sizes[i]? = some (sizes.getD i 0) := by
      rw [List.getD_eq_getElem sizes 0 hlt]
      exact List.getElem?_eq_getElem hlt
    have hsucc := sum_take_succ_getD sizes i
    have hb := sum_take_le hnn (i + 1)
    have hb0 := sum_take_le hnn i
    have hw : wrap64 ((sizes.take i).sum + sizes.getD i 0) =
        (sizes.take i).sum + sizes.getD i 0 := by
      apply wrap64_of_inInt64
      unfold inInt64
      omega
    unfold Seek.scan
    simp only [hget, hw]
    by_cases hgt : (sizes.take i).sum + sizes.getD i 0 > abs
    · rw [if_pos hgt]
      exact ⟨i, rfl, hlt, hle, hgt⟩
    · rw [if_neg hgt, ← hsucc]
      exact ih (i + 1) (by omega) (by omega)


theorem Sized.nonneg {s : MultiFileReader} (h : Sized s) : ∀ x ∈ s.filesizes, (0 : Int) ≤ x := by
  intro x hx
  rw [h.1] at hx
  obtain ⟨name, _, rfl⟩ := List.mem_map.mp hx
  exact Int.ofNat_nonneg _

theorem Sized.length_eq {s : MultiFileReader} (h : Sized s) :
    s.filesizes.length = s.filepaths.length := by
  rw [h.1, List.length_map]

theorem Seek_inside (s : MultiFileReader) (offset whence abs : Int) (hsized : Sized s)
    (habs : Seek.abs s offset whence = some abs) (h0 : 0 ≤ abs) (hlt : abs < s.totalSize) :
    ∃ s', Seek s offset whence = some ((abs, none), s') ∧
      Agrees s' ∧ Sized s' ∧ SameStream s s' ∧ s'.totalOffset = abs ∧
      s'.currentReader = none ∧ s'.openHandles ≤ s.openHandles ∧
      s'.entriesOffset < s'.filepaths.length ∧
      s'.fileOffset < s'.filesizes.getD s'.entriesOffset 0 := by
  obtain ⟨hp, hd, hf, ht, _, _, _, hoh⟩ := Seek.release_fields s
  have hnone := Seek.release_reader s
  have hsum : s.filesizes.sum < 9223372036854775808 := by
    rw [← hsized.2.1]; exact hsized.2.2
  obtain ⟨j, hscan, hj, hle, hgt⟩ := Seek.scan_spec s.filesizes abs hsized.nonneg hsum
    (by rw [← hsized.2.1]; exact hlt) s.filepaths.length 0
    (by rw [hsized.length_eq]; omega) (by simpa using h0)
  simp only [List.take_zero, List.sum_nil] at hscan
  have hb := sum_take_le hsized.nonneg j
  have hts := hsized.2.1
  have hw : wrap64 (abs - (s.filesizes.take j).sum) = abs - (s.filesizes.take j).sum := by
    apply wrap64_of_inInt64
    unfold inInt64
    omega
  refine ⟨{ (Seek.release s) with
              entriesOffset := j, totalOffset := abs,
              fileOffset := abs - (s.filesizes.take j).sum }, ?_, ?_, ?_, ?_, rfl, ?_, hoh, ?_, ?_⟩
  · unfold Seek
    simp only [habs, Int.not_lt.mpr h0, if_false, ht, hf, hp, hscan,
      Int.ne_of_lt hlt, Int.not_lt.mpr (Int.le_of_lt hlt), gt_iff_lt, hw]
  · refine ⟨?_, ?_, ?_, ?_, ?_⟩
    · show j ≤ (Seek.release s).filepaths.length
      rw [hp, ← hsized.length_eq]; omega
    · show 0 ≤ abs - (s.filesizes.take j).sum
      omega
    · show abs - (s.filesizes.take j).sum ≤ (Seek.release s).filesizes.getD j 0
      rw [hf]; omega
    · show abs = ((Seek.release s).filesizes.take j).sum + (abs - (s.filesizes.take j).sum)
      rw [hf]; omega
    · show match (Seek.release s).currentReader with
        | none => True
        | some f => _
      rw [hnone]
      trivial
  · obtain ⟨h1, h2, h3⟩ := hsized
    refine ⟨?_, ?_, ?_⟩
    · show (Seek.release s).filesizes = (Seek.release s).filepaths.map
        (fun name => (((Seek.release s).dir.content name).length : Int))
      rw [hf, hp, hd]; exact h1
    · show (Seek.release s).totalSize = (Seek.release s).filesizes.sum
      rw [hf, ht]; exact h2
    · show (Seek.release s).totalSize < 9223372036854775808
      rw [ht]; exact h3
  · exact ⟨hp, hd, hf, ht⟩
  · exact hnone
  · show j < (Seek.release s).filepaths.length
    rw [hp, ← hsized.length_eq]; exact hj
  · show abs - (s.filesizes.take j).sum < (Seek.release s).filesizes.getD j 0
    rw [hf]; omega


theorem Seek.scan_isSome (sizes : List Int) (abs : Int) (k : Nat) :
    ∀ (i : Nat) (start : Int), i + k ≤ sizes.length →
      ∃ r, Seek.scan sizes abs k i start = some r := by
  induction k with
  | zero => intro i start _; exact ⟨_, rfl⟩
  | succ k ih =>
    intro i start hi
    have hlt : i < sizes.length := by omega
    unfold Seek.scan
    rw [List.getElem?_eq_getElem hlt]
    simp only []
    split
    · exact ⟨_, rfl⟩
    · exact ih _ _ (by omega)

theorem Seek.abs_of_target {s : MultiFileReader} {offset whence t : Int}
    (h : Seek.target s offset whence = some t) (ht : inInt64 t) :
    Seek.abs s offset whence = some t := by
  unfold Seek.target at h
  unfold Seek.abs
  split_ifs at h ⊢ with h0 h1 h2
  · exact h
  · injection h with h; rw [h, wrap64_of_inInt64 ht]
  · injection h with h; rw [h, wrap64_of_inInt64 ht]

theorem Seek_at_total (s : MultiFileReader) (offset whence : Int)
    (habs : Seek.abs s offset whence = some s.totalSize) (h0 : 0 ≤ s.totalSize) :
    Seek s offset whence = some ((s.totalSize, none),
      { (Seek.release s) with totalOffset := s.totalSize }) := by
  obtain ⟨_, _, _, ht, _⟩ := Seek.release_fields s
  unfold Seek
  simp only [habs, Int.not_lt.mpr h0, if_false, ht, if_true]


theorem Seek_at_scan (s : MultiFileReader) (offset whence a : Int) (i : Nat) (start : Int)
    (habs : Seek.abs s offset whence = some a) (h0 : 0 ≤ a) (hlt : a < s.totalSize)
    (hscan : Seek.scan s.filesizes a s.filepaths.length 0 0 = some (i, start)) :
    Seek s offset whence = some ((a, none),
      { (Seek.release s) with entriesOffset := i, totalOffset := a,
                              fileOffset := wrap64 (a - start) }) := by
  obtain ⟨hp, _, hf, ht, _⟩ := Seek.release_fields s
  unfold Seek
  simp only [habs, Int.not_lt.mpr h0, if_false, ht, hf, hp, hscan,
    Int.ne_of_lt hlt, Int.not_lt.mpr (Int.le_of_lt hlt), gt_iff_lt]

theorem synced_new (dir : FS) (files : List String) (total : Int) :
    Synced { filepaths := files, dir := dir, entriesOffset := 0, currentReader := none,
             totalOffset := 0, fileOffset := 0, totalSize := total,
             filesizes := files.map (fun name => ((dir.content name).length : Int)),
             openHandles := 0 } :=
  ⟨Nat.zero_le _, le_refl _, Int.ofNat_nonneg _, trivial⟩


theorem remaining_of_terminal {s : MultiFileReader}
    (h : s.entriesOffset = s.filepaths.length) : remaining s = [] := by
  unfold remaining
  rw [h, List.drop_length]
  simp [contents]


/-! ## `Read` returns: the iteration bound `Read.fuel` is enough in every state -/

theorem File.Read_shape (f : File) (k : Nat) :
    ∃ bs err f2, f.Read k = ((bs, err), f2) ∧ bs.length ≤ k ∧
      (err = some Error.EOF → bs = []) ∧ (err = none → k = 0 ∨ bs ≠ []) := by
  unfold File.Read
  by_cases hc : f.closed = true
  · refine ⟨[], some Error.ErrClosed, f, by simp [hc], by simp, fun _ => rfl, ?_⟩
    intro h; cases h
  · by_cases hk : k = 0
    · exact ⟨[], none, f, by simp [hc, hk], by simp, fun _ => rfl, fun _ => Or.inl hk⟩
    · by_cases hz : ((f.data.drop f.pos).take k).length = 0
      · refine ⟨[], some Error.EOF, f, by simp only [hc, hk, hz]; simp, by simp,
          fun _ => rfl, ?_⟩
        intro h; cases h
      · refine ⟨(f.data.drop f.pos).take k, none,
          { f with pos := f.pos + ((f.data.drop f.pos).take k).length },
          by simp only [hc, hk, hz]; simp, ?_, ?_, fun _ => Or.inr ?_⟩
        · rw [List.length_take]; omega
        · intro h; cases h
        · intro hnil; rw [hnil] at hz; simp at hz

theorem Read.loop_opened {s : MultiFileReader} {f : File} (fuel lenp : Nat)
    (acc : List UInt8) (hr : s.currentReader = none)
    (hi : s.entriesOffset < s.filepaths.length)
    (ho : s.dir.Open (s.filepaths.getD s.entriesOffset "") = .ok f) :
    Read.loop (fuel + 1) s lenp acc =
      Read.loop (fuel + 1)
        { s with currentReader := some f, openHandles := s.openHandles + 1 } lenp acc := by
  conv_lhs => unfold Read.loop
  conv_rhs => unfold Read.loop
  simp only [hr, openCurrentFile, Nat.not_le.mpr hi, if_false, ho]

theorem Read.loop_returns (fuel : Nat) :
    ∀ (s : MultiFileReader) (lenp : Nat) (acc : List UInt8), acc.length ≤ lenp →
      (s.filepaths.length - s.entriesOffset) + (lenp - acc.length) < fuel →
      ∃ r, Read.loop fuel s lenp acc = some r := by
  induction fuel with
  | zero => intro s lenp acc _ hf; omega
  | succ fuel ih =>
    have ready : ∀ (s : MultiFileReader) (f : File) (lenp : Nat) (acc : List UInt8),
        s.currentReader = some f → acc.length ≤ lenp →
        (s.filepaths.length - s.entriesOffset) + (lenp - acc.length) < fuel + 1 →
        ∃ r, Read.loop (fuel + 1) s lenp acc = some r := by
      intro s f lenp acc hr hacc hfuel
      unfold Read.loop
      simp only [hr]
      cases hsync : Read.sync s.fileOffset f with
      | mk oe f1 =>
        cases oe with
        | some e => exact ⟨_, rfl⟩
        | none =>
          obtain ⟨bs, err, f2, hread, hlen, heof, hok⟩ := File.Read_shape f1 (lenp - acc.length)
          simp only [hread]
          cases err with
          | none =>
            simp only []
            by_cases hfull : (acc ++ bs).length = lenp
            · rw [if_pos hfull]; exact ⟨_, rfl⟩
            · rw [if_neg hfull]
              have hne : bs ≠ [] := by
                rcases hok rfl with h0 | h
                · exfalso
                  apply hfull
                  have : bs.length = 0 := by omega
                  rw [List.length_append]; omega
                · exact h
              have hpos : 0 < bs.length := List.length_pos.mpr hne
              exact ih _ lenp (acc ++ bs) (by rw [List.length_append]; omega)
                (by simp only [List.length_append]; omega)
          | some e =>
            cases e with
            | EOF =>
              simp only []
              have hnil := heof rfl
              subst hnil
              by_cases hlast : s.filepaths.length ≤ s.entriesOffset
              · rw [if_pos hlast]; exact ⟨_, rfl⟩
              · rw [if_neg hlast]
                exact ih _ lenp (acc ++ []) (by simpa using hacc)
                  (by simp only [List.append_nil]; omega)
            | errorString msg => exact ⟨_, rfl⟩
            | ErrNotExist => exact ⟨_, rfl⟩
            | ErrClosed => exact ⟨_, rfl⟩
            | EINVAL => exact ⟨_, rfl⟩
    intro s lenp acc hacc hfuel
    cases hr : s.currentReader with
    | some f => exact ready s f lenp acc hr hacc hfuel
    | none =>
      by_cases hi : s.entriesOffset < s.filepaths.length
      · cases ho : s.dir.Open (s.filepaths.getD s.entriesOffset "") with
        | error e =>
          unfold Read.loop
          simp only [hr, openCurrentFile, Nat.not_le.mpr hi, if_false, ho]
          exact ⟨_, rfl⟩
        | ok f =>
          rw [Read.loop_opened fuel lenp acc hr hi ho]
          exact ready _ f lenp acc rfl hacc hfuel
      · unfold Read.loop
        simp only [hr, openCurrentFile, Nat.not_lt.mp hi, if_true]
        exact ⟨_, rfl⟩

/-- In every state and for every buffer length `Read` returns: the iteration
bound of the model is never exhausted, and no nil handle is dereferenced. -/
theorem Read_returns (s : MultiFileReader) (lenp : Nat) : ∃ r, Read s lenp = some r :=
  Read.loop_returns (Read.fuel s lenp) s lenp [] (Nat.zero_le _)
    (by simp only [Read.fuel, List.length_nil]; omega)

/-! ## A seek into the stream, then reading to the end -/

/-- A seek to an absolute offset `x` inside the stream (`0 ≤ x < totalSize`),
from any reader over regular files whose sizes are those of the store,
followed by reading to `io.EOF`, yields the concatenation without its first
`x` bytes. -/
theorem Seek_inside_then_readAll (s : MultiFileReader) (x : Int) (lenp calls : Nat)
    (hstore : s.dir.Serves s.filepaths) (hsized : Sized s)
    (hx0 : 0 ≤ x) (hx : x < s.totalSize) (hbuf : 0 < lenp)
    (hcalls : (contents s.dir s.filepaths).length < calls) :
    ∃ s1 s2, Seek s x 0 = some ((x, none), s1) ∧
      readAll calls s1 lenp =
        some (.ok ((contents s.dir s.filepaths).drop x.toNat), s2) := by
  obtain ⟨s1, hseek, hag1, hsz1, ⟨hp1, hd1, _, _⟩, hto1, _⟩ :=
    Seek_inside s x 0 x hsized (by simp [Seek.abs]) hx0 hx
  obtain ⟨hsy1, hr1, hrem1, _⟩ := synced_of_agrees hsz1 hag1
  have hstore1 : s1.dir.Serves s1.filepaths := by rw [hp1, hd1]; exact hstore
  rw [hto1, hp1, hd1] at hrem1
  obtain ⟨s2, hrun, _⟩ := readAll_synced calls s1 lenp hstore1 hsy1 hr1 hbuf
    (by rw [hrem1, List.length_drop]; omega)
  rw [hrem1] at hrun
  exact ⟨s1, s2, hseek, hrun⟩


/-! ## The claims -/

/-- C1 (concatenation correctness).  For every store and every list of entries
that the store serves as regular files (each opens, and its stat size is the
length of its bytes), empty files and the empty list included, `New` returns a
reader, and reading it with `Read` and buffers of any fixed length `lenp > 0`
until `io.EOF` yields exactly the concatenation of the files in list order;
the number of `Read` calls allowed only has to exceed the number of bytes. -/
theorem readAll_new_eq_contents (dir : FS) (files : List String) (lenp calls : Nat)
    (hstore : dir.Serves files) (hbuf : 0 < lenp)
    (hcalls : (contents dir files).length < calls) :
    ∃ s0 s1, New dir files = .ok s0 ∧
      readAll calls s0 lenp = some (.ok (contents dir files), s1) := by
  obtain ⟨s1, hrun, _⟩ := readAll_synced calls
    { filepaths := files, dir := dir, entriesOffset := 0, currentReader := none,
      totalOffset := 0, fileOffset := 0,
      totalSize := wrap64 ((contents dir files).length),
      filesizes := files.map (fun name => ((dir.content name).length : Int)),
      openHandles := 0 }
    lenp hstore (synced_new dir files _) (by unfold inInt64; simp) hbuf hcalls
  exact ⟨_, s1, New_serves dir files hstore, hrun⟩

/-- Witness of C1: the three files of the test, read with 1-byte buffers. -/
theorem readAll_new_eq_contents_witness :
    ∃ s0 s1, New testDir3 ["file1.txt", "file2.txt", "file3.txt"] = .ok s0 ∧
      readAll 40 s0 1 =
        some (.ok (bytes "file1 contentfile2 contentfile3 content"), s1) :=
  readAll_new_eq_contents testDir3 ["file1.txt", "file2.txt", "file3.txt"] 1 40
    (by decide) (by decide) (by decide)

/-- C2 (a single `Read` fills the buffer across file boundaries).  For every
reader over regular files whose sizes are those of the store and whose
physical position agrees with its cursor, and every buffer of length
`lenp > 0`, `Read` returns the bytes of the concatenation from the cursor on,
`lenp` of them or all that are left, that is `min lenp (totalSize - cursor)`
bytes, with no error when the buffer was filled and `io.EOF` otherwise. -/
theorem Read_fills_buffer_across_files (s : MultiFileReader) (lenp : Nat)
    (hstore : s.dir.Serves s.filepaths) (hsized : Sized s) (hagree : Agrees s)
    (hbuf : 0 < lenp) :
    ∃ s', Read s lenp =
        some ((((contents s.dir s.filepaths).drop s.totalOffset.toNat).take lenp,
          if (lenp : Int) ≤ s.totalSize - s.totalOffset then none else some Error.EOF),
          s') ∧
      ((((contents s.dir s.filepaths).drop s.totalOffset.toNat).take lenp).length : Int) =
        min (lenp : Int) (s.totalSize - s.totalOffset) := by
  obtain ⟨hsync, hrange, hrem, hlen⟩ := synced_of_agrees hsized hagree
  obtain ⟨s', hread, _⟩ := Read_synced s lenp hstore hsync hrange hbuf
  rw [hrem] at hread hlen
  refine ⟨s', ?_, ?_⟩
  · rw [hread]
    congr 3
    by_cases hle : lenp ≤ (List.drop s.totalOffset.toNat (contents s.dir s.filepaths)).length
    · rw [if_pos hle, if_pos (by omega)]
    · rw [if_neg hle, if_neg (by omega)]
  · rw [List.length_take]
    omega

/-- Witness of C2: after `Seek 11 io.SeekStart` on the two files of the
boundary test, a `Read` of 5 bytes returns `ntfil` and no error. -/
theorem Read_fills_buffer_across_files_witness :
    Seek fresh 11 0 = some ((11, none), atBoundary) ∧
    ∃ s', Read atBoundary 5 = some ((bytes "ntfil", none), s') :=
  ⟨rfl, (Read_fills_buffer_across_files atBoundary 5 (by decide) (by decide) (by decide)
    (by decide)).imp fun _ h => h.1⟩

/-- C3 (seek-then-read equivalence) fails at `offset = total_size`: on the
fresh reader of the two 13-byte test files, `Seek 26 io.SeekStart` succeeds
and reading to `io.EOF` then yields all 26 bytes, where the concatenation
with its first 26 bytes dropped is empty. -/
theorem seek_total_then_readAll_rereads :
    New testDir ["file1.txt", "file2.txt"] = .ok fresh ∧
    ∃ s1 s2, Seek fresh 26 0 = some ((26, none), s1) ∧
      readAll 10 s1 4 = some (.ok (bytes "file1 contentfile2 content"), s2) ∧
      (contents testDir ["file1.txt", "file2.txt"]).drop 26 = [] :=
  ⟨rfl, _, _, rfl, rfl, rfl⟩

/-- C4 (a `Read` after a seek to `total_size` reports end of stream) fails: on
the fresh reader of the two 13-byte test files, `Seek 0 io.SeekEnd` returns
`(26, nil)` and the next `Read` of 5 bytes returns the 5 bytes `file1` with no
error, the cursor going to 31. -/
theorem seek_end_then_Read_returns_bytes :
    New testDir ["file1.txt", "file2.txt"] = .ok fresh ∧
    ∃ s1 s2, Seek fresh 0 2 = some ((26, none), s1) ∧
      Read s1 5 = some ((bytes "file1", none), s2) ∧ s2.totalOffset = 31 :=
  ⟨rfl, _, _, rfl, rfl, rfl⟩


/-- C5 (a seek to exactly the end succeeds).  For every reader whose total
size is a non-negative `int64`, and every offset and anchor whose absolute
target equals the total size, `Seek` returns `(totalSize, nil)`; the reader
it leaves is the one before the call with the handle released and the cursor
at `totalSize`: no handle is open, the count of open handles of the store has
not grown, and index and file offset are as before.  `Seek 0 io.SeekEnd` is
such a call. -/
theorem Seek_to_total_size (s : MultiFileReader) (offset whence : Int)
    (hsize0 : 0 ≤ s.totalSize) (hsize : s.totalSize < 9223372036854775808)
    (htarget : Seek.target s offset whence = some s.totalSize) :
    ∃ s', Seek s offset whence = some ((s.totalSize, none), s') ∧
      s'.totalOffset = s.totalSize ∧ s'.currentReader = none ∧
      s'.openHandles ≤ s.openHandles ∧ SameStream s s' ∧
      s'.entriesOffset = s.entriesOffset ∧ s'.fileOffset = s.fileOffset ∧
      Seek s 0 2 = some ((s.totalSize, none), s') := by
  obtain ⟨hp, hd, hf, ht, he, hfo, _, hoh⟩ := Seek.release_fields s
  have hin : inInt64 s.totalSize := ⟨by omega, hsize⟩
  refine ⟨{ (Seek.release s) with totalOffset := s.totalSize },
    Seek_at_total s offset whence (Seek.abs_of_target htarget hin) hsize0, rfl, Seek.release_reader s, hoh,
    ⟨hp, hd, hf, ht⟩, he, hfo, ?_⟩
  apply Seek_at_total s 0 2 _ hsize0
  simp [Seek.abs, wrap64_of_inInt64 hin]

/-- Witness of C5: `Seek 0 io.SeekEnd` on the reader of the boundary test,
whose cursor is 11, returns 26. -/
theorem Seek_to_total_size_witness :
    ∃ s', Seek atBoundary 0 2 = some ((26, none), s') ∧ s'.totalOffset = 26 ∧
      s'.currentReader = none :=
  (Seek_to_total_size atBoundary 0 2 (by decide) (by decide) (by decide)).imp
    fun _ h => ⟨h.1, h.2.1, h.2.2.1⟩

/-- C6 (seek past the end).  For every reader with a non-negative total size
and every offset and anchor whose absolute target `t` is greater than the
total size and fits `int64`, `Seek` returns `(0, io.EOF)`, not the target, and
leaves the reader with the handle released and the cursor at `totalSize`. -/
theorem Seek_past_end (s : MultiFileReader) (offset whence t : Int)
    (hsize0 : 0 ≤ s.totalSize) (htarget : Seek.target s offset whence = some t)
    (hpast : s.totalSize < t) (hfit : t < 9223372036854775808) :
    ∃ s', Seek s offset whence = some ((0, some Error.EOF), s') ∧
      s'.totalOffset = s.totalSize ∧
      s' = { (Seek.release s) with totalOffset := s.totalSize } := by
  obtain ⟨_, _, _, ht, _⟩ := Seek.release_fields s
  have habs := Seek.abs_of_target htarget ⟨by omega, hfit⟩
  refine ⟨_, ?_, rfl, rfl⟩
  unfold Seek
  simp only [habs, Int.not_lt.mpr (show (0 : Int) ≤ t by omega), if_false, ht,
    Int.ne_of_gt hpast, gt_iff_lt, hpast, if_true]

/-- Witness of C6: `Seek 27 io.SeekStart` on the fresh reader of the two
13-byte files returns `(0, io.EOF)` and moves the cursor to 26. -/
theorem Seek_past_end_witness :
    ∃ s', Seek fresh 27 0 = some ((0, some Error.EOF), s') ∧ s'.totalOffset = 26 :=
  (Seek_past_end fresh 27 0 27 (by decide) (by decide) (by decide) (by decide)).imp
    fun _ h => ⟨h.1, h.2.1⟩

/-- C7 (a seek to a negative absolute offset is rejected atomically).  For
every reader with a non-negative cursor and total size, every `int64` offset
and every supported anchor whose absolute target `t` is negative, `Seek`
returns offset 0 with the error `negative position`, and the reader after the
call is the reader before it, field by field. -/
theorem Seek_negative_rejected (s : MultiFileReader) (offset whence t : Int)
    (hoffset : inInt64 offset) (hcursor : 0 ≤ s.totalOffset) (hsize0 : 0 ≤ s.totalSize)
    (htarget : Seek.target s offset whence = some t) (hneg : t < 0) :
    Seek s offset whence =
      some ((0, some (Error.errorString "negative position")), s) := by
  have hin : inInt64 t := by
    unfold inInt64 at hoffset ⊢
    unfold Seek.target at htarget
    split_ifs at htarget <;> injection htarget with h <;> omega
  unfold Seek
  simp only [Seek.abs_of_target htarget hin, hneg, if_true]

/-- Witness of C7: `Seek (-1) io.SeekStart` on the one-file reader that `New`
returns gives `(0, error)` and leaves it as it was. -/
theorem Seek_negative_rejected_witness :
    New testDir ["file1.txt"] = .ok oneFile ∧
    Seek oneFile (-1) 0 =
      some ((0, some (Error.errorString "negative position")), oneFile) :=
  ⟨rfl, Seek_negative_rejected oneFile (-1) 0 (-1) (by decide) (by decide) (by decide)
    (by decide) (by decide)⟩

/-- C8 (unsupported anchors fail).  For every reader and offset: a `whence`
other than 0, 1 and 2 makes `Seek` return `(0, invalid whence)` and leave the
reader as it was; and whenever `Seek` returns an error other than `io.EOF`,
the anchor is unsupported or the absolute offset the code computes is
negative, which is the absolute target whenever that fits `int64`. -/
theorem Seek_errors_bad_anchor_or_negative (s : MultiFileReader) (offset whence : Int) :
    ((whence ≠ 0 ∧ whence ≠ 1 ∧ whence ≠ 2) →
      Seek s offset whence = some ((0, some (Error.errorString "invalid whence")), s)) ∧
    (∀ n e s', Seek s offset whence = some ((n, some e), s') → e ≠ Error.EOF →
      (whence ≠ 0 ∧ whence ≠ 1 ∧ whence ≠ 2) ∨
      ∃ a, Seek.abs s offset whence = some a ∧ a < 0 ∧
        ∀ t, Seek.target s offset whence = some t → inInt64 t → t < 0) := by
  constructor
  · rintro ⟨h0, h1, h2⟩
    unfold Seek
    simp [Seek.abs, h0, h1, h2]
  · intro n e s' hseek hne
    cases habs : Seek.abs s offset whence with
    | none =>
      left
      unfold Seek.abs at habs
      split_ifs at habs with h0 h1 h2
      exact ⟨h0, h1, h2⟩
    | some a =>
      right
      refine ⟨a, rfl, ?_⟩
      have hlt : a < 0 := by
        by_contra hge
        unfold Seek at hseek
        simp only [habs, hge, if_false] at hseek
        split_ifs at hseek with h1 h2
        · simp at hseek
        · simp only [Option.some.injEq, Prod.mk.injEq] at hseek
          exact hne hseek.1.2.symm
        · cases hscan : Seek.scan (Seek.release s).filesizes a
              (Seek.release s).filepaths.length 0 0 with
          | none => simp [hscan] at hseek
          | some r => simp [hscan] at hseek
      refine ⟨hlt, ?_⟩
      intro t ht hin
      rw [Seek.abs_of_target ht hin] at habs
      injection habs with h
      omega

/-- Witness of C8: `Seek 0 3` fails with the message `invalid whence`. -/
theorem Seek_errors_bad_anchor_or_negative_witness :
    ∃ e, Seek fresh 0 3 = some ((0, some e), fresh) ∧ e.message = "invalid whence" :=
  ⟨_, (Seek_errors_bad_anchor_or_negative fresh 0 3).1 (by decide), rfl⟩


/-- C9 (round trip of seek anchors).  For every reader that has a size for
each entry and whose total size fits `int64`, and every `x` with
`0 ≤ x ≤ totalSize`, `Seek x io.SeekStart` returns `(x, nil)`, and
`Seek 0 io.SeekCurrent` on the reader it leaves returns `(x, nil)` again and
leaves that reader as it is: cursor, index and file offset (and every other
field) as the first seek set them. -/
theorem Seek_start_then_current (s : MultiFileReader) (x : Int)
    (hsizes : s.filepaths.length ≤ s.filesizes.length)
    (hsize : s.totalSize < 9223372036854775808) (hx0 : 0 ≤ x) (hx : x ≤ s.totalSize) :
    ∃ s1, Seek s x 0 = some ((x, none), s1) ∧ Seek s1 0 1 = some ((x, none), s1) ∧
      s1.totalOffset = x := by
  obtain ⟨hp, _, hf, ht, _⟩ := Seek.release_fields s
  have hnone := Seek.release_reader s
  have hwx : wrap64 x = x := wrap64_of_inInt64 ⟨by omega, by omega⟩
  by_cases heq : x = s.totalSize
  · -- the end of the stream
    subst heq
    have h1 : Seek s s.totalSize 0 = some ((s.totalSize, none),
        { (Seek.release s) with totalOffset := s.totalSize }) :=
      Seek_at_total s s.totalSize 0 (by simp [Seek.abs]) hx0
    obtain ⟨s1, hs1⟩ : ∃ s1 : MultiFileReader,
        s1 = { (Seek.release s) with totalOffset := s.totalSize } := ⟨_, rfl⟩
    have hn1 : s1.currentReader = none := by rw [hs1]; exact hnone
    have ht1 : s1.totalSize = s.totalSize := by rw [hs1]; exact ht
    have hc1 : s1.totalOffset = s.totalSize := by rw [hs1]
    have h2 := Seek_at_total s1 0 1
      (by simp [Seek.abs, hc1, hwx, ht1]) (by rw [ht1]; exact hx0)
    rw [Seek.release_of_none hn1, ht1] at h2
    have heta : ({ s1 with totalOffset := s.totalSize } : MultiFileReader) = s1 := by
      rw [hs1]
    rw [heta, hs1] at h2
    exact ⟨_, h1, h2, rfl⟩
  · -- inside the stream: both calls run the same scan
    have hlt : x < s.totalSize := by omega
    obtain ⟨⟨i, start⟩, hscan⟩ := Seek.scan_isSome s.filesizes x s.filepaths.length 0 0
      (by omega)
    have h1 := Seek_at_scan s x 0 x i start (by simp [Seek.abs])
      hx0 hlt hscan
    obtain ⟨s1, hs1⟩ : ∃ s1 : MultiFileReader,
        s1 = { (Seek.release s) with entriesOffset := i, totalOffset := x,
                                     fileOffset := wrap64 (x - start) } := ⟨_, rfl⟩
    have hn1 : s1.currentReader = none := by rw [hs1]; exact hnone
    have ht1 : s1.totalSize = s.totalSize := by rw [hs1]; exact ht
    have hc1 : s1.totalOffset = x := by rw [hs1]
    have hf1 : s1.filesizes = s.filesizes := by rw [hs1]; exact hf
    have hp1 : s1.filepaths = s.filepaths := by rw [hs1]; exact hp
    have h2 := Seek_at_scan s1 0 1 x i start
      (by simp [Seek.abs, hc1, hwx]) hx0 (by rw [ht1]; exact hlt)
      (by rw [hf1, hp1]; exact hscan)
    rw [Seek.release_of_none hn1] at h2
    have heta : ({ s1 with entriesOffset := i, totalOffset := x,
                           fileOffset := wrap64 (x - start) } : MultiFileReader) = s1 := by
      rw [hs1]
    rw [heta, hs1] at h2
    exact ⟨_, h1, h2, rfl⟩

/-- Witness of C9: `Seek 18 io.SeekStart` and then `Seek 0 io.SeekCurrent` on
the fresh reader of the two 13-byte files both return 18. -/
theorem Seek_start_then_current_witness :
    ∃ s1, Seek fresh 18 0 = some ((18, none), s1) ∧ Seek s1 0 1 = some ((18, none), s1) ∧
      s1.totalOffset = 18 :=
  Seek_start_then_current fresh 18 (by decide) (by decide) (by decide) (by decide)

/-- C10 (re-seek to the start after full consumption).  For every store and
every list of entries it serves as regular files, of a total length that fits
`int64`: after the fresh reader has been read to `io.EOF` with buffers of a
fixed length `lenp > 0`, which yields the concatenation of the files,
`Seek 0 io.SeekStart` returns `(0, nil)`, and reading to `io.EOF` again
yields the same concatenation. -/
theorem reseek_start_after_full_read (dir : FS) (files : List String) (lenp calls : Nat)
    (hstore : dir.Serves files)
    (hfit : ((contents dir files).length : Int) < 9223372036854775808)
    (hbuf : 0 < lenp) (hcalls : (contents dir files).length < calls) :
    ∃ s0 s1 s2 s3, New dir files = .ok s0 ∧
      readAll calls s0 lenp = some (.ok (contents dir files), s1) ∧
      Seek s1 0 0 = some ((0, none), s2) ∧
      readAll calls s2 lenp = some (.ok (contents dir files), s3) := by
  have hw : wrap64 ((contents dir files).length) = ((contents dir files).length : Int) :=
    wrap64_of_inInt64 ⟨by omega, hfit⟩
  have hnew := New_serves dir files hstore
  rw [hw] at hnew
  obtain ⟨s1, hrun, hsy1, ⟨hp1, hd1, hf1, ht1⟩, hr1, _, hnone1, hidx1, hoff1⟩ :=
    readAll_synced calls
      { filepaths := files, dir := dir, entriesOffset := 0, currentReader := none,
        totalOffset := 0, fileOffset := 0,
        totalSize := ((contents dir files).length : Int),
        filesizes := files.map (fun name => ((dir.content name).length : Int)),
        openHandles := 0 }
      lenp hstore (synced_new dir files _) (by unfold inInt64; simp) hbuf hcalls
  simp only [] at hp1 hd1 hf1 ht1
  have hrun1 : readAll calls
      { filepaths := files, dir := dir, entriesOffset := 0, currentReader := none,
        totalOffset := 0, fileOffset := 0,
        totalSize := ((contents dir files).length : Int),
        filesizes := files.map (fun name => ((dir.content name).length : Int)),
        openHandles := 0 } lenp = some (.ok (contents dir files), s1) := hrun
  have hsized1 : Sized s1 := by
    refine ⟨?_, ?_, ?_⟩
    · rw [hf1, hp1, hd1]
    · rw [hf1, ht1, sum_map_length]
    · rw [ht1]; exact hfit
  have hstore1 : s1.dir.Serves s1.filepaths := by rw [hp1, hd1]; exact hstore
  by_cases hzero : (contents dir files).length = 0
  · -- nothing to read: the seek is a seek to the end
    have hr : Seek.release s1 = s1 := Seek.release_of_none hnone1
    have ht0 : s1.totalSize = 0 := by rw [ht1]; omega
    have hseek : Seek s1 0 0 = some ((0, none), { s1 with totalOffset := 0 }) := by
      have h := Seek_at_total s1 s1.totalSize 0
        (by simp [Seek.abs]) (by omega)
      rw [hr, ht0] at h
      exact h
    obtain ⟨s3, hrun3, _⟩ := readAll_synced calls { s1 with totalOffset := 0 } lenp hstore1
      hsy1 (by unfold inInt64; simp) hbuf
      (by rw [remaining_of_terminal (by exact hidx1)]; simp; omega)
    rw [remaining_of_terminal (by exact hidx1)] at hrun3
    have hnil : contents dir files = [] := List.eq_nil_of_length_eq_zero hzero
    have hrun3' : readAll calls { s1 with totalOffset := 0 } lenp =
        some (.ok (contents dir files), s3) := by
      rw [hnil]; exact hrun3
    exact ⟨_, s1, _, s3, hnew, hrun1, hseek, hrun3'⟩
  · -- the seek scans to the first byte of the stream
    obtain ⟨s2, hseek, hag2, hsz2, ⟨hp2, hd2, hf2, ht2⟩, hto2, _⟩ :=
      Seek_inside s1 0 0 0 hsized1
        (by simp [Seek.abs]) (le_refl _) (by rw [ht1]; omega)
    obtain ⟨hsy2, hr2, hrem2, _⟩ := synced_of_agrees hsz2 hag2
    have hstore2 : s2.dir.Serves s2.filepaths := by rw [hp2, hd2]; exact hstore1
    obtain ⟨s3, hrun3, _⟩ := readAll_synced calls s2 lenp hstore2 hsy2 hr2 hbuf
      (by rw [hrem2, hto2, hp2, hd2, hp1, hd1]; simpa using hcalls)
    rw [hrem2, hto2, hp2, hd2, hp1, hd1] at hrun3
    exact ⟨_, s1, s2, s3, hnew, hrun1, hseek, by simpa using hrun3⟩

/-- Witness of C10: the two files of the seek test, read with 4-byte
buffers, rewound and read again. -/
theorem reseek_start_after_full_read_witness :
    ∃ s0 s1 s2 s3, New testDir ["file1.txt", "file2.txt"] = .ok s0 ∧
      readAll 27 s0 4 = some (.ok (bytes "file1 contentfile2 content"), s1) ∧
      Seek s1 0 0 = some ((0, none), s2) ∧
      readAll 27 s2 4 = some (.ok (bytes "file1 contentfile2 content"), s3) :=
  reseek_start_after_full_read testDir ["file1.txt", "file2.txt"] 4 27
    (by decide) (by decide) (by decide) (by decide)

/-! ## Sums of sizes -/

theorem sum_take_mono {l : List Int} (hnn : ∀ x ∈ l, 0 ≤ x) {i j : Nat} (hij : i ≤ j) :
    (l.take i).sum ≤ (l.take j).sum := by
  have h := sum_take_le (l := l.take j) (fun x hx => hnn x (List.mem_of_mem_take hx)) i
  rw [List.take_take, Nat.min_eq_left hij] at h
  exact h.2

/-! ## The loop of `Read` is the loop over arbitrary handles at the model of `*os.File` -/

theorem sync_fileHandles (dir : FS) (off : Int) (f : File) :
    Stream.sync (fileHandles dir) off f = Read.sync off f := by
  unfold Stream.sync Read.sync fileHandles
  simp only []
  rcases f.Seek off with ⟨⟨n, _ | e⟩, f1⟩ <;> rfl

theorem closeHandle_fileHandles (dir : FS) (f : File) (n : Nat) :
    Stream.closeHandle (fileHandles dir) f n = closeHandle f n := by
  unfold Stream.closeHandle Mfr.closeHandle fileHandles
  simp only []
  rcases f.Close with ⟨_ | e, f1⟩ <;> rfl

theorem Stream.iter_opened {H : Type} (io : Handles H) {s : Stream H} {h : H}
    (lenp : Nat) (acc : List UInt8) (hr : s.currentReader = none)
    (hi : s.entriesOffset < s.filepaths.length)
    (ho : io.openFile (s.filepaths.getD s.entriesOffset "") = .ok h) :
    Stream.iter io s lenp acc =
      Stream.iter io { s with currentReader := some h, openHandles := s.openHandles + 1 }
        lenp acc := by
  unfold Stream.iter
  simp only [hr, Stream.openCurrentFile, Nat.not_le.mpr hi, if_false, ho]

theorem Read.loop_succ_ready (fuel : Nat) (m : MultiFileReader) (f : File) (lenp : Nat)
    (acc : List UInt8) (hr : m.currentReader = some f) (hacc : acc.length ≤ lenp) :
    Read.loop (fuel + 1) m lenp acc =
      match Stream.iter (fileHandles m.dir) (toStream m) lenp acc with
      | Step.done r s => some (r, ofStream m.dir s)
      | Step.next s read => Read.loop fuel (ofStream m.dir s) lenp read
      | Step.crash => none := by
  obtain ⟨fp, dir, idx, cr, tot, fo, ts, fs, oh⟩ := m
  simp only at hr
  subst hr
  conv_lhs => unfold Read.loop
  unfold Stream.iter
  simp only [toStream, Nat.not_lt.mpr hacc, if_false, sync_fileHandles,
    closeHandle_fileHandles]
  rcases hs : Read.sync fo f with ⟨oe, f1⟩
  cases oe with
  | some e => rfl
  | none =>
    simp only []
    rcases hrd : File.Read f1 (lenp - acc.length) with ⟨⟨bs, err⟩, f2⟩
    have hrd' : (fileHandles dir).read f1 (lenp - acc.length) = ((bs, err), f2) := hrd
    simp only [hrd']
    cases err with
    | none =>
      simp only []
      split <;> rfl
    | some e =>
      cases e with
      | EOF =>
        simp only []
        split <;> rfl
      | errorString msg => rfl
      | ErrNotExist => rfl
      | ErrClosed => rfl
      | EINVAL => rfl

theorem Read.loop_succ (fuel : Nat) (m : MultiFileReader) (lenp : Nat) (acc : List UInt8)
    (hacc : acc.length ≤ lenp) :
    Read.loop (fuel + 1) m lenp acc =
      match Stream.iter (fileHandles m.dir) (toStream m) lenp acc with
      | Step.done r s => some (r, ofStream m.dir s)
      | Step.next s read => Read.loop fuel (ofStream m.dir s) lenp read
      | Step.crash => none := by
  cases hr : m.currentReader with
  | some f => exact Read.loop_succ_ready fuel m f lenp acc hr hacc
  | none =>
    by_cases hi : m.entriesOffset < m.filepaths.length
    · cases ho : m.dir.Open (m.filepaths.getD m.entriesOffset "") with
      | error e =>
        obtain ⟨fp, dir, idx, cr, tot, fo, ts, fs, oh⟩ := m
        simp only at hr ho hi
        subst hr
        unfold Read.loop Stream.iter
        simp only [toStream, openCurrentFile, Stream.openCurrentFile, fileHandles,
          Nat.not_le.mpr hi, if_false, ho]
        rfl
      | ok f =>
        rw [Read.loop_opened fuel lenp acc hr hi ho,
          Stream.iter_opened (fileHandles m.dir) lenp acc (h := f) (by exact hr)
            (by exact hi) (by exact ho)]
        exact Read.loop_succ_ready fuel _ f lenp acc rfl hacc
    · obtain ⟨fp, dir, idx, cr, tot, fo, ts, fs, oh⟩ := m
      simp only at hr hi
      subst hr
      unfold Read.loop Stream.iter
      simp only [toStream, openCurrentFile, Stream.openCurrentFile,
        Nat.not_lt.mp hi, if_true]
      rfl

/-! ## The iteration in two parts: the handle at hand, and the rest -/

theorem Stream.iter_eq {H : Type} (io : Handles H) (s : Stream H) (lenp : Nat)
    (acc : List UInt8) :
    Stream.iter io s lenp acc =
      match s.currentReader with
      | some h => Stream.body io s h lenp acc
      | none =>
        match Stream.openCurrentFile io s with
        | (some e, m0) => Step.done (acc, some e) m0
        | (none, m0) =>
          match m0.currentReader with
          | some h => Stream.body io m0 h lenp acc
          | none => Step.crash := by
  unfold Stream.iter Stream.body
  cases hr : s.currentReader with
  | some h => simp only [hr]
  | none =>
    simp only []
    rcases ho : Stream.openCurrentFile io s with ⟨_ | e, m0⟩
    · simp only []
      cases hm : m0.currentReader with
      | none => rfl
      | some h => rfl
    · rfl

theorem Stream.openCurrentFile_cases {H : Type} (io : Handles H) (s : Stream H)
    (hr : s.currentReader = none) :
    (∃ e, Stream.openCurrentFile io s = (some e, s) ∧
      (s.entriesOffset < s.filepaths.length →
        io.openFile (s.filepaths.getD s.entriesOffset "") = .error e)) ∨
    (∃ h, Stream.openCurrentFile io s =
        (none, { s with currentReader := some h, openHandles := s.openHandles + 1 }) ∧
      s.entriesOffset < s.filepaths.length ∧
      io.openFile (s.filepaths.getD s.entriesOffset "") = .ok h) := by
  unfold Stream.openCurrentFile
  by_cases hlen : s.filepaths.length ≤ s.entriesOffset
  · left
    exact ⟨Error.EOF, by simp only [hlen, if_true], fun h => by omega⟩
  · cases ho : io.openFile (s.filepaths.getD s.entriesOffset "") with
    | error e =>
      left
      exact ⟨e, by simp only [hlen, if_false], fun _ => rfl⟩
    | ok h =>
      right
      exact ⟨h, by simp only [hlen, if_false, hr], by omega, rfl⟩

theorem Stream.loop_induct {H : Type} (io : Handles H) (lenp : Nat)
    (P : Stream H → List UInt8 → Prop)
    (Q : List UInt8 × Option Error → Stream H → Prop)
    (hdone : ∀ s acc r s', P s acc → Stream.iter io s lenp acc = Step.done r s' → Q r s')
    (hnext : ∀ s acc s' acc', P s acc → Stream.iter io s lenp acc = Step.next s' acc' →
      P s' acc') (fuel : Nat) :
    ∀ s acc r s', P s acc → Stream.loop io fuel s lenp acc = some (r, s') → Q r s' := by
  induction fuel with
  | zero =>
    intro s acc r s' _ h
    simp [Stream.loop] at h
  | succ fuel ih =>
    intro s acc r s' hP h
    unfold Stream.loop at h
    cases hit : Stream.iter io s lenp acc with
    | done r1 s1 =>
      rw [hit] at h
      simp only [Option.some.injEq, Prod.mk.injEq] at h
      obtain ⟨rfl, rfl⟩ := h
      exact hdone s acc _ _ hP hit
    | next s1 acc1 =>
      rw [hit] at h
      exact ih s1 acc1 r s' (hnext s acc s1 acc1 hP hit) h
    | crash =>
      rw [hit] at h
      cases h

theorem Stream.iter_of_atHand {H : Type} (io : Handles H) {s m0 : Stream H} {h : H}
    (lenp : Nat) (acc : List UInt8) (hat : Stream.atHand io s = some (h, m0)) :
    Stream.iter io s lenp acc = Stream.body io m0 h lenp acc := by
  rw [Stream.iter_eq]
  unfold Stream.atHand at hat
  cases hr : s.currentReader with
  | some h' =>
    rw [hr] at hat
    simp only [Option.some.injEq, Prod.mk.injEq] at hat
    obtain ⟨rfl, rfl⟩ := hat
    rfl
  | none =>
    rw [hr] at hat
    simp only [] at hat ⊢
    rcases ho : Stream.openCurrentFile io s with ⟨_ | e, m1⟩
    · rw [ho] at hat
      simp only [] at hat ⊢
      cases hm : m1.currentReader with
      | none => rw [hm] at hat; cases hat
      | some h' =>
        rw [hm] at hat
        simp only [Option.some.injEq, Prod.mk.injEq] at hat
        obtain ⟨rfl, rfl⟩ := hat
        rfl
    · rw [ho] at hat
      cases hat

theorem Stream.iter_cases {H : Type} (io : Handles H) (s : Stream H) (lenp : Nat)
    (acc : List UInt8) :
    (∃ e, s.currentReader = none ∧ Stream.openCurrentFile io s = (some e, s) ∧
      Stream.iter io s lenp acc = Step.done (acc, some e) s) ∨
    (∃ h, s.currentReader = some h ∧ Stream.atHand io s = some (h, s) ∧
      Stream.iter io s lenp acc = Stream.body io s h lenp acc) ∨
    (∃ h, s.currentReader = none ∧ s.entriesOffset < s.filepaths.length ∧
      io.openFile (s.filepaths.getD s.entriesOffset "") = .ok h ∧
      Stream.atHand io s =
        some (h, { s with currentReader := some h, openHandles := s.openHandles + 1 }) ∧
      Stream.iter io s lenp acc =
        Stream.body io { s with currentReader := some h, openHandles := s.openHandles + 1 }
          h lenp acc) := by
  cases hr : s.currentReader with
  | some h =>
    right; left
    have hat : Stream.atHand io s = some (h, s) := by
      unfold Stream.atHand; rw [hr]
    exact ⟨h, rfl, hat, Stream.iter_of_atHand io lenp acc hat⟩
  | none =>
    rcases Stream.openCurrentFile_cases io s hr with ⟨e, ho, _⟩ | ⟨h, ho, hi, hopen⟩
    · left
      refine ⟨e, rfl, ho, ?_⟩
      rw [Stream.iter_eq, hr]
      simp only [ho]
    · right; right
      have hat : Stream.atHand io s =
          some (h, { s with currentReader := some h, openHandles := s.openHandles + 1 }) := by
        unfold Stream.atHand
        rw [hr]
        simp only [ho]
      exact ⟨h, rfl, hi, hopen, hat, Stream.iter_of_atHand io lenp acc hat⟩

theorem Stream.body_cases {H : Type} (io : Handles H) (m0 : Stream H) (h : H) (lenp : Nat)
    (acc : List UInt8) :
    (∃ e h1, Stream.sync io m0.fileOffset h = (some e, h1) ∧
      Stream.body io m0 h lenp acc =
        Step.done (acc, some e) { m0 with currentReader := some h1 }) ∨
    (∃ h1, Stream.sync io m0.fileOffset h = (none, h1) ∧ lenp < acc.length ∧
      Stream.body io m0 h lenp acc = Step.crash) ∨
    (∃ h1 bs err h2, Stream.sync io m0.fileOffset h = (none, h1) ∧ acc.length ≤ lenp ∧
      io.read h1 (lenp - acc.length) = ((bs, err), h2) ∧
      ((err = some Error.EOF ∧ m0.filepaths.length ≤ m0.entriesOffset ∧
          Stream.body io m0 h lenp acc =
            Step.done (acc ++ bs, some Error.EOF) (Stream.afterRead m0 h2 bs)) ∨
       (err = some Error.EOF ∧ m0.entriesOffset < m0.filepaths.length ∧
          Stream.body io m0 h lenp acc =
            Step.next (Stream.nextEntry io m0 h2 bs) (acc ++ bs)) ∨
       (∃ e, err = some e ∧ e ≠ Error.EOF ∧
          Stream.body io m0 h lenp acc =
            Step.done (acc ++ bs, some e) (Stream.afterRead m0 h2 bs)) ∨
       (err = none ∧ (acc ++ bs).length = lenp ∧
          Stream.body io m0 h lenp acc =
            Step.done (acc ++ bs, none) (Stream.afterRead m0 h2 bs)) ∨
       (err = none ∧ (acc ++ bs).length ≠ lenp ∧
          Stream.body io m0 h lenp acc =
            Step.next (Stream.afterRead m0 h2 bs) (acc ++ bs)))) := by
  unfold Stream.body
  rcases hs : Stream.sync io m0.fileOffset h with ⟨_ | e, h1⟩
  · by_cases hacc : lenp < acc.length
    · right; left
      exact ⟨h1, rfl, hacc, by simp only [hacc, if_true]⟩
    · right; right
      rcases hrd : io.read h1 (lenp - acc.length) with ⟨⟨bs, err⟩, h2⟩
      refine ⟨h1, bs, err, h2, rfl, by omega, hrd, ?_⟩
      simp only [hacc, if_false, hrd]
      cases err with
      | none =>
        by_cases hfull : (acc ++ bs).length = lenp
        · right; right; right; left
          exact ⟨rfl, hfull, by simp only [hfull, if_true]; rfl⟩
        · right; right; right; right
          exact ⟨rfl, hfull, by simp only [hfull, if_false]; rfl⟩
      | some e =>
        cases e with
        | EOF =>
          by_cases hlast : m0.filepaths.length ≤ m0.entriesOffset
          · left
            exact ⟨rfl, hlast, by simp only [hlast, if_true]; rfl⟩
          · right; left
            exact ⟨rfl, by omega, by simp only [hlast, if_false]; rfl⟩
        | errorString msg =>
          right; right; left
          exact ⟨_, rfl, by simp, rfl⟩
        | ErrNotExist =>
          right; right; left
          exact ⟨_, rfl, by simp, rfl⟩
        | ErrClosed =>
          right; right; left
          exact ⟨_, rfl, by simp, rfl⟩
        | EINVAL =>
          right; right; left
          exact ⟨_, rfl, by simp, rfl⟩
  · left
    exact ⟨e, h1, rfl, rfl⟩

theorem Stream.atHand_cases {H : Type} (io : Handles H) {s m0 : Stream H} {h : H}
    (hat : Stream.atHand io s = some (h, m0)) :
    (s.currentReader = some h ∧ m0 = s) ∨
    (s.currentReader = none ∧ s.entriesOffset < s.filepaths.length ∧
      io.openFile (s.filepaths.getD s.entriesOffset "") = .ok h ∧
      m0 = { s with currentReader := some h, openHandles := s.openHandles + 1 }) := by
  rcases Stream.iter_cases io s 0 [] with ⟨e, hr, ho, _⟩ | ⟨h', hr, hat', _⟩ |
    ⟨h', hr, hi, hopen, hat', _⟩
  · unfold Stream.atHand at hat
    rw [hr] at hat
    simp only [ho] at hat
    cases hat
  · rw [hat'] at hat
    simp only [Option.some.injEq, Prod.mk.injEq] at hat
    obtain ⟨rfl, rfl⟩ := hat
    exact Or.inl ⟨hr, rfl⟩
  · rw [hat'] at hat
    simp only [Option.some.injEq, Prod.mk.injEq] at hat
    obtain ⟨rfl, rfl⟩ := hat
    exact Or.inr ⟨hr, hi, hopen, rfl⟩

theorem Stream.iter_next_inv {H : Type} (io : Handles H) {s s' : Stream H} {lenp : Nat}
    {acc acc' : List UInt8} (hit : Stream.iter io s lenp acc = Step.next s' acc') :
    ∃ h m0 h1 bs err h2, Stream.atHand io s = some (h, m0) ∧
      Stream.sync io m0.fileOffset h = (none, h1) ∧ acc.length ≤ lenp ∧
      io.read h1 (lenp - acc.length) = ((bs, err), h2) ∧ acc' = acc ++ bs ∧
      ((err = some Error.EOF ∧ m0.entriesOffset < m0.filepaths.length ∧
          s' = Stream.nextEntry io m0 h2 bs) ∨
       (err = none ∧ (acc ++ bs).length ≠ lenp ∧ s' = Stream.afterRead m0 h2 bs)) := by
  have key : ∀ (m0 : Stream H) (h : H), Stream.atHand io s = some (h, m0) →
      Stream.body io m0 h lenp acc = Step.next s' acc' →
      ∃ h m0 h1 bs err h2, Stream.atHand io s = some (h, m0) ∧
        Stream.sync io m0.fileOffset h = (none, h1) ∧ acc.length ≤ lenp ∧
        io.read h1 (lenp - acc.length) = ((bs, err), h2) ∧ acc' = acc ++ bs ∧
        ((err = some Error.EOF ∧ m0.entriesOffset < m0.filepaths.length ∧
            s' = Stream.nextEntry io m0 h2 bs) ∨
         (err = none ∧ (acc ++ bs).length ≠ lenp ∧ s' = Stream.afterRead m0 h2 bs)) := by
    intro m0 h hat hb
    rcases Stream.body_cases io m0 h lenp acc with ⟨e, h1, _, hbody⟩ | ⟨h1, _, _, hbody⟩ |
      ⟨h1, bs, err, h2, hs, hacc, hrd, hcase⟩
    · rw [hbody] at hb; cases hb
    · rw [hbody] at hb; cases hb
    · refine ⟨h, m0, h1, bs, err, h2, hat, hs, hacc, hrd, ?_⟩
      rcases hcase with ⟨_, _, hbody⟩ | ⟨he, hi, hbody⟩ | ⟨e, _, _, hbody⟩ | ⟨_, _, hbody⟩ |
        ⟨he, hne, hbody⟩
      · rw [hbody] at hb; cases hb
      · rw [hbody] at hb
        injection hb with h1 h2
        exact ⟨h2.symm, Or.inl ⟨he, hi, h1.symm⟩⟩
      · rw [hbody] at hb; cases hb
      · rw [hbody] at hb; cases hb
      · rw [hbody] at hb
        injection hb with h1 h2
        exact ⟨h2.symm, Or.inr ⟨he, hne, h1.symm⟩⟩
  rcases Stream.iter_cases io s lenp acc with ⟨e, _, _, hd⟩ | ⟨h, _, hat, hb⟩ |
    ⟨h, _, _, _, hat, hb⟩
  · rw [hd] at hit; cases hit
  · exact key _ h hat (hb ▸ hit)
  · exact key _ h hat (hb ▸ hit)

theorem Stream.iter_done_inv {H : Type} (io : Handles H) {s s' : Stream H} {lenp : Nat}
    {acc : List UInt8} {r : List UInt8 × Option Error}
    (hit : Stream.iter io s lenp acc = Step.done r s') :
    (∃ e, s.currentReader = none ∧ Stream.openCurrentFile io s = (some e, s) ∧
      r = (acc, some e) ∧ s' = s) ∨
    (∃ h m0 e h1, Stream.atHand io s = some (h, m0) ∧
      Stream.sync io m0.fileOffset h = (some e, h1) ∧ r = (acc, some e) ∧
      s' = { m0 with currentReader := some h1 }) ∨
    (∃ h m0 h1 bs err h2, Stream.atHand io s = some (h, m0) ∧
      Stream.sync io m0.fileOffset h = (none, h1) ∧ acc.length ≤ lenp ∧
      io.read h1 (lenp - acc.length) = ((bs, err), h2) ∧ r = (acc ++ bs, err) ∧
      s' = Stream.afterRead m0 h2 bs ∧
      (err = some Error.EOF → m0.filepaths.length ≤ m0.entriesOffset) ∧
      (err = none → (acc ++ bs).length = lenp)) := by
  have key : ∀ (m0 : Stream H) (h : H), Stream.atHand io s = some (h, m0) →
      Stream.body io m0 h lenp acc = Step.done r s' →
      (∃ h m0 e h1, Stream.atHand io s = some (h, m0) ∧
        Stream.sync io m0.fileOffset h = (some e, h1) ∧ r = (acc, some e) ∧
        s' = { m0 with currentReader := some h1 }) ∨
      (∃ h m0 h1 bs err h2, Stream.atHand io s = some (h, m0) ∧
        Stream.sync io m0.fileOffset h = (none, h1) ∧ acc.length ≤ lenp ∧
        io.read h1 (lenp - acc.length) = ((bs, err), h2) ∧ r = (acc ++ bs, err) ∧
        s' = Stream.afterRead m0 h2 bs ∧
        (err = some Error.EOF → m0.filepaths.length ≤ m0.entriesOffset) ∧
        (err = none → (acc ++ bs).length = lenp)) := by
    intro m0 h hat hb
    rcases Stream.body_cases io m0 h lenp acc with ⟨e, h1, hs, hbody⟩ | ⟨h1, _, _, hbody⟩ |
      ⟨h1, bs, err, h2, hs, hacc, hrd, hcase⟩
    · rw [hbody] at hb
      injection hb with hr hs'
      exact Or.inl ⟨h, m0, e, h1, hat, hs, hr.symm, hs'.symm⟩
    · rw [hbody] at hb; cases hb
    · right
      rcases hcase with ⟨he, hlast, hbody⟩ | ⟨_, _, hbody⟩ | ⟨e, he, hne, hbody⟩ |
        ⟨he, hfull, hbody⟩ | ⟨_, _, hbody⟩
      · rw [hbody] at hb
        injection hb with hr hs'
        subst he
        exact ⟨h, m0, h1, bs, _, h2, hat, hs, hacc, hrd, hr.symm, hs'.symm,
          fun _ => hlast, fun hc => by cases hc⟩
      · rw [hbody] at hb; cases hb
      · rw [hbody] at hb
        injection hb with hr hs'
        subst he
        exact ⟨h, m0, h1, bs, _, h2, hat, hs, hacc, hrd, hr.symm, hs'.symm,
          fun hc => absurd (Option.some.inj hc) hne, fun hc => by cases hc⟩
      · rw [hbody] at hb
        injection hb with hr hs'
        subst he
        exact ⟨h, m0, h1, bs, _, h2, hat, hs, hacc, hrd, hr.symm, hs'.symm,
          fun hc => (by cases hc), fun _ => hfull⟩
      · rw [hbody] at hb; cases hb
  rcases Stream.iter_cases io s lenp acc with ⟨e, hr, ho, hd⟩ | ⟨h, _, hat, hb⟩ |
    ⟨h, _, _, _, hat, hb⟩
  · rw [hd] at hit
    injection hit with h1 h2
    exact Or.inl ⟨e, hr, ho, h1.symm, h2.symm⟩
  · exact Or.inr (key _ h hat (hb ▸ hit))
  · exact Or.inr (key _ h hat (hb ▸ hit))

/-! ## What no iteration changes -/

theorem Stream.atHand_same {H : Type} (io : Handles H) {s m0 : Stream H} {h : H}
    (hat : Stream.atHand io s = some (h, m0)) :
    Stream.Same s m0 ∧ m0.entriesOffset = s.entriesOffset ∧
    m0.fileOffset = s.fileOffset ∧ m0.totalOffset = s.totalOffset ∧
    m0.currentReader = some h := by
  rcases Stream.atHand_cases io hat with ⟨hr, rfl⟩ | ⟨_, _, _, rfl⟩
  · exact ⟨⟨rfl, rfl, rfl⟩, rfl, rfl, rfl, hr⟩
  · exact ⟨⟨rfl, rfl, rfl⟩, rfl, rfl, rfl, rfl⟩

theorem Stream.iter_done_same {H : Type} (io : Handles H) {s s' : Stream H} {lenp : Nat}
    {acc : List UInt8} {r : List UInt8 × Option Error}
    (hit : Stream.iter io s lenp acc = Step.done r s') : Stream.Same s s' := by
  rcases Stream.iter_done_inv io hit with ⟨e, _, _, _, rfl⟩ |
    ⟨h, m0, e, h1, hat, _, _, rfl⟩ | ⟨h, m0, h1, bs, err, h2, hat, _, _, _, _, rfl, _⟩
  · exact ⟨rfl, rfl, rfl⟩
  · exact (Stream.atHand_same io hat).1
  · exact (Stream.atHand_same io hat).1

theorem Stream.iter_next_same {H : Type} (io : Handles H) {s s' : Stream H} {lenp : Nat}
    {acc acc' : List UInt8} (hit : Stream.iter io s lenp acc = Step.next s' acc') :
    Stream.Same s s' := by
  obtain ⟨h, m0, h1, bs, err, h2, hat, _, _, _, _, hcase⟩ := Stream.iter_next_inv io hit
  rcases hcase with ⟨_, _, rfl⟩ | ⟨_, _, rfl⟩
  · exact (Stream.atHand_same io hat).1
  · exact (Stream.atHand_same io hat).1

theorem Stream.loop_same {H : Type} (io : Handles H) (fuel : Nat) (s : Stream H) (lenp : Nat)
    (acc : List UInt8) (r : List UInt8 × Option Error) (s' : Stream H)
    (h : Stream.loop io fuel s lenp acc = some (r, s')) : Stream.Same s s' := by
  refine Stream.loop_induct io lenp (fun m _ => Stream.Same s m) (fun _ m => Stream.Same s m)
    ?_ ?_ fuel s acc r s' ⟨rfl, rfl, rfl⟩ h
  · intro m a r1 m1 hP hit
    obtain ⟨h1, h2, h3⟩ := Stream.iter_done_same io hit
    exact ⟨h1.trans hP.1, h2.trans hP.2.1, h3.trans hP.2.2⟩
  · intro m a m1 a1 hP hit
    obtain ⟨h1, h2, h3⟩ := Stream.iter_next_same io hit
    exact ⟨h1.trans hP.1, h2.trans hP.2.1, h3.trans hP.2.2⟩

/-! ## `Read` as an instance of the loop over arbitrary handles -/

theorem iter_next_length_le {dir : FS} {s s' : Stream File} {lenp : Nat}
    {acc acc' : List UInt8}
    (hit : Stream.iter (fileHandles dir) s lenp acc = Step.next s' acc') :
    acc'.length ≤ lenp := by
  obtain ⟨h, m0, h1, bs, err, h2, _, _, hacc, hrd, rfl, _⟩ := Stream.iter_next_inv _ hit
  obtain ⟨bs', err', f2, hshape, hlen, _⟩ := File.Read_shape h1 (lenp - acc.length)
  have hrd' : File.Read h1 (lenp - acc.length) = ((bs, err), h2) := hrd
  rw [hshape] at hrd'
  simp only [Prod.mk.injEq] at hrd'
  obtain ⟨⟨rfl, _⟩, _⟩ := hrd'
  rw [List.length_append]
  omega

theorem Read.loop_eq_stream (fuel : Nat) :
    ∀ (m : MultiFileReader) (lenp : Nat) (acc : List UInt8), acc.length ≤ lenp →
      Read.loop fuel m lenp acc =
        (Stream.loop (fileHandles m.dir) fuel (toStream m) lenp acc).map
          (fun rs => (rs.1, ofStream m.dir rs.2)) := by
  induction fuel with
  | zero => intro m lenp acc _; rfl
  | succ fuel ih =>
    intro m lenp acc hacc
    rw [Read.loop_succ fuel m lenp acc hacc]
    conv_rhs => unfold Stream.loop
    cases hit : Stream.iter (fileHandles m.dir) (toStream m) lenp acc with
    | done r s => rfl
    | next s acc1 =>
      simp only []
      rw [ih (ofStream m.dir s) lenp acc1 (iter_next_length_le hit)]
      rfl
    | crash => rfl

theorem Read_eq_stream (m : MultiFileReader) (lenp : Nat) :
    Read m lenp =
      (Stream.loop (fileHandles m.dir) (Read.fuel m lenp) (toStream m) lenp []).map
        (fun rs => (rs.1, ofStream m.dir rs.2)) :=
  Read.loop_eq_stream _ m lenp [] (Nat.zero_le _)

theorem Read_stream {m m' : MultiFileReader} {lenp : Nat} {r : List UInt8 × Option Error}
    (h : Read m lenp = some (r, m')) :
    ∃ s', Stream.loop (fileHandles m.dir) (Read.fuel m lenp) (toStream m) lenp [] =
        some (r, s') ∧ m' = ofStream m.dir s' := by
  rw [Read_eq_stream] at h
  cases hl : Stream.loop (fileHandles m.dir) (Read.fuel m lenp) (toStream m) lenp [] with
  | none => rw [hl] at h; cases h
  | some rs =>
    rw [hl] at h
    simp only [Option.map_some', Option.some.injEq, Prod.mk.injEq] at h
    obtain ⟨rfl, rfl⟩ := h
    exact ⟨rs.2, rfl, rfl⟩

theorem Read_same {m m' : MultiFileReader} {lenp : Nat} {r : List UInt8 × Option Error}
    (h : Read m lenp = some (r, m')) : SameStream m m' := by
  obtain ⟨s', hl, rfl⟩ := Read_stream h
  obtain ⟨h1, h2, h3⟩ := Stream.loop_same _ _ _ _ _ _ _ hl
  exact ⟨h1, rfl, h2, h3⟩

theorem Seek_cases {m m' : MultiFileReader} {offset whence : Int} {r : Int × Option Error}
    (h : Seek m offset whence = some (r, m')) :
    (m' = m ∧ ∃ e, r = (0, some e) ∧ e ≠ Error.EOF ∧
      (Seek.abs m offset whence = none ∨ ∃ a, Seek.abs m offset whence = some a ∧ a < 0)) ∨
    (∃ a, Seek.abs m offset whence = some a ∧ 0 ≤ a ∧ m.totalSize ≤ a ∧
      m' = { (Seek.release m) with totalOffset := m.totalSize } ∧
      (a = m.totalSize → r = (m.totalSize, none)) ∧
      (m.totalSize < a → r = (0, some Error.EOF))) ∨
    (∃ a i start, Seek.abs m offset whence = some a ∧ 0 ≤ a ∧ a < m.totalSize ∧
      Seek.scan m.filesizes a m.filepaths.length 0 0 = some (i, start) ∧ r = (a, none) ∧
      m' = { (Seek.release m) with entriesOffset := i, totalOffset := a,
                                   fileOffset := wrap64 (a - start) }) := by
  obtain ⟨hp, hd, hf, ht, _⟩ := Seek.release_fields m
  cases habs : Seek.abs m offset whence with
  | none =>
    left
    unfold Seek at h
    simp only [habs, Option.some.injEq, Prod.mk.injEq] at h
    obtain ⟨rfl, rfl⟩ := h
    exact ⟨rfl, _, rfl, by simp, Or.inl rfl⟩
  | some a =>
    by_cases hneg : a < 0
    · left
      unfold Seek at h
      simp only [habs, hneg, if_true, Option.some.injEq, Prod.mk.injEq] at h
      obtain ⟨rfl, rfl⟩ := h
      exact ⟨rfl, _, rfl, by simp, Or.inr ⟨a, rfl, hneg⟩⟩
    · by_cases heq : a = m.totalSize
      · right; left
        subst heq
        rw [Seek_at_total m offset whence habs (by omega)] at h
        simp only [Option.some.injEq, Prod.mk.injEq] at h
        obtain ⟨rfl, rfl⟩ := h
        exact ⟨_, rfl, by omega, le_refl _, rfl, fun _ => rfl, fun hc => by omega⟩
      · by_cases hgt : m.totalSize < a
        · right; left
          unfold Seek at h
          simp only [habs, hneg, if_false, ht, heq, gt_iff_lt, hgt, if_true,
            Option.some.injEq, Prod.mk.injEq] at h
          obtain ⟨rfl, rfl⟩ := h
          exact ⟨a, rfl, by omega, by omega, by simp only [ht], fun hc => absurd hc heq,
            fun _ => rfl⟩
        · right; right
          have hlt : a < m.totalSize := by omega
          cases hscan : Seek.scan m.filesizes a m.filepaths.length 0 0 with
          | none =>
            unfold Seek at h
            simp only [habs, hneg, if_false, ht, heq, gt_iff_lt, hgt, hf, hp, hscan] at h
            cases h
          | some p =>
            obtain ⟨i, start⟩ := p
            rw [Seek_at_scan m offset whence a i start habs (by omega) hlt hscan] at h
            simp only [Option.some.injEq, Prod.mk.injEq] at h
            obtain ⟨rfl, rfl⟩ := h
            exact ⟨a, i, start, rfl, by omega, hlt, hscan, rfl, rfl⟩

theorem Seek_same {m m' : MultiFileReader} {offset whence : Int} {r : Int × Option Error}
    (h : Seek m offset whence = some (r, m')) : SameStream m m' := by
  obtain ⟨hp, hd, hf, ht, _⟩ := Seek.release_fields m
  rcases Seek_cases h with ⟨rfl, _⟩ | ⟨a, _, _, _, rfl, _⟩ | ⟨a, i, start, _, _, _, _, _, rfl⟩
  · exact ⟨rfl, rfl, rfl, rfl⟩
  · exact ⟨hp, hd, hf, ht⟩
  · exact ⟨hp, hd, hf, ht⟩

theorem Close_same (m : MultiFileReader) : SameStream m (Close m).2 := by
  unfold Close
  cases m.currentReader with
  | none => exact ⟨rfl, rfl, rfl, rfl⟩
  | some f =>
    simp only []
    rcases f.Close with ⟨_ | e, f1⟩ <;> exact ⟨rfl, rfl, rfl, rfl⟩

/-! ## The constructor, in every store -/

theorem New.loop_dir (paths : List String) :
    ∀ (r r' : MultiFileReader), New.loop paths r = .ok r' → r'.dir = r.dir := by
  induction paths with
  | nil =>
    intro r r' h
    simp only [New.loop, Except.ok.injEq] at h
    rw [← h]
  | cons name rest ih =>
    intro r r' h
    unfold New.loop at h
    cases hs : r.dir.stat name with
    | error e => rw [hs] at h; cases h
    | ok size =>
      rw [hs] at h
      exact ih { r with filesizes := r.filesizes ++ [size],
                        totalSize := wrap64 (r.totalSize + size) } r' h

theorem New.loop_error_iff (paths : List String) :
    ∀ (r : MultiFileReader), (∃ e, New.loop paths r = .error e) ↔
      ∃ name ∈ paths, ∃ e, r.dir.stat name = .error e := by
  induction paths with
  | nil =>
    intro r
    simp [New.loop]
  | cons name rest ih =>
    intro r
    unfold New.loop
    cases hs : r.dir.stat name with
    | error e =>
      simp only [Except.error.injEq, exists_eq', List.mem_cons, true_iff]
      exact ⟨name, Or.inl rfl, e, hs⟩
    | ok size =>
      simp only []
      rw [ih]
      constructor
      · rintro ⟨n, hn, e, he⟩
        exact ⟨n, List.mem_cons_of_mem _ hn, e, he⟩
      · rintro ⟨n, hn, e, he⟩
        rcases List.mem_cons.mp hn with rfl | hn
        · rw [hs] at he; cases he
        · exact ⟨n, hn, e, he⟩

theorem New.loop_ok (paths : List String) :
    ∀ (r r' : MultiFileReader), inInt64 r.totalSize → New.loop paths r = .ok r' →
      ∃ sizes : List Int, paths.map r.dir.stat = sizes.map Except.ok ∧
        r' = { r with filesizes := r.filesizes ++ sizes,
                      totalSize := wrap64 (r.totalSize + sizes.sum) } := by
  induction paths with
  | nil =>
    intro r r' hr h
    simp only [New.loop, Except.ok.injEq] at h
    subst h
    exact ⟨[], rfl, by simp [wrap64_of_inInt64 hr]⟩
  | cons name rest ih =>
    intro r r' hr h
    unfold New.loop at h
    cases hs : r.dir.stat name with
    | error e => rw [hs] at h; cases h
    | ok size =>
      rw [hs] at h
      obtain ⟨sizes, hmap, rfl⟩ := ih _ _ (inInt64_wrap64 _) h
      refine ⟨size :: sizes, ?_, ?_⟩
      · simp only [List.map_cons, hs]
        exact congrArg _ hmap
      · simp only [List.append_assoc, List.singleton_append, List.sum_cons,
          wrap64_add_wrap64]

/-- C12 (construction).  For every store and every list of entries: `New`
fails exactly when `fs.Stat` fails for some entry; and when it returns a
reader, its entries are the input list in order, its sizes are the stat
sizes of the entries in the same order, its total size is their sum as
`int64` addition computes it, which is the sum whenever that fits `int64`,
cursor, index and file offset are 0 and no handle is open.  No `Read`, `Seek`
or `Close`, in any state, changes the entries, the sizes or the total size. -/
theorem New_constructs (dir : FS) (files : List String) :
    ((∃ e, New dir files = .error e) ↔ ∃ name ∈ files, ∃ e, dir.stat name = .error e) ∧
    (∀ s, New dir files = .ok s →
      s.filepaths = files ∧ s.dir = dir ∧
      files.map dir.stat = s.filesizes.map Except.ok ∧
      s.totalSize = wrap64 s.filesizes.sum ∧
      (inInt64 s.filesizes.sum → s.totalSize = s.filesizes.sum) ∧
      s.totalOffset = 0 ∧ s.entriesOffset = 0 ∧ s.fileOffset = 0 ∧
      s.currentReader = none ∧ s.openHandles = 0) ∧
    (∀ s lenp r s', Read s lenp = some (r, s') → SameStream s s') ∧
    (∀ s offset whence r s', Seek s offset whence = some (r, s') → SameStream s s') ∧
    (∀ s, SameStream s (Close s).2) := by
  refine ⟨New.loop_error_iff files _, ?_, fun _ _ _ _ h => Read_same h,
    fun _ _ _ _ _ h => Seek_same h, Close_same⟩
  intro s h
  obtain ⟨sizes, hmap, rfl⟩ := New.loop_ok files _ s (by unfold inInt64; simp) h
  refine ⟨rfl, rfl, ?_, ?_, ?_, rfl, rfl, rfl, rfl, rfl⟩
  · simpa using hmap
  · simp
  · intro hin
    simp only [List.nil_append, zero_add] at hin ⊢
    exact wrap64_of_inInt64 hin

/-- Witness of C12: `New` on the two files of the tests returns the fresh
reader with sizes 13 and 13 and total 26, and `New` on a missing file fails. -/
theorem New_constructs_witness :
    New testDir ["file1.txt", "file2.txt"] = .ok fresh ∧ fresh.totalSize = fresh.filesizes.sum ∧
    (∃ e, New testDir ["file1.txt", "missing.txt"] = .error e) :=
  ⟨rfl, ((New_constructs testDir ["file1.txt", "file2.txt"]).2.1 fresh rfl).2.2.2.2.1
      (by decide),
    (New_constructs testDir ["file1.txt", "missing.txt"]).1.mpr
      ⟨"missing.txt", by decide, Error.ErrNotExist, rfl⟩⟩

/-! ## Errors and the cursor, over arbitrary handles -/

theorem Stream.loop_of_done {H : Type} (io : Handles H) (fuel : Nat) {s s' : Stream H}
    {lenp : Nat} {acc : List UInt8} {r : List UInt8 × Option Error}
    (h : Stream.iter io s lenp acc = Step.done r s') :
    Stream.loop io (fuel + 1) s lenp acc = some (r, s') := by
  unfold Stream.loop
  rw [h]

theorem Stream.body_read_error {H : Type} (io : Handles H) (m0 : Stream H) (h h1 h2 : H)
    (lenp : Nat) (acc bs : List UInt8) (e : Error)
    (hs : Stream.sync io m0.fileOffset h = (none, h1)) (hacc : acc.length ≤ lenp)
    (hrd : io.read h1 (lenp - acc.length) = ((bs, some e), h2)) (hne : e ≠ Error.EOF) :
    Stream.body io m0 h lenp acc =
      Step.done (acc ++ bs, some e) (Stream.afterRead m0 h2 bs) := by
  rcases Stream.body_cases io m0 h lenp acc with ⟨e', h1', hs', _⟩ | ⟨h1', _, hlt, _⟩ |
    ⟨h1', bs', err', h2', hs', _, hrd', hcase⟩
  · rw [hs] at hs'; cases hs'
  · omega
  · rw [hs] at hs'
    simp only [Prod.mk.injEq, true_and] at hs'
    subst hs'
    rw [hrd] at hrd'
    simp only [Prod.mk.injEq] at hrd'
    obtain ⟨⟨rfl, rfl⟩, rfl⟩ := hrd'
    rcases hcase with ⟨he, _, _⟩ | ⟨he, _, _⟩ | ⟨e', he, _, hbody⟩ | ⟨he, _, _⟩ | ⟨he, _, _⟩
    · exact absurd (Option.some.inj he) hne
    · exact absurd (Option.some.inj he) hne
    · cases he
      exact hbody
    · cases he
    · cases he

theorem Stream.loop_cursor {H : Type} (io : Handles H) (lenp : Nat) (s0 : Stream H)
    (acc0 : List UInt8) (fuel : Nat) (r : List UInt8 × Option Error) (s' : Stream H)
    (hin : inInt64 s0.totalOffset)
    (h : Stream.loop io fuel s0 lenp acc0 = some (r, s')) :
    ∃ extra, r.1 = acc0 ++ extra ∧
      s'.totalOffset = wrap64 (s0.totalOffset + extra.length) := by
  refine Stream.loop_induct io lenp
    (fun m a => ∃ extra, a = acc0 ++ extra ∧
      m.totalOffset = wrap64 (s0.totalOffset + extra.length))
    (fun r m => ∃ extra, r.1 = acc0 ++ extra ∧
      m.totalOffset = wrap64 (s0.totalOffset + extra.length))
    ?_ ?_ fuel s0 acc0 r s' ⟨[], by simp, by simp [wrap64_of_inInt64 hin]⟩ h
  · intro m a r1 m1 ⟨extra, ha, hm⟩ hit
    rcases Stream.iter_done_inv io hit with ⟨e, _, _, rfl, rfl⟩ |
      ⟨h, m0, e, h1, hat, _, rfl, rfl⟩ |
      ⟨h, m0, h1, bs, err, h2, hat, _, _, _, rfl, rfl, _⟩
    · exact ⟨extra, ha, hm⟩
    · obtain ⟨_, _, _, hto, _⟩ := Stream.atHand_same io hat
      exact ⟨extra, ha, by show m0.totalOffset = _; rw [hto, hm]⟩
    · obtain ⟨_, _, _, hto, _⟩ := Stream.atHand_same io hat
      refine ⟨extra ++ bs, by simp [ha], ?_⟩
      show wrap64 (m0.totalOffset + bs.length) = _
      rw [hto, hm, wrap64_add_wrap64, List.length_append]
      push_cast
      rfl
  · intro m a m1 a1 ⟨extra, ha, hm⟩ hit
    obtain ⟨h, m0, h1, bs, err, h2, hat, _, _, _, rfl, hcase⟩ := Stream.iter_next_inv io hit
    obtain ⟨_, _, _, hto, _⟩ := Stream.atHand_same io hat
    refine ⟨extra ++ bs, by simp [ha], ?_⟩
    have hgoal : wrap64 (m0.totalOffset + bs.length) =
        wrap64 (s0.totalOffset + ((extra ++ bs).length : Nat)) := by
      rw [hto, hm, wrap64_add_wrap64, List.length_append]
      push_cast
      rfl
    rcases hcase with ⟨_, _, rfl⟩ | ⟨_, _, rfl⟩
    · exact hgoal
    · exact hgoal

/-- C19 (error propagation with partial count).  For every store, whatever
its handles do, every reader state, every buffer length and every iteration
of the loop of `Read`, reached with the bytes `acc` placed in the buffer so
far in this call: if `dir.Open` fails, the call returns at once with that
error and `acc`; if the reposition fails, the call returns at once with its
error and `acc`; if the reposition returns another offset than `fileOffset`,
the call returns at once with the error `seek failed` and `acc`; if the read
fails with an error other than `io.EOF`, the call returns at once with that
error and `acc` followed by the bytes the failing read returned.  And in
every outcome of a call the cursor has advanced by the number of bytes
returned, in `int64` arithmetic, which is the exact sum whenever that fits;
this holds for `Read` on the model of `*os.File` as well. -/
theorem Read_error_propagation {H : Type} (io : Handles H) (s : Stream H) (lenp : Nat)
    (acc : List UInt8) (fuel : Nat) :
    (∀ e, s.currentReader = none → s.entriesOffset < s.filepaths.length →
      io.openFile (s.filepaths.getD s.entriesOffset "") = .error e →
      Stream.loop io (fuel + 1) s lenp acc = some ((acc, some e), s)) ∧
    (∀ h m0, Stream.atHand io s = some (h, m0) →
      (∀ n e h1, 0 < m0.fileOffset → io.seek h m0.fileOffset = ((n, some e), h1) →
        Stream.loop io (fuel + 1) s lenp acc =
          some ((acc, some e), { m0 with currentReader := some h1 })) ∧
      (∀ n h1, 0 < m0.fileOffset → io.seek h m0.fileOffset = ((n, none), h1) →
        n ≠ m0.fileOffset →
        Stream.loop io (fuel + 1) s lenp acc =
          some ((acc, some (Error.errorString "seek failed")),
            { m0 with currentReader := some h1 })) ∧
      (∀ h1 bs e h2, Stream.sync io m0.fileOffset h = (none, h1) → acc.length ≤ lenp →
        io.read h1 (lenp - acc.length) = ((bs, some e), h2) → e ≠ Error.EOF →
        Stream.loop io (fuel + 1) s lenp acc =
          some ((acc ++ bs, some e), Stream.afterRead m0 h2 bs))) ∧
    (∀ bs st s', inInt64 s.totalOffset →
      Stream.loop io fuel s lenp [] = some ((bs, st), s') →
      s'.totalOffset = wrap64 (s.totalOffset + bs.length) ∧
      (inInt64 (s.totalOffset + bs.length) → s'.totalOffset = s.totalOffset + bs.length)) ∧
    (∀ (m : MultiFileReader) bs st m', inInt64 m.totalOffset →
      Read m lenp = some ((bs, st), m') →
      m'.totalOffset = wrap64 (m.totalOffset + bs.length) ∧
      (inInt64 (m.totalOffset + bs.length) → m'.totalOffset = m.totalOffset + bs.length)) := by
  refine ⟨?_, ?_, ?_, ?_⟩
  · intro e hr hi ho
    apply Stream.loop_of_done
    rw [Stream.iter_eq, hr]
    simp only [Stream.openCurrentFile, Nat.not_le.mpr hi, if_false, ho]
  · intro h m0 hat
    have hiter := Stream.iter_of_atHand io lenp acc hat
    refine ⟨?_, ?_, ?_⟩
    · intro n e h1 hpos hseek
      apply Stream.loop_of_done
      rw [hiter]
      unfold Stream.body Stream.sync
      simp only [hpos, if_true, hseek]
    · intro n h1 hpos hseek hne
      apply Stream.loop_of_done
      rw [hiter]
      unfold Stream.body Stream.sync
      simp only [hpos, if_true, hseek, ne_eq, hne, not_false_eq_true]
    · intro h1 bs e h2 hs hacc hrd hne
      apply Stream.loop_of_done
      rw [hiter]
      exact Stream.body_read_error io m0 h h1 h2 lenp acc bs e hs hacc hrd hne
  · intro bs st s' hin hl
    obtain ⟨extra, he, hto⟩ := Stream.loop_cursor io lenp s [] fuel _ s' hin hl
    simp only [List.nil_append] at he
    subst he
    exact ⟨hto, fun hfit => by rw [hto, wrap64_of_inInt64 hfit]⟩
  · intro m bs st m' hin hread
    obtain ⟨s', hl, rfl⟩ := Read_stream hread
    obtain ⟨extra, he, hto⟩ := Stream.loop_cursor _ lenp (toStream m) [] _ _ s' hin hl
    simp only [List.nil_append] at he
    subst he
    have hto' : s'.totalOffset = wrap64 (m.totalOffset + bs.length) := hto
    exact ⟨hto', fun hfit => by
      show s'.totalOffset = _
      rw [hto', wrap64_of_inInt64 hfit]⟩


/-- Witness of C19 over the misbehaving store: a failing `Open` is returned at
once; after a first read of the two bytes `ab`, the reposition to offset 2
lands on 1 and the call returns `ab` with `seek failed`, the cursor at 2; and
a read that fails after one more byte `c` is returned with that byte. -/
theorem Read_error_propagation_witness :
    Stream.loop flakyHandles 1 (flakyStream ["gone"]) 5 [] =
      some (([], some Error.ErrNotExist), flakyStream ["gone"]) ∧
    Stream.loop flakyHandles 1
        { flakyStream ["a", "b"] with currentReader := some 1, totalOffset := 2,
                                      fileOffset := 2, openHandles := 1 } 5 (bytes "ab") =
      some ((bytes "ab", some (Error.errorString "seek failed")),
        { flakyStream ["a", "b"] with currentReader := some 1, totalOffset := 2,
                                      fileOffset := 2, openHandles := 1 }) ∧
    Stream.loop flakyHandles 1
        { flakyStream ["a"] with currentReader := some 1 } 5 (bytes "ab") =
      some ((bytes "abc", some (Error.errorString "i/o error")),
        { flakyStream ["a"] with currentReader := some 2, totalOffset := 1,
                                 fileOffset := 1 }) ∧
    (∃ s', Stream.loop flakyHandles 3 (flakyStream ["a", "b"]) 5 [] =
        some ((bytes "ab", some (Error.errorString "seek failed")), s') ∧
      s'.totalOffset = 0 + (bytes "ab").length) :=
  ⟨(Read_error_propagation flakyHandles (flakyStream ["gone"]) 5 [] 0).1
      Error.ErrNotExist rfl (by decide) rfl,
    ((Read_error_propagation flakyHandles
        { flakyStream ["a", "b"] with currentReader := some 1, totalOffset := 2,
                                      fileOffset := 2, openHandles := 1 } 5 (bytes "ab") 0).2.1
      1 _ rfl).2.1 1 1 (by decide) rfl (by decide),
    ((Read_error_propagation flakyHandles
        { flakyStream ["a"] with currentReader := some 1 } 5 (bytes "ab") 0).2.1
      1 _ rfl).2.2 1 (bytes "c") (Error.errorString "i/o error") 2 rfl (by decide) rfl
      (by decide),
    { flakyStream ["a", "b"] with currentReader := some 1, totalOffset := 2,
                                  fileOffset := 2, openHandles := 1 },
    rfl,
    ((Read_error_propagation flakyHandles (flakyStream ["a", "b"]) 5 [] 3).2.2.1
      (bytes "ab") _ _ (by decide) rfl).2 (by decide)⟩

/-! ## `Read` with an empty buffer, and at the end of the stream -/

theorem Read_terminal {s : MultiFileReader} (hr : s.currentReader = none)
    (hi : s.filepaths.length ≤ s.entriesOffset) (lenp : Nat) :
    Read s lenp = some (([], some Error.EOF), s) := by
  simp [Read, Read.fuel, Read.loop, hr, openCurrentFile, hi]

theorem Read.loop_zero_ready {s : MultiFileReader} {f : File} (fuel : Nat)
    (hr : s.currentReader = some f) (hc : f.closed = false) (h0 : 0 ≤ s.fileOffset)
    (hp : s.fileOffset = 0 → f.pos = 0) :
    Read.loop (fuel + 1) s 0 [] =
      some (([], none),
        { s with currentReader := some { f with pos := s.fileOffset.toNat },
                 fileOffset := wrap64 s.fileOffset,
                 totalOffset := wrap64 s.totalOffset }) := by
  unfold Read.loop
  simp [hr, Read.sync_open hc h0 hp, File.Read, hc]

theorem Read_zero_synced (s : MultiFileReader) (hserve : s.dir.Serves s.filepaths)
    (hsync : Synced s) (hrange : inInt64 s.totalOffset) :
    (s.currentReader = none ∧ s.filepaths.length ≤ s.entriesOffset ∧
      Read s 0 = some (([], some Error.EOF), s)) ∨
    (∃ s', Read s 0 = some (([], none), s') ∧ Synced s' ∧ SameStream s s' ∧
      s'.totalOffset = s.totalOffset ∧ s'.entriesOffset = s.entriesOffset ∧
      s'.fileOffset = s.fileOffset) := by
  obtain ⟨hidx, hoff0, hoffle, hreader⟩ := hsync
  have hfo : wrap64 s.fileOffset = s.fileOffset := by
    have := contents_take_one_le s.dir (s.filepaths.drop s.entriesOffset)
    by_cases hi : s.entriesOffset < s.filepaths.length
    · have hdrop := List.drop_eq_getElem_cons hi
      rw [hdrop] at hoffle
      simp only [List.take_succ_cons, List.take_zero, contents, List.append_nil] at hoffle
      have hsz := (hserve _ (List.getElem_mem hi)).2.2
      exact wrap64_of_inInt64 ⟨by omega, by omega⟩
    · rw [List.drop_eq_nil_of_le (by omega)] at hoffle
      simp only [List.take_nil, contents, List.length_nil, Nat.cast_zero] at hoffle
      exact wrap64_of_inInt64 ⟨by omega, by omega⟩
  have hto : wrap64 s.totalOffset = s.totalOffset := wrap64_of_inInt64 hrange
  cases hr : s.currentReader with
  | some f =>
    right
    rw [hr] at hreader
    obtain ⟨hi, hclosed, hdata, hpos⟩ := hreader
    refine ⟨{ s with currentReader := some { f with pos := s.fileOffset.toNat },
                     fileOffset := wrap64 s.fileOffset,
                     totalOffset := wrap64 s.totalOffset },
      by unfold Read Read.fuel; exact Read.loop_zero_ready _ hr hclosed hoff0 hpos,
      ⟨hidx, ?_, ?_, ?_⟩, ⟨rfl, rfl, rfl, rfl⟩, hto, rfl, hfo⟩
    · show 0 ≤ wrap64 s.fileOffset
      rw [hfo]; exact hoff0
    · show wrap64 s.fileOffset ≤ _
      rw [hfo]; exact hoffle
    · show s.entriesOffset < s.filepaths.length ∧ _
      refine ⟨hi, hclosed, hdata, ?_⟩
      intro h
      have h' : wrap64 s.fileOffset = 0 := h
      rw [hfo] at h'
      show s.fileOffset.toNat = 0
      rw [h']; rfl
  | none =>
    by_cases hi : s.entriesOffset < s.filepaths.length
    · right
      have hmem : s.filepaths.getD s.entriesOffset "" ∈ s.filepaths := by
        rw [List.getD_eq_getElem s.filepaths "" hi]
        exact List.getElem_mem _
      have hloop := Read.loop_open (Read.fuel s 0 - 1) 0 [] hr hi (hserve _ hmem).1
      have hfuel : Read.fuel s 0 - 1 + 1 = Read.fuel s 0 := by
        unfold Read.fuel; omega
      rw [hfuel] at hloop
      have hz := Read.loop_zero_ready (Read.fuel s 0 - 1)
        (s := { s with
          currentReader := some
            { data := s.dir.content (s.filepaths.getD s.entriesOffset ""),
              pos := 0, closed := false },
          openHandles := s.openHandles + 1 })
        rfl rfl hoff0 (fun _ => rfl)
      rw [hfuel] at hz
      refine ⟨{ s with
          currentReader := some
            { data := s.dir.content (s.filepaths.getD s.entriesOffset ""),
              pos := s.fileOffset.toNat, closed := false },
          fileOffset := wrap64 s.fileOffset,
          totalOffset := wrap64 s.totalOffset,
          openHandles := s.openHandles + 1 },
        by unfold Read; rw [hloop, hz], ⟨hidx, ?_, ?_, ?_⟩, ⟨rfl, rfl, rfl, rfl⟩,
        hto, rfl, hfo⟩
      · show 0 ≤ wrap64 s.fileOffset
        rw [hfo]; exact hoff0
      · show wrap64 s.fileOffset ≤ _
        rw [hfo]; exact hoffle
      · show s.entriesOffset < s.filepaths.length ∧ _
        refine ⟨hi, rfl, rfl, ?_⟩
        intro h
        have h' : wrap64 s.fileOffset = 0 := h
        rw [hfo] at h'
        show s.fileOffset.toNat = 0
        rw [h']; rfl
    · left
      exact ⟨rfl, by omega, Read_terminal hr (by omega) 0⟩


/-! ## The cursor after `Read` -/

theorem Sized.of_same {s s' : MultiFileReader} (h : Sized s) (hsame : SameStream s s') :
    Sized s' := by
  obtain ⟨hp, hd, hf, ht⟩ := hsame
  obtain ⟨h1, h2, h3⟩ := h
  exact ⟨by rw [hf, hp, hd]; exact h1, by rw [hf, ht]; exact h2, by rw [ht]; exact h3⟩

theorem agrees_of_synced {s : MultiFileReader} (hsized : Sized s) (hsync : Synced s)
    (hcur : s.totalOffset = (s.filesizes.take s.entriesOffset).sum + s.fileOffset) :
    Agrees s := by
  obtain ⟨hidx, hoff0, hoffle, hreader⟩ := hsync
  refine ⟨hidx, hoff0, ?_, hcur, hreader⟩
  rw [hsized.1, getD_map_length]
  exact hoffle

theorem remaining_length_synced {s : MultiFileReader} (hsized : Sized s) (hsync : Synced s) :
    ((remaining s).length : Int) =
      s.totalSize - ((s.filesizes.take s.entriesOffset).sum + s.fileOffset) := by
  have hag : Agrees { s with totalOffset :=
      (s.filesizes.take s.entriesOffset).sum + s.fileOffset } :=
    agrees_of_synced (s := { s with totalOffset :=
      (s.filesizes.take s.entriesOffset).sum + s.fileOffset }) hsized hsync rfl
  exact (synced_of_agrees (s := { s with totalOffset :=
      (s.filesizes.take s.entriesOffset).sum + s.fileOffset }) hsized hag).2.2.2

theorem Read_agrees {s s' : MultiFileReader} {lenp : Nat} {r : List UInt8 × Option Error}
    (hserve : s.dir.Serves s.filepaths) (hsized : Sized s) (hagree : Agrees s)
    (hread : Read s lenp = some (r, s')) :
    Agrees s' ∧ Sized s' ∧ s'.dir.Serves s'.filepaths ∧ SameStream s s' ∧
    (r.2 = some Error.EOF →
      s'.currentReader = none ∧ s'.entriesOffset = s'.filepaths.length ∧
      s'.fileOffset = 0 ∧ s'.totalOffset = s'.totalSize) := by
  obtain ⟨hsync, hrange, hrem, hlen⟩ := synced_of_agrees hsized hagree
  have hnn : (0 : Int) ≤ ((remaining s).length : Int) := Int.ofNat_nonneg _
  have hcur0 : 0 ≤ s.totalOffset := by
    obtain ⟨_, hfo, _, hcur, _⟩ := hagree
    have := (sum_take_le hsized.nonneg s.entriesOffset).1
    omega
  by_cases hpos : 0 < lenp
  · obtain ⟨s1, hread1, hsy1, hre1, hsame1, hr1, hto1, hterm1⟩ :=
      Read_synced s lenp hserve hsync hrange hpos
    rw [hread1] at hread
    simp only [Option.some.injEq, Prod.mk.injEq] at hread
    obtain ⟨rfl, rfl⟩ := hread
    have hsized1 := hsized.of_same hsame1
    have hlen1 := remaining_length_synced hsized1 hsy1
    rw [hre1, List.length_drop] at hlen1
    obtain ⟨hp1, hd1, hf1, ht1⟩ := hsame1
    have hfit := hsized.2.2
    have hw : s1.totalOffset = s.totalOffset + (min lenp (remaining s).length : Nat) := by
      rw [hto1]
      apply wrap64_of_inInt64
      unfold inInt64
      omega
    have hag1 : Agrees s1 := by
      apply agrees_of_synced hsized1 hsy1
      omega
    refine ⟨hag1, hsized1, by rw [hp1, hd1]; exact hserve, ⟨hp1, hd1, hf1, ht1⟩, ?_⟩
    intro heof
    simp only at heof
    have hlt : (remaining s).length < lenp := by
      by_contra hc
      rw [if_pos (by omega)] at heof
      cases heof
    obtain ⟨h1, h2, h3⟩ := hterm1 hlt
    exact ⟨h1, h2, h3, by omega⟩
  · have hz : lenp = 0 := by omega
    subst hz
    rcases Read_zero_synced s hserve hsync hrange with ⟨hr, hi, hread0⟩ |
      ⟨s1, hread0, hsy1, hsame1, hto1, hidx1, hfo1⟩
    · rw [hread0] at hread
      simp only [Option.some.injEq, Prod.mk.injEq] at hread
      obtain ⟨rfl, rfl⟩ := hread
      refine ⟨hagree, hsized, hserve, ⟨rfl, rfl, rfl, rfl⟩, fun _ => ?_⟩
      obtain ⟨hidx, hfo0, hfole, hcur, _⟩ := hagree
      have hidx' : s.entriesOffset = s.filepaths.length := by omega
      have hg : s.filesizes.getD s.entriesOffset 0 = 0 := by
        rw [List.getD_eq_default]
        rw [hsized.length_eq]; omega
      have hfo : s.fileOffset = 0 := by omega
      refine ⟨hr, hidx', hfo, ?_⟩
      rw [hcur, hfo, hsized.2.1, List.take_of_length_le (by rw [hsized.length_eq]; omega)]
      omega
    · rw [hread0] at hread
      simp only [Option.some.injEq, Prod.mk.injEq] at hread
      obtain ⟨rfl, rfl⟩ := hread
      have hsized1 := hsized.of_same hsame1
      obtain ⟨hp1, hd1, hf1, ht1⟩ := hsame1
      refine ⟨?_, hsized1, by rw [hp1, hd1]; exact hserve, ⟨hp1, hd1, hf1, ht1⟩, ?_⟩
      · apply agrees_of_synced hsized1 hsy1
        rw [hto1, hidx1, hfo1, hf1]
        exact hagree.2.2.2.1
      · intro h
        cases h

theorem Seek_returns (s : MultiFileReader) (offset whence : Int) (hsized : Sized s) :
    ∃ r, Seek s offset whence = some r := by
  cases habs : Seek.abs s offset whence with
  | none =>
    unfold Seek
    simp only [habs]
    exact ⟨_, rfl⟩
  | some a =>
    by_cases hneg : a < 0
    · unfold Seek
      simp only [habs, hneg, if_true]
      exact ⟨_, rfl⟩
    · by_cases hlt : a < s.totalSize
      · obtain ⟨s', h, _⟩ := Seek_inside s offset whence a hsized habs (by omega) hlt
        exact ⟨_, h⟩
      · obtain ⟨hp, hd, hf, ht, _⟩ := Seek.release_fields s
        unfold Seek
        simp only [habs, hneg, if_false, ht]
        by_cases heq : a = s.totalSize
        · exact ⟨_, by rw [if_pos heq]⟩
        · exact ⟨_, by rw [if_neg heq, if_pos (by omega)]⟩

theorem Placed.new (dir : FS) (files : List String) (hserve : dir.Serves files)
    (hfit : ((contents dir files).length : Int) < 9223372036854775808) :
    ∃ s0, New dir files = .ok s0 ∧ Placed s0 ∧ Agrees s0 ∧ s0.filepaths = files ∧
      s0.dir = dir ∧ s0.currentReader = none ∧ s0.openHandles = 0 := by
  have hw : wrap64 ((contents dir files).length : Int) = ((contents dir files).length : Int) :=
    wrap64_of_inInt64 ⟨by omega, hfit⟩
  have hsized : Sized
      { filepaths := files, dir := dir, entriesOffset := 0, currentReader := none,
        totalOffset := 0, fileOffset := 0,
        totalSize := wrap64 ((contents dir files).length),
        filesizes := files.map (fun name => ((dir.content name).length : Int)),
        openHandles := 0 } := by
    refine ⟨rfl, ?_, ?_⟩
    · simp only [hw, sum_map_length]
    · simp only [hw]; exact hfit
  refine ⟨_, New_serves dir files hserve, ⟨hsized, hserve, synced_new dir files _, ?_⟩, ?_,
    rfl, rfl, rfl, rfl⟩
  · unfold inInt64; simp
  · refine agrees_of_synced hsized (synced_new dir files _) ?_
    simp

theorem Placed.read {s s' : MultiFileReader} {lenp : Nat} {r : List UInt8 × Option Error}
    (h : Placed s) (hread : Read s lenp = some (r, s')) : Placed s' := by
  obtain ⟨hsized, hserve, hsync, hrange⟩ := h
  have hsame := Read_same hread
  have hsized1 := hsized.of_same hsame
  have hserve1 : s'.dir.Serves s'.filepaths := by rw [hsame.1, hsame.2.1]; exact hserve
  by_cases hpos : 0 < lenp
  · obtain ⟨s1, hread1, hsy1, _, _, hr1, _⟩ := Read_synced s lenp hserve hsync hrange hpos
    rw [hread1] at hread
    simp only [Option.some.injEq, Prod.mk.injEq] at hread
    obtain ⟨_, rfl⟩ := hread
    exact ⟨hsized1, hserve1, hsy1, hr1⟩
  · have hz : lenp = 0 := by omega
    subst hz
    rcases Read_zero_synced s hserve hsync hrange with ⟨_, _, hread0⟩ |
      ⟨s1, hread0, hsy1, _, hto1, _, _⟩
    · rw [hread0] at hread
      simp only [Option.some.injEq, Prod.mk.injEq] at hread
      obtain ⟨_, rfl⟩ := hread
      exact ⟨hsized, hserve, hsync, hrange⟩
    · rw [hread0] at hread
      simp only [Option.some.injEq, Prod.mk.injEq] at hread
      obtain ⟨_, rfl⟩ := hread
      exact ⟨hsized1, hserve1, hsy1, by rw [hto1]; exact hrange⟩

theorem Placed.seek {s s' : MultiFileReader} {offset whence : Int} {r : Int × Option Error}
    (h : Placed s) (hseek : Seek s offset whence = some (r, s')) : Placed s' := by
  obtain ⟨hsized, hserve, hsync, hrange⟩ := h
  have hsame := Seek_same hseek
  have hsized1 := hsized.of_same hsame
  have hserve1 : s'.dir.Serves s'.filepaths := by rw [hsame.1, hsame.2.1]; exact hserve
  have ht0 : 0 ≤ s.totalSize := by
    rw [hsized.2.1]
    have := (sum_take_le hsized.nonneg s.filesizes.length).1
    simpa using this
  rcases Seek_cases hseek with ⟨rfl, _⟩ | ⟨a, habs, h0, hle, rfl, _⟩ |
    ⟨a, i, start, habs, h0, hlt, _, _, _⟩
  · exact ⟨hsized, hserve, hsync, hrange⟩
  · obtain ⟨hp, hd, hf, ht, hi, hfo, _, _⟩ := Seek.release_fields s
    refine ⟨hsized1, hserve1, ?_, ?_⟩
    · obtain ⟨h1, h2, h3, _⟩ := hsync
      refine ⟨?_, ?_, ?_, ?_⟩
      · show (Seek.release s).entriesOffset ≤ (Seek.release s).filepaths.length
        rw [hi, hp]; exact h1
      · show 0 ≤ (Seek.release s).fileOffset
        rw [hfo]; exact h2
      · show (Seek.release s).fileOffset ≤ (contents (Seek.release s).dir
          (((Seek.release s).filepaths.drop (Seek.release s).entriesOffset).take 1)).length
        rw [hfo, hd, hp, hi]; exact h3
      · show (match (Seek.release s).currentReader with
          | none => True
          | some f => _)
        rw [Seek.release_reader]
        trivial
    · show inInt64 s.totalSize
      exact ⟨by omega, hsized.2.2⟩
  · obtain ⟨s1, hseek1, hag1, _, _, hto1, _⟩ :=
      Seek_inside s offset whence a hsized habs h0 hlt
    rw [hseek1] at hseek
    simp only [Option.some.injEq, Prod.mk.injEq] at hseek
    obtain ⟨_, rfl⟩ := hseek
    refine ⟨hsized1, hserve1, (synced_of_agrees hsized1 hag1).1, ?_⟩
    rw [hto1]
    exact ⟨by omega, by have := hsized.2.2; omega⟩

theorem SameStream.trans {a b c : MultiFileReader} (h1 : SameStream a b)
    (h2 : SameStream b c) : SameStream a c :=
  ⟨h2.1.trans h1.1, h2.2.1.trans h1.2.1, h2.2.2.1.trans h1.2.2.1, h2.2.2.2.trans h1.2.2.2⟩

theorem Call.run_same {c : Call} {s s' : MultiFileReader} (h : c.run s = some s') :
    SameStream s s' := by
  cases c with
  | read lenp =>
    simp only [Call.run, Option.map_eq_some'] at h
    obtain ⟨⟨r, s1⟩, hread, rfl⟩ := h
    exact Read_same hread
  | seek offset whence =>
    simp only [Call.run, Option.map_eq_some'] at h
    obtain ⟨⟨r, s1⟩, hseek, rfl⟩ := h
    exact Seek_same hseek
  | close =>
    simp only [Call.run, Option.some.injEq] at h
    subst h
    exact Close_same s

theorem runCalls_same (calls : List Call) :
    ∀ (s0 s : MultiFileReader), runCalls calls s0 = some s → SameStream s0 s := by
  induction calls with
  | nil =>
    intro s0 s h
    simp only [runCalls, Option.some.injEq] at h
    subst h
    exact ⟨rfl, rfl, rfl, rfl⟩
  | cons c cs ih =>
    intro s0 s h
    simp only [runCalls, Option.bind_eq_some] at h
    obtain ⟨s1, h1, h2⟩ := h
    exact (Call.run_same h1).trans (ih s1 s h2)

theorem runInside_runCalls (calls : List Call) :
    ∀ (s0 s : MultiFileReader), runInside calls s0 = some s → runCalls calls s0 = some s := by
  induction calls with
  | nil => intro s0 s h; exact h
  | cons c cs ih =>
    intro s0 s h
    simp only [runInside] at h
    split at h
    · simp only [Option.bind_eq_some] at h
      obtain ⟨s1, h1, h2⟩ := h
      simp only [runCalls, Option.bind_eq_some]
      exact ⟨s1, h1, ih s1 s h2⟩
    · cases h

theorem Placed.along_runCalls (calls : List Call) :
    ∀ (s0 : MultiFileReader), Placed s0 → Call.close ∉ calls →
      (∃ s, runCalls calls s0 = some s) ∧ ∀ s, runCalls calls s0 = some s → Placed s := by
  induction calls with
  | nil =>
    intro s0 h _
    refine ⟨⟨s0, rfl⟩, ?_⟩
    intro s hs
    simp only [Mfr.runCalls, Option.some.injEq] at hs
    subst hs
    exact h
  | cons c cs ih =>
    intro s0 h hno
    have hc : c ≠ Call.close := fun hc => hno (by rw [hc]; exact List.mem_cons_self _ _)
    have hcs : Call.close ∉ cs := fun hc => hno (List.mem_cons_of_mem _ hc)
    cases c with
    | close => exact absurd rfl hc
    | read lenp =>
      obtain ⟨⟨r, s1⟩, hread⟩ := Read_returns s0 lenp
      have hrun : Mfr.runCalls (Call.read lenp :: cs) s0 = Mfr.runCalls cs s1 := by
        simp only [Mfr.runCalls, Call.run, hread, Option.map_some', Option.some_bind]
      rw [hrun]
      exact ih s1 (h.read hread) hcs
    | seek offset whence =>
      obtain ⟨⟨r, s1⟩, hseek⟩ := Seek_returns s0 offset whence h.1
      have hrun : Mfr.runCalls (Call.seek offset whence :: cs) s0 = Mfr.runCalls cs s1 := by
        simp only [Mfr.runCalls, Call.run, hseek, Option.map_some', Option.some_bind]
      rw [hrun]
      exact ih s1 (h.seek hseek) hcs

/-- C18 (terminal state).  For every reader over regular files whose sizes
are those of the store and whose physical position agrees with its cursor,
when `Read` returns `io.EOF` the reader is left with `currentReader` nil, the
index equal to the number of entries, file offset 0 and the cursor equal to
`totalSize`; and in that state `Read` with a buffer of any length returns no
bytes and `io.EOF` and leaves the reader as it is. -/
theorem Read_end_of_stream (s s' : MultiFileReader) (lenp : Nat) (bs : List UInt8)
    (hserve : s.dir.Serves s.filepaths) (hsized : Sized s) (hagree : Agrees s)
    (hread : Read s lenp = some ((bs, some Error.EOF), s')) :
    s'.currentReader = none ∧ s'.entriesOffset = s'.filepaths.length ∧
    s'.fileOffset = 0 ∧ s'.totalOffset = s'.totalSize ∧
    ∀ k, Read s' k = some (([], some Error.EOF), s') := by
  obtain ⟨_, _, _, _, hterm⟩ := Read_agrees hserve hsized hagree hread
  obtain ⟨h1, h2, h3, h4⟩ := hterm rfl
  exact ⟨h1, h2, h3, h4, fun k => Read_terminal h1 (by omega) k⟩

/-- Witness of C18: the two files of the test read with a buffer of 30. -/
theorem Read_end_of_stream_witness :
    ∃ s', Read fresh 30 = some ((bytes "file1 contentfile2 content", some Error.EOF), s') ∧
      s'.currentReader = none ∧ s'.entriesOffset = s'.filepaths.length ∧
      s'.fileOffset = 0 ∧ s'.totalOffset = s'.totalSize ∧
      ∀ k, Read s' k = some (([], some Error.EOF), s') :=
  ⟨_, rfl, Read_end_of_stream fresh _ 30 _ (by decide) (by decide) (by decide) rfl⟩

/-- C17 (in-file offset invariant).  Over a store of regular files (each
entry opens, its stat size is the length of its bytes, and the sizes add up to
an `int64`), every sequence of `Read` and `Seek` calls on the reader made by
`New` runs to a state, and in that state, whenever `currentReader` is not nil,
the index is below the number of entries, the handle is an unclosed handle on
the bytes `dir.Open` gives for the current entry, and
`0 ≤ fileOffset ≤ filesizes[entriesOffset]`. -/
theorem file_offset_in_open_file (dir : FS) (files : List String) (calls : List Call)
    (hserve : dir.Serves files)
    (hfit : ((contents dir files).length : Int) < 9223372036854775808)
    (hcalls : Call.close ∉ calls) :
    ∃ s0 s, New dir files = .ok s0 ∧ runCalls calls s0 = some s ∧
      ∀ f, s.currentReader = some f →
        s.entriesOffset < s.filepaths.length ∧
        (∃ f0, dir.Open (files.getD s.entriesOffset "") = .ok f0 ∧ f.data = f0.data) ∧
        f.closed = false ∧
        0 ≤ s.fileOffset ∧ s.fileOffset ≤ s.filesizes.getD s.entriesOffset 0 := by
  obtain ⟨s0, hnew, hplaced, _, hfiles, hdir, _⟩ := Placed.new dir files hserve hfit
  obtain ⟨⟨s, hrun⟩, hinv⟩ := Placed.along_runCalls calls s0 hplaced hcalls
  obtain ⟨hsized, hserve1, ⟨_, hfo0, hfole, hreader⟩, _⟩ := hinv s hrun
  obtain ⟨hp, hd, _, _⟩ := runCalls_same calls s0 s hrun
  refine ⟨s0, s, hnew, hrun, ?_⟩
  intro f hf
  rw [hf] at hreader
  obtain ⟨hidx, hclosed, hdata, _⟩ := hreader
  have hmem : files.getD s.entriesOffset "" ∈ files := by
    rw [hp, hfiles] at hidx
    rw [List.getD_eq_getElem _ _ hidx]
    exact List.getElem_mem _
  refine ⟨hidx, ⟨File.mk (dir.content (files.getD s.entriesOffset "")) 0 false, ?_, ?_⟩,
    hclosed, hfo0, ?_⟩
  · unfold FS.Open
    rw [(hserve _ hmem).1]
  · rw [hdata, hd, hdir, hp, hfiles]
  · rw [hsized.1, getD_map_length]
    exact hfole

/-- Witness of C17: the two files of the test under a read, a seek into the
second file and another read. -/
theorem file_offset_in_open_file_witness :
    ∃ s0 s, New testDir ["file1.txt", "file2.txt"] = .ok s0 ∧
      runCalls [Call.read 5, Call.seek 18 0, Call.read 3] s0 = some s ∧
      ∀ f, s.currentReader = some f →
        s.entriesOffset < s.filepaths.length ∧
        (∃ f0, testDir.Open (["file1.txt", "file2.txt"].getD s.entriesOffset "") = .ok f0 ∧
          f.data = f0.data) ∧
        f.closed = false ∧
        0 ≤ s.fileOffset ∧ s.fileOffset ≤ s.filesizes.getD s.entriesOffset 0 :=
  file_offset_in_open_file testDir ["file1.txt", "file2.txt"]
    [Call.read 5, Call.seek 18 0, Call.read 3] (by decide) (by decide) (by decide)

/-! ## The position of the reader along a sequence of calls -/

theorem Read_closed {s : MultiFileReader} {f : File} (lenp : Nat)
    (hr : s.currentReader = some f) (hc : f.closed = true)
    (hfo : inInt64 s.fileOffset) (hto : inInt64 s.totalOffset) :
    Read s lenp = some (([], some Error.ErrClosed), s) := by
  obtain ⟨fp, dir, idx, cr, tot, fo, ts, fs, oh⟩ := s
  simp only at hr hfo hto
  subst hr
  have h1 : wrap64 fo = fo := wrap64_of_inInt64 hfo
  have h2 : wrap64 tot = tot := wrap64_of_inInt64 hto
  unfold Read Read.fuel
  unfold Read.loop
  by_cases hpos : 0 < fo
  · simp [Read.sync, File.Seek, hc, hpos]
  · simp [Read.sync, File.Read, hc, hpos, h1, h2]

theorem AgreesModClose.position {s : MultiFileReader} (h : AgreesModClose s) :
    s.entriesOffset ≤ s.filepaths.length ∧ 0 ≤ s.fileOffset ∧
    s.fileOffset ≤ s.filesizes.getD s.entriesOffset 0 ∧
    s.totalOffset = (s.filesizes.take s.entriesOffset).sum + s.fileOffset := by
  rcases h with h | ⟨f, _, _, h⟩
  · exact ⟨h.1, h.2.1, h.2.2.1, h.2.2.2.1⟩
  · exact ⟨h.1, h.2.1, h.2.2.1, h.2.2.2.1⟩

theorem AgreesModClose.ranges {s : MultiFileReader} (hsized : Sized s)
    (h : AgreesModClose s) : inInt64 s.fileOffset ∧ inInt64 s.totalOffset := by
  obtain ⟨hidx, h0, hle, hcur⟩ := h.position
  have hnn := hsized.nonneg
  have hpre := sum_take_le hnn s.entriesOffset
  have hsucc := sum_take_le hnn (s.entriesOffset + 1)
  have hstep := sum_take_succ_getD s.filesizes s.entriesOffset
  have hfit := hsized.2.2
  have htot := hsized.2.1
  unfold inInt64
  omega

theorem AgreesModClose.after_read {s s' : MultiFileReader} {lenp : Nat}
    {r : List UInt8 × Option Error} (hserve : s.dir.Serves s.filepaths) (hsized : Sized s)
    (h : AgreesModClose s) (hread : Read s lenp = some (r, s')) : AgreesModClose s' := by
  have hranges := h.ranges hsized
  rcases h with h | ⟨f, hr, hc, h⟩
  · exact Or.inl (Read_agrees hserve hsized h hread).1
  · rw [Read_closed lenp hr hc hranges.1 hranges.2] at hread
    simp only [Option.some.injEq, Prod.mk.injEq] at hread
    obtain ⟨_, rfl⟩ := hread
    exact Or.inr ⟨f, hr, hc, h⟩

theorem AgreesModClose.after_close {s : MultiFileReader} (h : AgreesModClose s) :
    AgreesModClose (Close s).2 := by
  obtain ⟨fp, dir, idx, cr, tot, fo, ts, fs, oh⟩ := s
  cases cr with
  | none =>
    rcases h with h | ⟨f, hr, _, _⟩
    · exact Or.inl h
    · cases hr
  | some f =>
    cases hc : f.closed with
    | true =>
      rcases h with h | ⟨g, hr, hg, h⟩
      · have := h.2.2.2.2.2.1
        simp only [hc] at this
        cases this
      · simp only [Close, File.Close, hc, if_true]
        exact Or.inr ⟨f, rfl, hc, h⟩
    | false =>
      have hpos : Agrees (MultiFileReader.mk fp dir idx none tot fo ts fs (oh - 1)) := by
        rcases h with h | ⟨g, hr, hg, h⟩
        · exact ⟨h.1, h.2.1, h.2.2.1, h.2.2.2.1, trivial⟩
        · exact ⟨h.1, h.2.1, h.2.2.1, h.2.2.2.1, trivial⟩
      simp only [Close, File.Close, hc]
      exact Or.inr ⟨{ f with closed := true }, rfl, rfl, hpos⟩

theorem AgreesModClose.along_runInside (calls : List Call) :
    ∀ (s0 s : MultiFileReader), Sized s0 → s0.dir.Serves s0.filepaths → AgreesModClose s0 →
      runInside calls s0 = some s → AgreesModClose s := by
  induction calls with
  | nil =>
    intro s0 s _ _ h hrun
    simp only [Mfr.runInside, Option.some.injEq] at hrun
    subst hrun
    exact h
  | cons c cs ih =>
    intro s0 s hsized hserve h hrun
    simp only [Mfr.runInside] at hrun
    split at hrun
    · rename_i hin
      simp only [Option.bind_eq_some] at hrun
      obtain ⟨s1, h1, h2⟩ := hrun
      have hsame := Call.run_same h1
      have hsized1 := hsized.of_same hsame
      have hserve1 : s1.dir.Serves s1.filepaths := by rw [hsame.1, hsame.2.1]; exact hserve
      refine ih s1 s hsized1 hserve1 ?_ h2
      cases c with
      | read lenp =>
        simp only [Call.run, Option.map_eq_some'] at h1
        obtain ⟨⟨r, s2⟩, hread, rfl⟩ := h1
        exact h.after_read hserve hsized hread
      | close =>
        simp only [Call.run, Option.some.injEq] at h1
        subst h1
        exact h.after_close
      | seek offset whence =>
        simp only [Call.run, Option.map_eq_some'] at h1
        obtain ⟨⟨r, s2⟩, hseek, rfl⟩ := h1
        rcases Seek_cases hseek with ⟨heq, _⟩ | ⟨a, habs, h0, hle, _⟩ |
          ⟨a, i, start, habs, h0, hlt, _, _, _⟩
        · rw [heq]; exact h
        · simp only [Call.inside, habs, decide_eq_true_eq] at hin
          omega
        · obtain ⟨s3, hseek3, hag3, _⟩ := Seek_inside s0 offset whence a hsized habs h0 hlt
          rw [hseek3] at hseek
          simp only [Option.some.injEq, Prod.mk.injEq] at hseek
          obtain ⟨_, rfl⟩ := hseek
          exact Or.inl hag3
    · cases hrun

/-- C15, the counterexample (a reader in the middle of the stream with its
file offset at the size of the current file).  After `New` on the two 13-byte
files of the test, a `Read` with a buffer of 13 leaves the index at 0, below
the number of entries, with the cursor at 13, the sizes before the index
summing to 0, and the file offset 13: it is not below `filesizes[0] = 13`,
and the cursor is not `totalSize = 26`. -/
theorem file_offset_reaches_file_size :
    New testDir ["file1.txt", "file2.txt"] = .ok fresh ∧
    ∃ s, runCalls [Call.read 13] fresh = some s ∧
      s.entriesOffset < s.filepaths.length ∧
      (s.filesizes.take s.entriesOffset).sum ≤ s.totalOffset ∧
      s.totalOffset - (s.filesizes.take s.entriesOffset).sum = s.fileOffset ∧
      s.totalOffset ≠ s.totalSize ∧
      ¬ (s.fileOffset < s.filesizes.getD s.entriesOffset 0) :=
  ⟨rfl, _, rfl, by decide, by decide, by decide, by decide, by decide⟩

/-- C15, as amended (position invariant).  Over a store of regular files
whose sizes add up to an `int64`, along every sequence of `Read`, `Seek` and
`Close` calls on the reader made by `New` in which no `Seek` has an absolute
offset of `totalSize` or more, the index is at most the number of entries,
the sizes of the entries before the index sum to at most the cursor, the
cursor minus that sum is the file offset, and
`0 ≤ fileOffset ≤ filesizes[entriesOffset]`. -/
theorem position_invariant (dir : FS) (files : List String) (calls : List Call)
    (s0 s : MultiFileReader) (hserve : dir.Serves files)
    (hfit : ((contents dir files).length : Int) < 9223372036854775808)
    (hnew : New dir files = .ok s0) (hrun : runInside calls s0 = some s) :
    s.entriesOffset ≤ s.filepaths.length ∧
    (s.filesizes.take s.entriesOffset).sum ≤ s.totalOffset ∧
    s.totalOffset - (s.filesizes.take s.entriesOffset).sum = s.fileOffset ∧
    0 ≤ s.fileOffset ∧ s.fileOffset ≤ s.filesizes.getD s.entriesOffset 0 := by
  obtain ⟨s1, hnew1, hplaced, hagree, _⟩ := Placed.new dir files hserve hfit
  rw [hnew] at hnew1
  simp only [Except.ok.injEq] at hnew1
  subst hnew1
  have h := AgreesModClose.along_runInside calls s0 s hplaced.1 hplaced.2.1 (Or.inl hagree) hrun
  obtain ⟨hidx, h0, hle, hcur⟩ := h.position
  refine ⟨hidx, ?_, ?_, h0, hle⟩ <;> omega

/-- Witness of C15: the two files of the test under a read to the end of the
first file, a seek into the second file, a read, and two closes. -/
theorem position_invariant_witness :
    ∃ s, runInside [Call.read 13, Call.seek 18 0, Call.read 3, Call.close, Call.close,
        Call.read 2] fresh = some s ∧
      s.entriesOffset ≤ s.filepaths.length ∧
      (s.filesizes.take s.entriesOffset).sum ≤ s.totalOffset ∧
      s.totalOffset - (s.filesizes.take s.entriesOffset).sum = s.fileOffset ∧
      0 ≤ s.fileOffset ∧ s.fileOffset ≤ s.filesizes.getD s.entriesOffset 0 :=
  ⟨{ fresh with entriesOffset := 1, currentReader := some ⟨bytes "file2 content", 8, true⟩,
                totalOffset := 21, fileOffset := 8 },
    rfl,
    position_invariant testDir ["file1.txt", "file2.txt"]
      [Call.read 13, Call.seek 18 0, Call.read 3, Call.close, Call.close, Call.read 2]
      fresh _ (by decide) (by decide) rfl rfl⟩

theorem cursor_within_total_size (dir : FS) (files : List String) (calls : List Call)
    (s0 s : MultiFileReader) (hserve : dir.Serves files)
    (hfit : ((contents dir files).length : Int) < 9223372036854775808)
    (hnew : New dir files = .ok s0) (hrun : runInside calls s0 = some s) :
    0 ≤ s.totalOffset ∧ s.totalOffset ≤ s.totalSize := by
  obtain ⟨s1, hnew1, hplaced, hagree, _⟩ := Placed.new dir files hserve hfit
  rw [hnew] at hnew1
  simp only [Except.ok.injEq] at hnew1
  subst hnew1
  have h := AgreesModClose.along_runInside calls s0 s hplaced.1 hplaced.2.1 (Or.inl hagree) hrun
  have hsized := hplaced.1.of_same (runCalls_same calls s0 s (runInside_runCalls calls s0 s hrun))
  obtain ⟨hidx, h0, hle, hcur⟩ := h.position
  have hnn := hsized.nonneg
  have hpre := sum_take_le hnn s.entriesOffset
  have hsucc := sum_take_le hnn (s.entriesOffset + 1)
  have hstep := sum_take_succ_getD s.filesizes s.entriesOffset
  have htot := hsized.2.1
  constructor <;> omega

/-! ## The handles the reader holds open -/

theorem FS.Open_closed {dir : FS} {name : String} {f : File} (h : dir.Open name = .ok f) :
    f.closed = false := by
  unfold FS.Open at h
  cases hd : dir.openFile name with
  | error e => rw [hd] at h; cases h
  | ok d =>
    rw [hd] at h
    simp only [Except.ok.injEq] at h
    subst h
    rfl

theorem File.Seek_keeps_closed (f : File) (offset : Int) : (f.Seek offset).2.closed = f.closed := by
  unfold File.Seek
  split
  · rfl
  · split <;> rfl

theorem File.Read_keeps_closed (f : File) (k : Nat) : (f.Read k).2.closed = f.closed := by
  unfold File.Read
  split
  · rfl
  · split
    · rfl
    · simp only []
      split <;> rfl

theorem sync_closed {dir : FS} {off : Int} {h h1 : File} {e : Option Error}
    (hs : Stream.sync (fileHandles dir) off h = (e, h1)) : h1.closed = h.closed := by
  have hc := File.Seek_keeps_closed h off
  unfold Stream.sync at hs
  split at hs
  · simp only [fileHandles] at hs
    rcases hseek : h.Seek off with ⟨⟨n, _ | e1⟩, f1⟩
    · rw [hseek] at hs hc
      simp only at hs hc
      split at hs <;>
      · simp only [Prod.mk.injEq] at hs
        rw [← hs.2]; exact hc
    · rw [hseek] at hs hc
      simp only [Prod.mk.injEq] at hs hc
      rw [← hs.2]; exact hc
  · simp only [Prod.mk.injEq] at hs
    rw [hs.2]

theorem heldOpen_of_closed_eq {f g : File} (h : g.closed = f.closed) :
    heldOpen (some g) = heldOpen (some f) := by
  simp only [heldOpen, h]

theorem closeHandle_held (dir : FS) (f : File) :
    (Stream.closeHandle (fileHandles dir) f (heldOpen (some f))).2 = 0 := by
  simp only [Stream.closeHandle, fileHandles, File.Close, heldOpen]
  cases f.closed <;> rfl

theorem atHand_held {dir : FS} {s m0 : Stream File} {h : File}
    (hs : s.openHandles = heldOpen s.currentReader)
    (hat : Stream.atHand (fileHandles dir) s = some (h, m0)) :
    m0.openHandles = heldOpen m0.currentReader := by
  rcases Stream.atHand_cases (fileHandles dir) hat with ⟨_, rfl⟩ | ⟨hr, _, ho, rfl⟩
  · exact hs
  · have hc : h.closed = false := FS.Open_closed ho
    rw [hr] at hs
    simp only [heldOpen, hc] at hs ⊢
    rw [hs]
    rfl

theorem iter_next_held {dir : FS} {s s' : Stream File} {lenp : Nat} {acc acc' : List UInt8}
    (hs : s.openHandles = heldOpen s.currentReader)
    (hit : Stream.iter (fileHandles dir) s lenp acc = Step.next s' acc') :
    s'.openHandles = heldOpen s'.currentReader := by
  obtain ⟨h, m0, h1, bs, err, h2, hat, hsync, _, hread, _, hcase⟩ :=
    Stream.iter_next_inv (fileHandles dir) hit
  have hm0 := atHand_held hs hat
  have hcur := (Stream.atHand_same (fileHandles dir) hat).2.2.2.2
  have hc1 := sync_closed hsync
  have hc2 : h2.closed = h1.closed := by
    have := File.Read_keeps_closed h1 (lenp - acc.length)
    simp only [fileHandles] at hread
    rw [hread] at this
    exact this
  have hheld : heldOpen (some h2) = m0.openHandles := by
    rw [hm0, hcur]
    exact heldOpen_of_closed_eq (hc2.trans hc1)
  rcases hcase with ⟨_, _, rfl⟩ | ⟨_, _, rfl⟩
  · show (Stream.closeHandle (fileHandles dir) h2 m0.openHandles).2 = heldOpen none
    rw [← hheld]
    exact closeHandle_held dir h2
  · show m0.openHandles = heldOpen (some h2)
    exact hheld.symm

theorem iter_done_held {dir : FS} {s s' : Stream File} {lenp : Nat} {acc : List UInt8}
    {r : List UInt8 × Option Error}
    (hs : s.openHandles = heldOpen s.currentReader)
    (hit : Stream.iter (fileHandles dir) s lenp acc = Step.done r s') :
    s'.openHandles = heldOpen s'.currentReader := by
  rcases Stream.iter_done_inv (fileHandles dir) hit with ⟨e, _, _, _, rfl⟩ |
    ⟨h, m0, e, h1, hat, hsync, _, rfl⟩ |
    ⟨h, m0, h1, bs, err, h2, hat, hsync, _, hread, _, rfl, _⟩
  · exact hs
  · have hm0 := atHand_held hs hat
    have hcur := (Stream.atHand_same (fileHandles dir) hat).2.2.2.2
    show m0.openHandles = heldOpen (some h1)
    rw [hm0, hcur]
    exact (heldOpen_of_closed_eq (sync_closed hsync)).symm
  · have hm0 := atHand_held hs hat
    have hcur := (Stream.atHand_same (fileHandles dir) hat).2.2.2.2
    have hc1 := sync_closed hsync
    have hc2 : h2.closed = h1.closed := by
      have := File.Read_keeps_closed h1 (lenp - acc.length)
      simp only [fileHandles] at hread
      rw [hread] at this
      exact this
    show m0.openHandles = heldOpen (some h2)
    rw [hm0, hcur]
    exact (heldOpen_of_closed_eq (hc2.trans hc1)).symm

theorem heads_held (dir : FS) (lenp : Nat) (fuel : Nat) :
    ∀ (s : Stream File) (acc : List UInt8), s.openHandles = heldOpen s.currentReader →
      ∀ m ∈ Stream.heads (fileHandles dir) fuel s lenp acc,
        m.openHandles = heldOpen m.currentReader := by
  induction fuel with
  | zero =>
    intro s acc hs m hm
    simp only [Stream.heads, List.mem_singleton] at hm
    rw [hm]; exact hs
  | succ fuel ih =>
    intro s acc hs m hm
    unfold Stream.heads at hm
    rcases List.mem_cons.mp hm with rfl | hm
    · exact hs
    · cases hit : Stream.iter (fileHandles dir) s lenp acc with
      | done r s1 =>
        rw [hit] at hm
        simp only [List.mem_singleton] at hm
        rw [hm]
        exact iter_done_held hs hit
      | next s1 read =>
        rw [hit] at hm
        exact ih s1 read (iter_next_held hs hit) m hm
      | crash =>
        rw [hit] at hm
        simp at hm

theorem Read_held {s s' : MultiFileReader} {lenp : Nat} {r : List UInt8 × Option Error}
    (hs : s.openHandles = heldOpen s.currentReader) (hread : Read s lenp = some (r, s')) :
    s'.openHandles = heldOpen s'.currentReader := by
  obtain ⟨t, hloop, rfl⟩ := Read_stream hread
  exact Stream.loop_induct (fileHandles s.dir) lenp
    (fun m _ => m.openHandles = heldOpen m.currentReader)
    (fun _ m => m.openHandles = heldOpen m.currentReader)
    (fun _ _ _ _ hP hit => iter_done_held hP hit)
    (fun _ _ _ _ hP hit => iter_next_held hP hit)
    (Read.fuel s lenp) (toStream s) [] r t hs hloop

theorem Seek.release_held {s : MultiFileReader}
    (hs : s.openHandles = heldOpen s.currentReader) : (Seek.release s).openHandles = 0 := by
  unfold Seek.release
  cases hr : s.currentReader with
  | none =>
    rw [hr] at hs
    exact hs
  | some f =>
    rw [hr] at hs
    simp only [hs, closeHandle, File.Close, heldOpen]
    cases f.closed <;> rfl

theorem Seek_held {s s' : MultiFileReader} {offset whence : Int} {r : Int × Option Error}
    (hs : s.openHandles = heldOpen s.currentReader)
    (hseek : Seek s offset whence = some (r, s')) :
    (s' = s ∧ (r.2 = some (Error.errorString "invalid whence") ∨
      r.2 = some (Error.errorString "negative position"))) ∨
    ((r.2 = none ∨ r.2 = some Error.EOF) ∧ s'.currentReader = none ∧ s'.openHandles = 0) := by
  rcases Seek_cases hseek with ⟨rfl, e, rfl, he, habs | ⟨a, habs, hneg⟩⟩ |
    ⟨a, _, _, hle, rfl, h1, h2⟩ | ⟨a, i, start, _, _, _, _, rfl, rfl⟩
  · unfold Seek at hseek
    simp only [habs, Option.some.injEq, Prod.mk.injEq, and_true] at hseek
    exact Or.inl ⟨rfl, Or.inl (by rw [← hseek.2])⟩
  · unfold Seek at hseek
    simp only [habs, hneg, if_true, Option.some.injEq, Prod.mk.injEq, and_true] at hseek
    exact Or.inl ⟨rfl, Or.inr (by rw [← hseek.2])⟩
  · refine Or.inr ⟨?_, Seek.release_reader s, Seek.release_held hs⟩
    by_cases heq : a = s.totalSize
    · rw [h1 heq]; exact Or.inl rfl
    · rw [h2 (by omega)]; exact Or.inr rfl
  · exact Or.inr ⟨Or.inl rfl, Seek.release_reader s, Seek.release_held hs⟩

theorem Close_held {s : MultiFileReader} (hs : s.openHandles = heldOpen s.currentReader) :
    (Close s).2.openHandles = heldOpen (Close s).2.currentReader := by
  obtain ⟨fp, dir, idx, cr, tot, fo, ts, fs, oh⟩ := s
  simp only at hs
  cases cr with
  | none => exact hs
  | some f =>
    subst hs
    cases hc : f.closed <;> simp [Close, File.Close, heldOpen, hc]

theorem runCalls_held (calls : List Call) :
    ∀ (s0 s : MultiFileReader), s0.openHandles = heldOpen s0.currentReader →
      runCalls calls s0 = some s → s.openHandles = heldOpen s.currentReader := by
  induction calls with
  | nil =>
    intro s0 s h hrun
    simp only [runCalls, Option.some.injEq] at hrun
    subst hrun
    exact h
  | cons c cs ih =>
    intro s0 s h hrun
    simp only [runCalls, Option.bind_eq_some] at hrun
    obtain ⟨s1, h1, h2⟩ := hrun
    refine ih s1 s ?_ h2
    cases c with
    | read lenp =>
      simp only [Call.run, Option.map_eq_some'] at h1
      obtain ⟨⟨r, s2⟩, hread, rfl⟩ := h1
      exact Read_held h hread
    | close =>
      simp only [Call.run, Option.some.injEq] at h1
      subst h1
      exact Close_held h
    | seek offset whence =>
      simp only [Call.run, Option.map_eq_some'] at h1
      obtain ⟨⟨r, s2⟩, hseek, rfl⟩ := h1
      rcases Seek_held h hseek with ⟨heq, _⟩ | ⟨_, hr, ho⟩
      · rw [heq]; exact h
      · show s2.openHandles = heldOpen s2.currentReader
        rw [hr, ho]; rfl

theorem heldOpen_le_one (r : Option File) : heldOpen r ≤ 1 := by
  unfold heldOpen
  cases r with
  | none => exact Nat.zero_le _
  | some f => by_cases h : f.closed = true <;> simp [h]

theorem New_held {dir : FS} {files : List String} {s0 : MultiFileReader}
    (hnew : New dir files = .ok s0) : s0.openHandles = heldOpen s0.currentReader := by
  unfold New at hnew
  obtain ⟨sizes, _, rfl⟩ := New.loop_ok files _ s0 (by unfold inInt64; simp) hnew
  rfl

/-- C20 (single-handle discipline).  The store's count of open handles
changes where the reader opens a file (in `openCurrentFile`, called at the
head of an iteration of `Read` that finds `currentReader` nil) and where it
closes one.  In every reader `s` reached from `New` by a sequence of `Read`,
`Seek` and `Close` calls the count is 1 when `currentReader` holds an unclosed
handle and 0 otherwise, so at most 1; the same holds at the head of every
iteration of a `Read` on `s` and after the handle of the iteration is at
hand, so that a file is opened only when the count is 0; and a `Seek` on `s`
either fails with "invalid whence" or "negative position" and changes
nothing, or leaves `currentReader` nil and the count at 0. -/
theorem single_handle_discipline (dir : FS) (files : List String) (calls : List Call)
    (s0 s : MultiFileReader) (hnew : New dir files = .ok s0)
    (hrun : runCalls calls s0 = some s) :
    s.openHandles = heldOpen s.currentReader ∧ s.openHandles ≤ 1 ∧
    (∀ lenp, ∀ m ∈ Stream.heads (fileHandles s.dir) (Read.fuel s lenp) (toStream s) lenp [],
      m.openHandles = heldOpen m.currentReader ∧ m.openHandles ≤ 1 ∧
      (m.currentReader = none → m.openHandles = 0) ∧
      ∀ h m0, Stream.atHand (fileHandles s.dir) m = some (h, m0) →
        m0.openHandles = heldOpen m0.currentReader ∧ m0.openHandles ≤ 1) ∧
    (∀ offset whence r s', Seek s offset whence = some (r, s') →
      (s' = s ∧ (r.2 = some (Error.errorString "invalid whence") ∨
        r.2 = some (Error.errorString "negative position"))) ∨
      ((r.2 = none ∨ r.2 = some Error.EOF) ∧ s'.currentReader = none ∧
        s'.openHandles = 0)) := by
  have hs := runCalls_held calls s0 s (New_held hnew) hrun
  refine ⟨hs, by rw [hs]; exact heldOpen_le_one _, ?_, ?_⟩
  · intro lenp m hm
    have hmh := heads_held s.dir lenp (Read.fuel s lenp) (toStream s) [] hs m hm
    refine ⟨hmh, by rw [hmh]; exact heldOpen_le_one _, ?_, ?_⟩
    · intro hr
      rw [hmh, hr]
      rfl
    · intro h m0 hat
      have h0 := atHand_held hmh hat
      exact ⟨h0, by rw [h0]; exact heldOpen_le_one _⟩
  · intro offset whence r s' hseek
    exact Seek_held hs hseek

/-- Witness of C20: the two files of the test after a read, a seek into the
second file and another read, with the handle of the second file open. -/
theorem single_handle_discipline_witness :
    New testDir ["file1.txt", "file2.txt"] = .ok fresh ∧
    ∃ s, runCalls [Call.read 5, Call.seek 18 0, Call.read 3] fresh = some s ∧
      s.openHandles = 1 ∧ s.openHandles = heldOpen s.currentReader ∧ s.openHandles ≤ 1 :=
  ⟨rfl,
    { fresh with entriesOffset := 1, currentReader := some ⟨bytes "file2 content", 8, false⟩,
                 totalOffset := 21, fileOffset := 8, openHandles := 1 },
    rfl, rfl,
    (single_handle_discipline testDir ["file1.txt", "file2.txt"]
      [Call.read 5, Call.seek 18 0, Call.read 3] fresh _ rfl rfl).1,
    (single_handle_discipline testDir ["file1.txt", "file2.txt"]
      [Call.read 5, Call.seek 18 0, Call.read 3] fresh _ rfl rfl).2.1⟩

/-! ## Examples on the files of the tests -/

/-- C13 (zero-entries stream).  For every store, `New` with no entries returns
a reader whose total size is 0, and for every buffer length `Read` on it
returns `(0, io.EOF)` and leaves the reader as it was: no handle is opened,
and every further `Read` does the same. -/
theorem Read_of_no_entries (dir : FS) :
    ∃ s0, New dir [] = .ok s0 ∧ s0.totalSize = 0 ∧ s0.currentReader = none ∧
      s0.openHandles = 0 ∧
      ∀ lenp, Read s0 lenp = some (([], some Error.EOF), s0) := by
  refine ⟨_, rfl, rfl, rfl, rfl, ?_⟩
  intro lenp
  simp [Read, Read.fuel, Read.loop, openCurrentFile]

/-- Witness of C13: the empty reader over the directory of the tests, read
with a buffer of length 10. -/
theorem Read_of_no_entries_witness :
    ∃ s0, New testDir [] = .ok s0 ∧ Read s0 10 = some (([], some Error.EOF), s0) :=
  (Read_of_no_entries testDir).imp fun _ h => ⟨h.1, h.2.2.2.2 10⟩

/-- C11 (`Close` is idempotent) fails: on the reader of the two 13-byte test
files, after a `Read` of 5 bytes has opened a handle, the first `Close`
returns nil, but it leaves the closed handle in `currentReader`, and the
second `Close` closes that handle again and returns the error of a closed
file. -/
theorem second_Close_fails :
    New testDir ["file1.txt", "file2.txt"] = .ok fresh ∧
    ∃ s1 s2, Read fresh 5 = some ((bytes "file1", none), s1) ∧
      Close s1 = (none, s2) ∧ s2.currentReader.isSome = true ∧
      Close s2 = (some Error.ErrClosed, s2) :=
  ⟨rfl, _, _, rfl, rfl, rfl, rfl⟩

/-- C16 (cursor bound) fails: on the reader of the two 13-byte test files,
`Seek 0 io.SeekEnd` followed by a `Read` of 5 bytes leaves the cursor at 31,
above the total size 26. -/
theorem cursor_exceeds_total_size :
    New testDir ["file1.txt", "file2.txt"] = .ok fresh ∧
    ∃ r1 s1 r2 s2, Seek fresh 0 2 = some (r1, s1) ∧ Read s1 5 = some (r2, s2) ∧
      s2.totalSize = 26 ∧ s2.totalOffset = 31 ∧ ¬ (s2.totalOffset ≤ s2.totalSize) :=
  ⟨rfl, _, _, _, _, rfl, rfl, rfl, rfl, by decide⟩

/-- C14 (offset translation by `Seek`).  For every reader with one
non-negative size per entry (zero sizes included) whose total size is the sum
of the sizes, an `int64`, and every offset and anchor whose absolute target
`abs` satisfies `0 ≤ abs < totalSize`: `Seek` returns `(abs, nil)` and leaves
the cursor at `abs`, the index at the least `i` with
`sizes[0] + ... + sizes[i] > abs`, and the file offset at `abs` minus the sum
of the sizes before that index; so the index is below the number of entries,
`0 ≤ fileOffset < sizes[index]`, and the entry at the index is not empty. -/
theorem Seek_offset_translation (s : MultiFileReader) (offset whence abs : Int)
    (hnn : ∀ x ∈ s.filesizes, 0 ≤ x) (hlen : s.filesizes.length = s.filepaths.length)
    (htotal : s.totalSize = s.filesizes.sum) (hfit : s.totalSize < 9223372036854775808)
    (htarget : Seek.target s offset whence = some abs) (h0 : 0 ≤ abs)
    (hlt : abs < s.totalSize) :
    ∃ s', Seek s offset whence = some ((abs, none), s') ∧ s'.totalOffset = abs ∧
      abs < (s.filesizes.take (s'.entriesOffset + 1)).sum ∧
      (∀ i, i < s'.entriesOffset → (s.filesizes.take (i + 1)).sum ≤ abs) ∧
      s'.fileOffset = abs - (s.filesizes.take s'.entriesOffset).sum ∧
      s'.entriesOffset < s.filepaths.length ∧
      0 ≤ s'.fileOffset ∧ s'.fileOffset < s.filesizes.getD s'.entriesOffset 0 ∧
      0 < s.filesizes.getD s'.entriesOffset 0 ∧ SameStream s s' := by
  obtain ⟨hp, hd, hf, ht, _⟩ := Seek.release_fields s
  have habs := Seek.abs_of_target htarget ⟨by omega, by omega⟩
  obtain ⟨j, hscan, hj, hle, hgt⟩ := Seek.scan_spec s.filesizes abs hnn
    (by rw [← htotal]; exact hfit) (by rw [← htotal]; exact hlt) s.filepaths.length 0
    (by rw [hlen]; omega) (by simpa using h0)
  simp only [List.take_zero, List.sum_nil] at hscan
  have hb := sum_take_le hnn j
  have hw : wrap64 (abs - (s.filesizes.take j).sum) = abs - (s.filesizes.take j).sum :=
    wrap64_of_inInt64 ⟨by omega, by omega⟩
  have hseek := Seek_at_scan s offset whence abs j _ habs h0 hlt hscan
  rw [hw] at hseek
  refine ⟨_, hseek, rfl, ?_, ?_, rfl, ?_, ?_, ?_, ?_, ⟨hp, hd, hf, ht⟩⟩
  · show abs < (s.filesizes.take (j + 1)).sum
    rw [sum_take_succ_getD]; exact hgt
  · intro i hi
    have hi' : i < j := hi
    exact le_trans (sum_take_mono hnn (by omega)) hle
  · show j < s.filepaths.length
    omega
  · show 0 ≤ abs - (s.filesizes.take j).sum
    omega
  · show abs - (s.filesizes.take j).sum < s.filesizes.getD j 0
    omega
  · show 0 < s.filesizes.getD j 0
    omega

/-- Witness of C14: `Seek 18 io.SeekStart` on the two 13-byte files returns
18, leaves the cursor at 18, the index below the number of entries and the
file offset at 18 minus the sizes before the index. -/
theorem Seek_offset_translation_witness :
    ∃ s', Seek fresh 18 0 = some ((18, none), s') ∧ s'.totalOffset = 18 ∧
      s'.fileOffset = 18 - (fresh.filesizes.take s'.entriesOffset).sum ∧
      s'.entriesOffset < fresh.filepaths.length :=
  (Seek_offset_translation fresh 18 0 18 (by decide) (by decide) (by decide) (by decide)
    (by decide) (by decide) (by decide)).imp
    fun _ h => ⟨h.1, h.2.1, h.2.2.2.2.1, h.2.2.2.2.2.1⟩

end Mfr
